import Mathlib

/- Shallow embedding of the Serializable utility (the object-graph
   serializer/deserializer) and the UiUtils deep-copy utility of this
   repository.

   JavaScript objects are modelled as nodes in a heap (a list of nodes indexed
   by address); object identity is address equality.  JSON.stringify and
   JSON.parse are modelled at the level of JSON trees: serialize produces the
   Json tree that stringify would emit and deserialize consumes a Json tree,
   since JSON.parse (JSON.stringify t) = t for every JSON tree t.  Recursive
   traversals of possibly-cyclic live graphs take an explicit fuel argument;
   exhausting the fuel is reported as Err.noFuel, while a genuine JavaScript
   TypeError (reading .constructor.name of a null-prototype object, or
   iterating a non-iterable payload) is reported as Err.typeError.

   The class registry (the static classMap, whose built-in entries are Date,
   Set, Map and Array, extended by makeSerializable registrations) is passed
   as an explicit list of registered type names.  The set of classes whose
   prototype carries the SERIALIZED_CLASS symbol (installed by the authoring
   decorator, which lives outside this repository's sources) is likewise an
   explicit parameter. -/

abbrev Addr := Nat

inductive Prim where
  | null
  | undef
  | bool (b : Bool)
  | num (n : Int)
  | str (s : String)
  deriving DecidableEq, Repr

inductive Value where
  | prim (p : Prim)
  | obj (a : Addr)
  deriving DecidableEq, Repr

/-- Composite heap nodes: array, Set, Map, Date (its instant kept as the
ISO-8601 string, together with any own enumerable properties attached to the
Date object), and general objects.  A record with ctor = none models an object
whose prototype is null, so that reading its constructor yields undefined. -/
inductive Node where
  | arr (elems : List Value)
  | set (elems : List Value)
  | map (entries : List (Value × Value))
  | date (instant : String) (props : List (String × Value))
  | record (ctor : Option String) (props : List (String × Value))
  deriving DecidableEq, Repr

abbrev Heap := List Node

inductive Err where
  | typeError
  | noFuel
  deriving DecidableEq, Repr

/-- JSON trees, the image of JSON.parse (and the abstract form of the text
emitted by JSON.stringify). -/
inductive Json where
  | null
  | bool (b : Bool)
  | num (n : Int)
  | str (s : String)
  | arr (elems : List Json)
  | obj (props : List (String × Json))
  deriving Repr

mutual

def Json.beq : Json → Json → Bool
  | .null, .null => true
  | .bool a, .bool b => a == b
  | .num a, .num b => a == b
  | .str a, .str b => a == b
  | .arr xs, .arr ys => Json.beqList xs ys
  | .obj xs, .obj ys => Json.beqProps xs ys
  | _, _ => false

def Json.beqList : List Json → List Json → Bool
  | [], [] => true
  | x :: xs, y :: ys => Json.beq x y && Json.beqList xs ys
  | _, _ => false

def Json.beqProps : List (String × Json) → List (String × Json) → Bool
  | [], [] => true
  | (k1, v1) :: xs, (k2, v2) :: ys => k1 == k2 && Json.beq v1 v2 && Json.beqProps xs ys
  | _, _ => false

end

instance : BEq Json := ⟨Json.beq⟩

/-- Built-in registry entries, as initialised in the static classMap. -/
def builtinClassMap : List String := ["Date", "Set", "Map", "Array"]

/-- JavaScript Set.add: appends the element unless an equal element (by
SameValueZero, which is plain equality on our Value type) is present. -/
def setAdd (elems : List Value) (v : Value) : List Value :=
  if elems.contains v then elems else elems ++ [v]

/-- JavaScript Map.set: overwrites the value of an existing key in place,
otherwise appends the new entry. -/
def mapPut (entries : List (Value × Value)) (k v : Value) : List (Value × Value) :=
  if (entries.lookup k).isSome then
    entries.map (fun e => if e.1 = k then (e.1, v) else e)
  else
    entries ++ [(k, v)]

/-- Property assignment obj[k] = v: overwrites an existing own property in
place, otherwise appends it. -/
def propPut (props : List (String × Value)) (k : String) (v : Value) :
    List (String × Value) :=
  if (props.lookup k).isSome then
    props.map (fun e => if e.1 = k then (e.1, v) else e)
  else
    props ++ [(k, v)]

namespace Serializable

/-- Source isObject: value !== null and typeof value === 'object'. -/
def isObject : Value → Bool
  | .obj _ => true
  | .prim _ => false

/-- Source getClassName: strips the "bound " naming wrapper added to proxied
objects (the \s of the source regex is embedded as the space character). -/
def getClassName (constructorName : String) : String :=
  if 6 < constructorName.length && constructorName.startsWith "bound " then
    constructorName.drop 6
  else
    constructorName

/-- Reading instance.constructor.name: throws a TypeError when the object has
a null prototype (its constructor is undefined). -/
def ctorName : Node → Except Err String
  | .arr _ => .ok "Array"
  | .set _ => .ok "Set"
  | .map _ => .ok "Map"
  | .date _ _ => .ok "Date"
  | .record (some c) _ => .ok c
  | .record none _ => .error .typeError

/-- Test SERIALIZED_CLASS in instance: the symbol lives on the prototype of
the classes processed by the authoring decorator. -/
def hasSerializedSymbol (marked : List String) : Node → Bool
  | .record (some c) _ => marked.contains c
  | _ => false

abbrev SeenS := List (Addr × String)

/-- Intermediate result of serializeObject, before JSON.stringify: either a
primitive passed through, a raw live object returned unchanged (the
unregistered-kind fall-through), a back-reference object, or an assembled
node for one of the registered kinds. -/
inductive SOut where
  | prim (p : Prim)
  | raw (a : Addr)
  | backref (id : String)
  | setNode (cls id : String) (marked : Bool) (values : List SOut)
  | mapNode (cls id : String) (marked : Bool) (entries : List (SOut × SOut))
  | dateNode (cls id : String) (marked : Bool) (instant : String)
  | objNode (cls id : String) (marked : Bool) (props : List (String × SOut))
  deriving Repr

/-- Extracts the primitive of a non-object value; the obj branch is
unreachable at every use site (guarded by isObject). -/
def asPrim : Value → Prim
  | .obj _ => .undef
  | .prim p => p

/-- One element position of a serialization loop: the source conditional
isObject(item) ? serializeObject(item, seen) : item. -/
def encItem (f : Value → SeenS → Except Err (SOut × SeenS)) (v : Value) (s : SeenS) :
    Except Err (SOut × SeenS) :=
  if isObject v then f v s else .ok (.prim (asPrim v), s)

def encList (f : Value → SeenS → Except Err (SOut × SeenS)) :
    List Value → SeenS → Except Err (List SOut × SeenS)
  | [], s => .ok ([], s)
  | v :: vs, s => do
    let (o, s1) ← encItem f v s
    let (os, s2) ← encList f vs s1
    .ok (o :: os, s2)

def encPairs (f : Value → SeenS → Except Err (SOut × SeenS)) :
    List (Value × Value) → SeenS → Except Err (List (SOut × SOut) × SeenS)
  | [], s => .ok ([], s)
  | (k, v) :: rest, s => do
    let (ko, s1) ← encItem f k s
    let (vo, s2) ← encItem f v s1
    let (ros, s3) ← encPairs f rest s2
    .ok ((ko, vo) :: ros, s3)

def encProps (f : Value → SeenS → Except Err (SOut × SeenS)) :
    List (String × Value) → SeenS → Except Err (List (String × SOut) × SeenS)
  | [], s => .ok ([], s)
  | (key, v) :: rest, s => do
    let (o, s1) ← encItem f v s
    let (os, s2) ← encProps f rest s1
    .ok ((key, o) :: os, s2)

/-- Own enumerable properties of an array: its indices as string keys, in
ascending order (what Object.assign followed by the for-in loop walks). -/
def indexedProps (elems : List Value) : List (String × Value) :=
  elems.enum.map (fun p => (Nat.repr p.1, p.2))

/-- Registered-kind payload construction of serializeObject: the per-kind
branch of the source, with f the recursive serialization call. -/
def serPayload (f : Value → SeenS → Except Err (SOut × SeenS))
    (className id : String) (mk : Bool) (n : Node) (s : SeenS) :
    Except Err (SOut × SeenS) :=
  match n with
  | .set elems => do
    let (outs, s2) ← encList f elems s
    .ok (.setNode className id mk outs, s2)
  | .map entries => do
    let (outs, s2) ← encPairs f entries s
    .ok (.mapNode className id mk outs, s2)
  | .date instant _ => .ok (.dateNode className id mk instant, s)
  | .arr elems => do
    let (outs, s2) ← encProps f (indexedProps elems) s
    .ok (.objNode className id mk outs, s2)
  | .record _ props => do
    let (outs, s2) ← encProps f props s
    .ok (.objNode className id mk outs, s2)

/-- Source serializeObject.  cm is the registry (classMap key set), marked the
set of classes carrying the SERIALIZED_CLASS symbol, h the live heap. -/
def serializeObject (cm marked : List String) (h : Heap) :
    Nat → Value → SeenS → Except Err (SOut × SeenS)
  | 0, _, _ => .error .noFuel
  | _ + 1, .prim p, s => .ok (.prim p, s)
  | fuel + 1, .obj a, s =>
    match s.lookup a with
    | some id => .ok (.backref id, s)
    | none =>
      match h.get? a with
      | none => .error .typeError
      | some n => do
        let cn ← ctorName n
        let className := getClassName cn
        let registered := cm.contains className
        let id := className ++ "_" ++ Nat.repr s.length
        let s1 := s ++ [(a, id)]
        if registered then
          serPayload (serializeObject cm marked h fuel) className id
            (hasSerializedSymbol marked n) n s1
        else
          .ok (.raw a, s1)

/-- JSON image of a primitive; none models the undefined result of
JSON.stringify (key omitted inside objects, null inside arrays). -/
def primJson : Prim → Option Json
  | .null => some .null
  | .undef => none
  | .bool b => some (.bool b)
  | .num n => some (.num n)
  | .str s => some (.str s)

def jsonOptList (f : Value → Except Err (Option Json)) :
    List Value → Except Err (List Json)
  | [] => .ok []
  | v :: vs => do
    let j ← f v
    let js ← jsonOptList f vs
    .ok (j.getD .null :: js)

def jsonOptProps (f : Value → Except Err (Option Json)) :
    List (String × Value) → Except Err (List (String × Json))
  | [] => .ok []
  | (k, v) :: rest => do
    let j ← f v
    let js ← jsonOptProps f rest
    match j with
    | some jv => .ok ((k, jv) :: js)
    | none => .ok js

/-- JSON.stringify on a raw live value (the unregistered fall-through): plain
recursion into own enumerable properties, with Sets and Maps degrading to {}
and Dates replaced by their toJSON string. -/
def rawJson (h : Heap) : Nat → Value → Except Err (Option Json)
  | 0, _ => .error .noFuel
  | _ + 1, .prim p => .ok (primJson p)
  | fuel + 1, .obj a =>
    match h.get? a with
    | none => .error .typeError
    | some (.arr elems) => do
      let js ← jsonOptList (rawJson h fuel) elems
      .ok (some (.arr js))
    | some (.set _) => .ok (some (.obj []))
    | some (.map _) => .ok (some (.obj []))
    | some (.date instant _) => .ok (some (.str instant))
    | some (.record _ props) => do
      let js ← jsonOptProps (rawJson h fuel) props
      .ok (some (.obj js))

def markedProps (mk : Bool) : List (String × Json) :=
  if mk then [("SERIALIZED_CLASS", Json.bool true)] else []

def soutOptList (f : SOut → Except Err (Option Json)) :
    List SOut → Except Err (List Json)
  | [] => .ok []
  | o :: os => do
    let j ← f o
    let js ← soutOptList f os
    .ok (j.getD .null :: js)

def soutOptPairs (f : SOut → Except Err (Option Json)) :
    List (SOut × SOut) → Except Err (List Json)
  | [] => .ok []
  | (k, v) :: rest => do
    let kj ← f k
    let vj ← f v
    let js ← soutOptPairs f rest
    .ok (Json.arr [kj.getD .null, vj.getD .null] :: js)

def soutOptProps (f : SOut → Except Err (Option Json)) :
    List (String × SOut) → Except Err (List (String × Json))
  | [] => .ok []
  | (k, o) :: rest => do
    let j ← f o
    let js ← soutOptProps f rest
    match j with
    | some jv => .ok ((k, jv) :: js)
    | none => .ok js

/-- JSON.stringify of the tree assembled by serializeObject, with the key
order produced by the source (metadata first, then the payload, then the
SERIALIZED_CLASS flag). -/
def jsonify (h : Heap) : Nat → SOut → Except Err (Option Json)
  | 0, _ => .error .noFuel
  | _ + 1, .prim p => .ok (primJson p)
  | fuel + 1, .raw a => rawJson h (fuel + 1) (.obj a)
  | _ + 1, .backref id => .ok (some (.obj [("__ref", .str id)]))
  | fuel + 1, .setNode cls id mk values => do
    let js ← soutOptList (jsonify h fuel) values
    .ok (some (.obj ([("__class", .str cls), ("__id", .str id),
      ("values", .arr js), ("__set", .bool true)] ++ markedProps mk)))
  | fuel + 1, .mapNode cls id mk entries => do
    let js ← soutOptPairs (jsonify h fuel) entries
    .ok (some (.obj ([("__class", .str cls), ("__id", .str id),
      ("entries", .arr js), ("__map", .bool true)] ++ markedProps mk)))
  | _ + 1, .dateNode cls id mk instant =>
    .ok (some (.obj ([("__class", .str cls), ("__id", .str id),
      ("__date", .bool true), ("date", .str instant)] ++ markedProps mk)))
  | fuel + 1, .objNode cls id mk props => do
    let js ← soutOptProps (jsonify h fuel) props
    .ok (some (.obj ([("__class", .str cls), ("__id", .str id)] ++ js ++ markedProps mk)))

/-- Source serialize: run serializeObject with a fresh seen table, then
JSON.stringify the result (modelled as the JSON tree the text denotes). -/
def serialize (cm marked : List String) (h : Heap) (fuel : Nat) (v : Value) :
    Except Err (Option Json) := do
  let (o, _) ← serializeObject cm marked h fuel v []
  jsonify h fuel o

/-- Property access p.name on a parsed JSON value: own-property lookup on
objects, undefined on everything else (the decoder only ever queries
non-numeric metadata names, which arrays and strings never carry). -/
def jget : Json → String → Option Json
  | .obj props, k => props.lookup k
  | _, _ => none

/-- JavaScript truthiness of a possibly-absent property value. -/
def truthy : Option Json → Bool
  | none => false
  | some .null => false
  | some (.bool b) => b
  | some (.num n) => !(n == 0)
  | some (.str s) => !(s == "")
  | some (.arr _) => true
  | some (.obj _) => true

/-- Source isObject applied to a parsed JSON value. -/
def jIsObject : Json → Bool
  | .obj _ => true
  | .arr _ => true
  | _ => false

/-- Value of a non-object JSON leaf; the two object branches are unreachable
at every use site (guarded by jIsObject). -/
def jprimVal : Json → Value
  | .arr _ => .prim .undef
  | .obj _ => .prim .undef
  | .null => .prim .null
  | .bool b => .prim (.bool b)
  | .num n => .prim (.num n)
  | .str s => .prim (.str s)

/-- References table of one deserialize traversal: keys are the __id values
of already-reconstructed nodes (none is the undefined key stored for inputs
that carry no __id); values are the reconstructed objects.  Map.get on a
missing key yields undefined. -/
abbrev Refs := List (Option Json × Value)

def refsGet (r : Refs) (k : Option Json) : Value :=
  (r.lookup k).getD (.prim .undef)

/-- JavaScript Map.set on the references table (overwrite in place or
append). -/
def refsPut (r : Refs) (k : Option Json) (v : Value) : Refs :=
  if (r.lookup k).isSome then
    r.map (fun e => if e.1 == k then (e.1, v) else e)
  else
    r ++ [(k, v)]

/-- Registry lookup keyed by the __class property: only a registered string
tag yields a constructor. -/
def decCtor (cm : List String) : Option Json → Option String
  | some (.str s) => if cm.contains s then some s else none
  | _ => none

/-- Argument of new Date(jsonObject.date), kept at the string level; any
non-string argument is modelled as an invalid date (numeric timestamp
arguments never occur in serializer output). -/
def dateOf : Option Json → String
  | some (.str s) => s
  | _ => "Invalid Date"

/-- Payload iterated by for (... of jsonObject.values) or .entries: anything
but an array throws a TypeError (iteration over strings is not modelled; the
decoder never receives one from serializer output). -/
def jsonList : Option Json → Except Err (List Json)
  | some (.arr l) => .ok l
  | _ => .error .typeError

/-- Own enumerable key/value pairs walked by for (const key in jsonObject):
the properties of an object, the indices of an array. -/
def jKeys : Json → List (String × Json)
  | .obj props => props
  | .arr elems => elems.enum.map (fun p => (Nat.repr p.1, p.2))
  | _ => []

/-- Test typeof instance[key] === "undefined" on a shell under population.
Array shells are filled with strictly ascending fresh index keys, so the read
is always undefined for them. -/
def shellKeyUndef (n : Node) (k : String) : Bool :=
  match n with
  | .arr _ => true
  | .set _ => true
  | .map _ => true
  | .date _ props =>
    match props.lookup k with
    | none => true
    | some (.prim .undef) => true
    | some _ => false
  | .record _ props =>
    match props.lookup k with
    | none => true
    | some (.prim .undef) => true
    | some _ => false

/-- Assignment instance[key] = v on a shell: index append for arrays,
property write for dates and records (Sets and Maps are populated through
their own branches, never through the key loop). -/
def shellAssign (n : Node) (k : String) (v : Value) : Node :=
  match n with
  | .arr elems => .arr (elems ++ [v])
  | .set elems => .set elems
  | .map entries => .map entries
  | .date i props => .date i (propPut props k v)
  | .record c props => .record c (propPut props k v)

/-- Add a decoded element to the Set shell at address a. -/
def heapSetAdd (h : Heap) (a : Addr) (v : Value) : Except Err Heap :=
  match h.get? a with
  | some (.set elems) => .ok (h.set a (.set (setAdd elems v)))
  | _ => .error .typeError

/-- Set a decoded entry on the Map shell at address a. -/
def heapMapPut (h : Heap) (a : Addr) (k v : Value) : Except Err Heap :=
  match h.get? a with
  | some (.map entries) => .ok (h.set a (.map (mapPut entries k v)))
  | _ => .error .typeError

/-- Assign a decoded property on the shell at address a. -/
def heapAssign (h : Heap) (a : Addr) (k : String) (v : Value) : Except Err Heap :=
  match h.get? a with
  | some n => .ok (h.set a (shellAssign n k v))
  | none => .error .typeError

/-- Guard read on the shell at address a. -/
def heapKeyUndef (h : Heap) (a : Addr) (k : String) : Bool :=
  match h.get? a with
  | some n => shellKeyUndef n k
  | none => true

/-- One value position of a decode loop: the source conditional
isObject(value) ? deserializeObject(value, references) : value. -/
def decItem (f : Json → Heap → Refs → Except Err (Value × Heap × Refs))
    (j : Json) (h : Heap) (r : Refs) : Except Err (Value × Heap × Refs) :=
  if jIsObject j then f j h r else .ok (jprimVal j, h, r)

/-- A possibly-missing destructured component ([key, value] of an entries
element): undefined when absent. -/
def decItemOpt (f : Json → Heap → Refs → Except Err (Value × Heap × Refs))
    (oj : Option Json) (h : Heap) (r : Refs) : Except Err (Value × Heap × Refs) :=
  match oj with
  | none => .ok (.prim .undef, h, r)
  | some j => decItem f j h r

def decSetItems (f : Json → Heap → Refs → Except Err (Value × Heap × Refs))
    (a : Addr) : List Json → Heap → Refs → Except Err (Heap × Refs)
  | [], h, r => .ok (h, r)
  | j :: js, h, r => do
    let (v, h1, r1) ← decItem f j h r
    let h2 ← heapSetAdd h1 a v
    decSetItems f a js h2 r1

def decMapEntries (f : Json → Heap → Refs → Except Err (Value × Heap × Refs))
    (a : Addr) : List Json → Heap → Refs → Except Err (Heap × Refs)
  | [], h, r => .ok (h, r)
  | e :: es, h, r =>
    match e with
    | .arr l => do
      let (kv, h1, r1) ← decItemOpt f (l.get? 0) h r
      let (vv, h2, r2) ← decItemOpt f (l.get? 1) h1 r1
      let h3 ← heapMapPut h2 a kv vv
      decMapEntries f a es h3 r2
    | _ => .error .typeError

/-- Key loop of decode population.  useGuard selects the registered-kind
branch (which skips keys the shell already defines as non-undefined); the
unregistered plain-record branch runs without the guard.  The keys __class
and __id are always skipped. -/
def decProps (f : Json → Heap → Refs → Except Err (Value × Heap × Refs))
    (a : Addr) (useGuard : Bool) :
    List (String × Json) → Heap → Refs → Except Err (Heap × Refs)
  | [], h, r => .ok (h, r)
  | (k, j) :: rest, h, r =>
    if k == "__class" || k == "__id" then
      decProps f a useGuard rest h r
    else if useGuard && !heapKeyUndef h a k then
      decProps f a useGuard rest h r
    else do
      let (v, h1, r1) ← decItem f j h r
      let h2 ← heapAssign h1 a k v
      decProps f a useGuard rest h2 r1

/-- Shell allocated by the registered-kind branch of deserializeObject. -/
def decShell (cls : String) (j : Json) : Node :=
  if cls == "Array" then .arr []
  else if truthy (jget j "__set") then .set []
  else if truthy (jget j "__map") then .map []
  else if truthy (jget j "__date") then .date (dateOf (jget j "date")) []
  else .record (some cls) []

/-- Registered-kind population of deserializeObject, dispatched on the actual
shell (the source tests instance instanceof Set / Map, everything else going
through the guarded key loop). -/
def decPayload (f : Json → Heap → Refs → Except Err (Value × Heap × Refs))
    (a : Addr) (j : Json) (shell : Node) (h : Heap) (r : Refs) :
    Except Err (Heap × Refs) :=
  match shell with
  | .set _ => do
    let vals ← jsonList (jget j "values")
    decSetItems f a vals h r
  | .map _ => do
    let es ← jsonList (jget j "entries")
    decMapEntries f a es h r
  | _ => decProps f a true (jKeys j) h r

/-- Source deserializeObject: allocates the shell dictated by the registry
entry and the metadata flags, registers it in the references table before
populating it, then populates it per kind; an unregistered (or absent) type
tag degrades to a fresh plain record receiving every own property except
__class and __id. -/
def deserializeObject (cm : List String) :
    Nat → Json → Heap → Refs → Except Err (Value × Heap × Refs)
  | 0, _, _, _ => .error .noFuel
  | fuel + 1, j, h, r =>
    if jIsObject j then
      if truthy (jget j "__ref") then
        .ok (refsGet r (jget j "__ref"), h, r)
      else
        match decCtor cm (jget j "__class") with
        | some cls =>
          let shell := decShell cls j
          let a := h.length
          let h1 := h ++ [shell]
          let r1 := refsPut r (jget j "__id") (.obj a)
          do
            let (h2, r2) ← decPayload (deserializeObject cm fuel) a j shell h1 r1
            .ok (.obj a, h2, r2)
        | none =>
          let a := h.length
          let h1 := h ++ [Node.record (some "Object") []]
          let r1 := refsPut r (jget j "__id") (.obj a)
          do
            let (h2, r2) ← decProps (deserializeObject cm fuel) a false (jKeys j) h1 r1
            .ok (.obj a, h2, r2)
    else
      .ok (jprimVal j, h, r)

/-- Source deserialize: JSON.parse the text (already modelled as a JSON
tree), then decode it with a fresh references table into a fresh heap. -/
def deserialize (cm : List String) (fuel : Nat) (j : Json) :
    Except Err (Value × Heap × Refs) :=
  deserializeObject cm fuel j [] []

end Serializable

namespace UiUtils

/-- Source isObject: value truthy and typeof value === 'object'. -/
def isObject : Value → Bool
  | .obj _ => true
  | .prim _ => false

abbrev SeenC := List (Addr × Addr)

/-- Depth bookkeeping of one copy hop: the -1 sentinel never decrements. -/
def nextLevel (level : Int) : Int :=
  if level == -1 then -1 else level - 1

/-- Shell allocation of copyObject: an empty container of the same kind; a
Date is cloned with its instant directly; a plain object is created from its
constructor's prototype, which throws when the prototype is null (reading
.prototype of the undefined constructor). -/
def copyShell : Node → Except Err Node
  | .arr _ => .ok (.arr [])
  | .set _ => .ok (.set [])
  | .map _ => .ok (.map [])
  | .date instant _ => .ok (.date instant [])
  | .record (some c) _ => .ok (.record (some c) [])
  | .record none _ => .error .typeError

/-- Own enumerable properties walked by the for-in population loop of
copyObject (the Set and Map branches are handled separately). -/
def ownProps : Node → List (String × Value)
  | .arr elems => Serializable.indexedProps elems
  | .set _ => []
  | .map _ => []
  | .date _ props => props
  | .record _ props => props

def copyItem (f : Value → Heap → SeenC → Except Err (Value × Heap × SeenC))
    (v : Value) (h : Heap) (s : SeenC) : Except Err (Value × Heap × SeenC) :=
  if isObject v then f v h s else .ok (v, h, s)

def copySetItems (f : Value → Heap → SeenC → Except Err (Value × Heap × SeenC))
    (a : Addr) : List Value → Heap → SeenC → Except Err (Heap × SeenC)
  | [], h, s => .ok (h, s)
  | v :: vs, h, s => do
    let (cv, h1, s1) ← copyItem f v h s
    let h2 ← Serializable.heapSetAdd h1 a cv
    copySetItems f a vs h2 s1

def copyMapEntries (f : Value → Heap → SeenC → Except Err (Value × Heap × SeenC))
    (a : Addr) : List (Value × Value) → Heap → SeenC → Except Err (Heap × SeenC)
  | [], h, s => .ok (h, s)
  | (k, v) :: rest, h, s => do
    let (ck, h1, s1) ← copyItem f k h s
    let (cv, h2, s2) ← copyItem f v h1 s1
    let h3 ← Serializable.heapMapPut h2 a ck cv
    copyMapEntries f a rest h3 s2

def copyProps (f : Value → Heap → SeenC → Except Err (Value × Heap × SeenC))
    (a : Addr) : List (String × Value) → Heap → SeenC → Except Err (Heap × SeenC)
  | [], h, s => .ok (h, s)
  | (k, v) :: rest, h, s =>
    if !Serializable.heapKeyUndef h a k then
      copyProps f a rest h s
    else do
      let (cv, h1, s1) ← copyItem f v h s
      let h2 ← Serializable.heapAssign h1 a k cv
      copyProps f a rest h2 s1

/-- Population of one copied shell, dispatched on the original node (the
source tests instance instanceof Set / Map, everything else going through the
guarded for-in loop over own properties). -/
def copyPayload (f : Value → Heap → SeenC → Except Err (Value × Heap × SeenC))
    (a' : Addr) (n : Node) (h : Heap) (s : SeenC) : Except Err (Heap × SeenC) :=
  match n with
  | .set elems => copySetItems f a' elems h s
  | .map entries => copyMapEntries f a' entries h s
  | _ => copyProps f a' (ownProps n) h s

/-- Source copyObject: identity tracking through seen, a true shallow stop
returning the instance itself at level 0, shell allocation per kind with the
shell registered in seen before the recursive population. -/
def copyObject : Nat → Value → Heap → SeenC → Int → Except Err (Value × Heap × SeenC)
  | 0, _, _, _, _ => .error .noFuel
  | _ + 1, .prim p, h, s, _ => .ok (.prim p, h, s)
  | fuel + 1, .obj a, h, s, level =>
    match s.lookup a with
    | some a' => .ok (.obj a', h, s)
    | none =>
      if level == 0 then
        .ok (.obj a, h, s)
      else
        match h.get? a with
        | none => .error .typeError
        | some n => do
          let shell ← copyShell n
          let a' := h.length
          let h1 := h ++ [shell]
          let s1 := s ++ [(a, a')]
          let (h2, s2) ← copyPayload
            (fun v hh ss => copyObject fuel v hh ss (nextLevel level)) a' n h1 s1
          .ok (.obj a', h2, s2)

/-- Source deepCopy: copyObject with a fresh seen table; level defaults to
the -1 full-depth sentinel at the call sites the claims quantify over. -/
def deepCopy (fuel : Nat) (v : Value) (h : Heap) (level : Int) :
    Except Err (Value × Heap × SeenC) :=
  copyObject fuel v h [] level

end UiUtils

mutual

/-- Number of properties (key, Json.str val) anywhere in a JSON tree; used to
state that an identifier occurs exactly once in a serialized output. -/
def Json.countKeyStr (key val : String) : Json → Nat
  | .obj props => Json.countKeyStrProps key val props
  | .arr elems => Json.countKeyStrList key val elems
  | _ => 0

def Json.countKeyStrList (key val : String) : List Json → Nat
  | [] => 0
  | j :: js => Json.countKeyStr key val j + Json.countKeyStrList key val js

def Json.countKeyStrProps (key val : String) : List (String × Json) → Nat
  | [] => 0
  | (k, j) :: rest =>
    (if k == key && Json.beq j (Json.str val) then 1 else 0) +
      Json.countKeyStr key val j + Json.countKeyStrProps key val rest

end

namespace Serializable

/-- Well-formedness of one seen table of the encoder: addresses are recorded
at most once and the entry at position k carries an id whose numeric suffix
is k, the table size at the moment of assignment. -/
def SeenWf (s : SeenS) : Prop :=
  (s.map Prod.fst).Nodup ∧
    ∀ k (hk : k < s.length), ∃ c, (s.get ⟨k, hk⟩).2 = c ++ "_" ++ Nat.repr k

mutual

/-- True when a serializer output tree contains no raw unregistered
fall-through value; on such trees JSON.stringify is a plain structural
rendering. -/
def SOut.noRaw : SOut → Bool
  | .prim _ => true
  | .raw _ => false
  | .backref _ => true
  | .setNode _ _ _ values => SOut.noRawList values
  | .mapNode _ _ _ entries => SOut.noRawPairs entries
  | .dateNode _ _ _ _ => true
  | .objNode _ _ _ props => SOut.noRawProps props

def SOut.noRawList : List SOut → Bool
  | [] => true
  | o :: os => SOut.noRaw o && SOut.noRawList os

def SOut.noRawPairs : List (SOut × SOut) → Bool
  | [] => true
  | (k, v) :: rest => SOut.noRaw k && SOut.noRaw v && SOut.noRawPairs rest

def SOut.noRawProps : List (String × SOut) → Bool
  | [] => true
  | (_, o) :: rest => SOut.noRaw o && SOut.noRawProps rest

end

mutual

/-- Pure JSON image of a raw-free serializer output tree (what jsonify
computes once given enough fuel; the raw branch is a dead default). -/
def SOut.toJson : SOut → Option Json
  | .prim p => primJson p
  | .raw _ => none
  | .backref id => some (.obj [("__ref", .str id)])
  | .setNode cls id mk values =>
    some (.obj ([("__class", .str cls), ("__id", .str id),
      ("values", .arr (SOut.toJsonList values)), ("__set", .bool true)] ++ markedProps mk))
  | .mapNode cls id mk entries =>
    some (.obj ([("__class", .str cls), ("__id", .str id),
      ("entries", .arr (SOut.toJsonPairs entries)), ("__map", .bool true)] ++ markedProps mk))
  | .dateNode cls id mk instant =>
    some (.obj ([("__class", .str cls), ("__id", .str id),
      ("__date", .bool true), ("date", .str instant)] ++ markedProps mk))
  | .objNode cls id mk props =>
    some (.obj ([("__class", .str cls), ("__id", .str id)] ++ SOut.toJsonProps props
      ++ markedProps mk))

def SOut.toJsonList : List SOut → List Json
  | [] => []
  | o :: os => (SOut.toJson o).getD .null :: SOut.toJsonList os

def SOut.toJsonPairs : List (SOut × SOut) → List Json
  | [] => []
  | (k, v) :: rest =>
    Json.arr [(SOut.toJson k).getD .null, (SOut.toJson v).getD .null] :: SOut.toJsonPairs rest

def SOut.toJsonProps : List (String × SOut) → List (String × Json)
  | [] => []
  | (k, o) :: rest =>
    match SOut.toJson o with
    | some jv => (k, jv) :: SOut.toJsonProps rest
    | none => SOut.toJsonProps rest

end

end Serializable

/-- Value correspondence along an address translation table: primitives are
unchanged, object references are translated. -/
def valCorr (phi : List (Addr × Addr)) : Value → Value → Prop
  | .prim p, .prim q => p = q
  | .obj a, .obj a' => phi.lookup a = some a'
  | .prim _, .obj _ => False
  | .obj _, .prim _ => False

/-- Node correspondence for the deep copy: same kind, same scalar payload,
children related by valCorr (the shape of a structurally equal graph with the
same sharing topology). -/
def nodeCorr (phi : List (Addr × Addr)) : Node → Node → Prop
  | .arr es, .arr es' => List.Forall₂ (valCorr phi) es es'
  | .set es, .set es' => List.Forall₂ (valCorr phi) es es'
  | .map en, .map en' =>
    List.Forall₂ (fun e e' => valCorr phi e.1 e'.1 ∧ valCorr phi e.2 e'.2) en en'
  | .date i ps, .date i' ps' =>
    i = i' ∧ List.Forall₂ (fun p p' => p.1 = p'.1 ∧ valCorr phi p.2 p'.2) ps ps'
  | .record c ps, .record c' ps' =>
    c = c' ∧ List.Forall₂ (fun p p' => p.1 = p'.1 ∧ valCorr phi p.2 p'.2) ps ps'
  | _, _ => False

/-- Node correspondence for the serialize/deserialize round trip: like
nodeCorr, except that a reconstructed Date carries the two bookkeeping own
properties the decoder's key loop writes onto it. -/
def decNodeCorr (phi : List (Addr × Addr)) : Node → Node → Prop
  | .arr es, .arr es' => List.Forall₂ (valCorr phi) es es'
  | .set es, .set es' => List.Forall₂ (valCorr phi) es es'
  | .map en, .map en' =>
    List.Forall₂ (fun e e' => valCorr phi e.1 e'.1 ∧ valCorr phi e.2 e'.2) en en'
  | .date i ps, .date i' ps' =>
    i = i' ∧ ps = [] ∧
      ps' = [("__date", .prim (.bool true)), ("date", .prim (.str i))]
  | .record c ps, .record c' ps' =>
    c = c' ∧ List.Forall₂ (fun p p' => p.1 = p'.1 ∧ valCorr phi p.2 p'.2) ps ps'
  | _, _ => False

/-- Validity of a value relative to a heap: object references point at
allocated nodes. -/
def valOk (h : Heap) : Value → Prop
  | .prim _ => True
  | .obj a => a < h.length

/-- Well-formedness of a node as a JavaScript runtime value: children valid,
Set elements pairwise distinct (a JS Set holds no duplicates), Map keys
pairwise distinct, own property names pairwise distinct. -/
def nodeWf (h : Heap) : Node → Prop
  | .arr es => ∀ v ∈ es, valOk h v
  | .set es => es.Nodup ∧ ∀ v ∈ es, valOk h v
  | .map en => (en.map Prod.fst).Nodup ∧ ∀ e ∈ en, valOk h e.1 ∧ valOk h e.2
  | .date _ ps => (ps.map Prod.fst).Nodup ∧ ∀ p ∈ ps, valOk h p.2
  | .record _ ps => (ps.map Prod.fst).Nodup ∧ ∀ p ∈ ps, valOk h p.2

/-- A heap that is a well-formed JavaScript object graph. -/
def WfHeap (h : Heap) : Prop := ∀ n ∈ h, nodeWf h n

/-- Property names that the decoder gives a metadata meaning (tested for
truthiness or skipped before ordinary property assignment). -/
def metaNames : List String := ["__class", "__id", "__ref", "__set", "__map", "__date"]

/-- A primitive that JSON.stringify represents faithfully (undefined is
dropped from objects and replaced by null in arrays). -/
def primSafe : Prim → Prop
  | .undef => False
  | _ => True

def valSafe : Value → Prop
  | .prim p => primSafe p
  | .obj _ => True

/-- Additional conditions under which one node survives the serialize then
deserialize round trip intact: its class is registered under its own name
(no bound-prefix renaming, and records may not masquerade as Array, whose
name selects the array shell on decode), property names avoid the decoder's
metadata names, Dates carry no own properties, no value is undefined, and no
class is decorator-marked. -/
def nodeRegistered (cm : List String) : Node → Prop
  | .arr es => "Array" ∈ cm ∧ ∀ v ∈ es, valSafe v
  | .set es => "Set" ∈ cm ∧ ∀ v ∈ es, valSafe v
  | .map en => "Map" ∈ cm ∧ ∀ e ∈ en, valSafe e.1 ∧ valSafe e.2
  | .date _ ps => "Date" ∈ cm ∧ ps = []
  | .record c ps =>
    (∃ cname, c = some cname ∧ cname ∈ cm ∧
      Serializable.getClassName cname = cname ∧ cname ≠ "Array") ∧
    ∀ p ∈ ps, p.1 ∉ metaNames ∧ valSafe p.2

/-- A well-formed heap every node of which is of a registered kind and
round-trip clean. -/
def RegisteredHeap (cm : List String) (h : Heap) : Prop :=
  WfHeap h ∧ ∀ n ∈ h, nodeRegistered cm n

/-- Decimal value of a digit string; the tool used to show that Nat.repr is
injective, which makes the ids assigned by one serialize traversal pairwise
distinct. -/
def digitsVal (l : List Char) : Nat :=
  l.foldl (fun acc c => 10 * acc + (c.toNat - 48)) 0

/- Concrete example graphs used by the scenario claims and the
   counterexamples. -/

/-- A Map m with m.set("self", m): heap address 0 holds the map, whose single
entry's value is the map itself. -/
def exSelfMap : Heap := [Node.map [(Value.prim (Prim.str "self"), Value.obj 0)]]

/-- The serialized image of exSelfMap. -/
def exSelfMapJson : Json :=
  Json.obj
    [("__class", Json.str "Map"), ("__id", Json.str "Map_0"),
     ("entries", Json.arr [Json.arr [Json.str "self", Json.obj [("__ref", Json.str "Map_0")]]]),
     ("__map", Json.bool true)]

/-- A registered tagged instance p of class P with p.a = p.b = sharedObj where
sharedObj is the unregistered plain record at address 1. -/
def exShared : Heap :=
  [Node.record (some "P") [("a", Value.obj 1), ("b", Value.obj 1)],
   Node.record (some "Object") []]

/-- Registry with the tagged class P registered besides the built-ins. -/
def exSharedCm : List String := builtinClassMap ++ ["P"]

/-- The serialized image of exShared: the first occurrence of the shared
plain record is passed through raw (an empty object) and the second became a
back-reference to the id Object_1 that no node of the output declares. -/
def exSharedJson : Json :=
  Json.obj
    [("__class", Json.str "P"), ("__id", Json.str "P_0"),
     ("a", Json.obj []),
     ("b", Json.obj [("__ref", Json.str "Object_1")])]

/-- A plain record whose property s holds a Set: the record's class Object is
not registered, so the encoder falls through without descending into the
Set. -/
def exRecordWithSet : Heap :=
  [Node.record (some "Object") [("s", Value.obj 1)],
   Node.set [Value.prim (Prim.num 1)]]

/-- An object with a null prototype (Object.create(null)) holding one
property. -/
def exNullProto : Heap := [Node.record none [("x", Value.prim (Prim.num 1))]]

/-- A plain record used by the depth-0 copy counterexample. -/
def exPlain : Heap := [Node.record (some "Object") [("x", Value.prim (Prim.num 1))]]

/-- A record whose two properties share one Set: exercises the sharing
topology of the deep copy. -/
def ex8H : Heap :=
  [Node.record (some "Object") [("x", Value.obj 1), ("y", Value.obj 1)],
   Node.set [Value.prim (Prim.num 3)]]

/-- The heap after deep-copying ex8H address 0: originals untouched, a copied
record at 2 whose two properties share the copied Set at 3. -/
def ex8H' : Heap :=
  ex8H ++
    [Node.record (some "Object") [("x", Value.obj 3), ("y", Value.obj 3)],
     Node.set [Value.prim (Prim.num 3)]]

/-- The original-to-copy translation table produced by that run. -/
def ex8S : UiUtils.SeenC := [(0, 2), (1, 3)]

namespace Serializable

/-- A recursive serialization call that only ever appends to the seen table
and preserves its well-formedness. -/
def SerInvFun (f : Value → SeenS → Except Err (SOut × SeenS)) : Prop :=
  ∀ v s o s', f v s = .ok (o, s') →
    (∃ t, s' = s ++ t) ∧ (SeenWf s → SeenWf s')

/-- A recursive decode call that only grows the heap and never rewrites a
node allocated before it started. -/
def PresFun (f : Json → Heap → Refs → Except Err (Value × Heap × Refs)) : Prop :=
  ∀ j h r v h' r', f j h r = .ok (v, h', r') →
    h.length ≤ h'.length ∧ ∀ i, i < h.length → h'.get? i = h.get? i

end Serializable

namespace UiUtils

/-- A recursive copy call that only grows the heap, never rewrites a node
allocated before it started, and only appends to the seen table. -/
def PresFunC (f : Value → Heap → SeenC → Except Err (Value × Heap × SeenC)) : Prop :=
  ∀ v h s v' h' s', f v h s = .ok (v', h', s') →
    h.length ≤ h'.length ∧ (∀ i, i < h.length → h'.get? i = h.get? i) ∧
      ∃ t, s' = s ++ t

/-- State invariant of a running deep copy over the original heap h0: the
original nodes are untouched, every seen entry translates a valid original
address to a copy allocated past the original heap, and both sides of the
translation are duplicate-free. -/
def copyInv (h0 h : Heap) (s : SeenC) : Prop :=
  h0.length ≤ h.length ∧
  (∀ i, i < h0.length → h.get? i = h0.get? i) ∧
  (∀ e ∈ s, e.1 < h0.length ∧ h0.length ≤ e.2 ∧ e.2 < h.length) ∧
  (s.map Prod.fst).Nodup ∧ (s.map Prod.snd).Nodup

/-- A finished translation entry: the copy holds the original node with every
child reference translated through the table. -/
def copyDone (h0 h : Heap) (s : SeenC) (e : Addr × Addr) : Prop :=
  ∃ n n', h0.get? e.1 = some n ∧ h.get? e.2 = some n' ∧ nodeCorr s n n'

/-- All seen entries are finished except the ones whose shells are currently
being populated. -/
def copyACE (h0 h : Heap) (s pend : SeenC) : Prop :=
  ∀ e ∈ s, e ∈ pend ∨ copyDone h0 h s e

/-- The induction hypothesis shape of the deep-copy simulation: a recursive
call sent into a sound state comes back in a sound state, having only
appended to the heap and the table, and its result is the translation of its
argument. -/
def CopySimFun (h0 : Heap) (pend : SeenC)
    (f : Value → Heap → SeenC → Except Err (Value × Heap × SeenC)) : Prop :=
  ∀ v h s v' h' s', copyInv h0 h s → copyACE h0 h s pend → valOk h0 v →
    f v h s = .ok (v', h', s') →
    copyInv h0 h' s' ∧ (∃ t, s' = s ++ t) ∧ h.length ≤ h'.length ∧
      (∀ i, i < h.length → h'.get? i = h.get? i) ∧
      (∀ e ∈ s', e ∈ s ∨ h.length ≤ e.2) ∧
      copyACE h0 h' s' pend ∧ valCorr s' v v'

end UiUtils


namespace Serializable

/-- Joint bookkeeping of one encode run and the decode run of its output: each
entry records an original address, the id the encoder assigned to it, and the
address the decoder allocated for that id. -/
abbrev Tri := List (Addr × String × Addr)

/-- The encoder's visited table carried by a joint bookkeeping list. -/
def seenOf (τ : Tri) : SeenS := τ.map (fun t => (t.1, t.2.1))

/-- The original-to-decoded address translation carried by a joint
bookkeeping list. -/
def tranOf (τ : Tri) : List (Addr × Addr) := τ.map (fun t => (t.1, t.2.2))

/-- The decoder's references table carried by a joint bookkeeping list: each
assigned id, as the __id property value it was read from, maps to the decoded
object. -/
def refsOf (τ : Tri) : Refs := τ.map (fun t => (some (Json.str t.2.1), Value.obj t.2.2))

/-- State invariant of a decode running over the output of an encode of the
original heap h0 into the decoded heap h: the encoder table carried by τ is
well formed, every entry translates a valid original address to an allocated
decoded address, and the decoded addresses are pairwise distinct. -/
def decInv (h0 h : Heap) (τ : Tri) : Prop :=
  SeenWf (seenOf τ) ∧
  (∀ t ∈ τ, t.1 < h0.length ∧ t.2.2 < h.length) ∧
  (τ.map (fun t => t.2.2)).Nodup

/-- A finished round-trip entry: the decoded node holds the original node
with every child reference translated through the table (Dates carrying the
decoder's two bookkeeping properties). -/
def decDone (h0 h : Heap) (τ : Tri) (t : Addr × String × Addr) : Prop :=
  ∃ n n', h0.get? t.1 = some n ∧ h.get? t.2.2 = some n' ∧ decNodeCorr (tranOf τ) n n'

/-- All round-trip entries are finished except the ones whose shells are
currently being populated. -/
def decACE (h0 h : Heap) (τ pend : Tri) : Prop :=
  ∀ t ∈ τ, t ∈ pend ∨ decDone h0 h τ t

/-- The induction hypothesis shape of the round-trip simulation: whenever the
encoder call encodes a clean value into an output tree, the decode of that
tree's JSON image sent into a matching state comes back in a matching state,
having extended the joint table exactly as the encoder extended its visited
table, and its result is the translation of the encoded value. -/
def RoundSim (cm : List String) (h0 : Heap) (pend : Tri)
    (fenc : Value → SeenS → Except Err (SOut × SeenS)) : Prop :=
  ∀ v o s' τ (fuel2 : Nat) h v' h' r',
    valSafe v → valOk h0 v →
    fenc v (seenOf τ) = .ok (o, s') →
    decInv h0 h τ → decACE h0 h τ pend →
    decItem (deserializeObject cm fuel2) ((SOut.toJson o).getD .null) h (refsOf τ) =
      .ok (v', h', r') →
    ∃ τ2, s' = seenOf τ2 ∧ r' = refsOf τ2 ∧ (∃ t, τ2 = τ ++ t) ∧
      decInv h0 h' τ2 ∧ decACE h0 h' τ2 pend ∧
      h.length ≤ h'.length ∧ (∀ i, i < h.length → h'.get? i = h.get? i) ∧
      (∀ t ∈ τ2, t ∈ τ ∨ h.length ≤ t.2.2) ∧
      valCorr (tranOf τ2) v v'

end Serializable

/-- A fully registered graph with sharing: a tagged instance p of the
registered class P whose properties a and b are bound to the same Set. -/
def ex1H : Heap :=
  [Node.record (some "P") [("a", Value.obj 1), ("b", Value.obj 1)],
   Node.set [Value.prim (Prim.num 5)]]

/-- The serialized image of ex1H address 0: the shared Set is encoded once
under the id Set_1 and back-referenced at its second occurrence. -/
def ex1J : Json :=
  Json.obj
    [("__class", Json.str "P"), ("__id", Json.str "P_0"),
     ("a", Json.obj
        [("__class", Json.str "Set"), ("__id", Json.str "Set_1"),
         ("values", Json.arr [Json.num 5]), ("__set", Json.bool true)]),
     ("b", Json.obj [("__ref", Json.str "Set_1")])]

/-- The references table of the decode of ex1J. -/
def ex1R : Serializable.Refs :=
  [(some (Json.str "P_0"), Value.obj 0), (some (Json.str "Set_1"), Value.obj 1)]
/- Theorems.  First a small toolkit about decimal representations, used to
   show that the ids assigned within one serialize traversal are pairwise
   distinct. -/

theorem toDigitsCore_acc (b : Nat) :
    ∀ (f n : Nat) (ds : List Char),
      Nat.toDigitsCore b f n ds = Nat.toDigitsCore b f n [] ++ ds := by
  intro f
  induction f with
  | zero => intro n ds; simp [Nat.toDigitsCore]
  | succ f ih =>
    intro n ds
    simp only [Nat.toDigitsCore]
    by_cases h : n / b = 0
    · simp [h]
    · simp only [h, if_false]
      rw [ih (n / b) (Nat.digitChar (n % b) :: ds), ih (n / b) [Nat.digitChar (n % b)]]
      simp

theorem digitChar_toNat (d : Nat) (hd : d < 10) : (Nat.digitChar d).toNat = 48 + d := by
  interval_cases d <;> rfl

theorem digitsVal_snoc (l : List Char) (c : Char) :
    digitsVal (l ++ [c]) = 10 * digitsVal l + (c.toNat - 48) := by
  simp [digitsVal, List.foldl_append]

theorem digitsVal_toDigitsCore :
    ∀ (f n : Nat), n < f → digitsVal (Nat.toDigitsCore 10 f n []) = n := by
  intro f
  induction f with
  | zero => intro n h; exact absurd h (Nat.not_lt_zero n)
  | succ f ih =>
    intro n h
    simp only [Nat.toDigitsCore]
    by_cases h0 : n / 10 = 0
    · have hn : n < 10 := by omega
      have hmod : n % 10 = n := Nat.mod_eq_of_lt hn
      simp only [h0, if_true, hmod]
      show digitsVal [Nat.digitChar n] = n
      simp [digitsVal, digitChar_toNat n hn]
    · simp only [h0, if_false]
      rw [toDigitsCore_acc, digitsVal_snoc]
      have hge : 10 ≤ n := by
        by_contra hlt
        exact h0 (Nat.div_eq_of_lt (by omega))
      have hdf : n / 10 < f := by
        have h1 : n / 10 < n := Nat.div_lt_self (by omega) (by omega)
        omega
      rw [ih (n / 10) hdf, digitChar_toNat (n % 10) (Nat.mod_lt n (by omega))]
      omega

theorem natRepr_inj (m n : Nat) (h : Nat.repr m = Nat.repr n) : m = n := by
  have hd : Nat.toDigitsCore 10 (m + 1) m [] = Nat.toDigitsCore 10 (n + 1) n [] := by
    have := congrArg String.data h
    simpa [Nat.repr, List.asString, Nat.toDigits] using this
  have hm := digitsVal_toDigitsCore (m + 1) m (Nat.lt_succ_self m)
  have hn := digitsVal_toDigitsCore (n + 1) n (Nat.lt_succ_self n)
  rw [hd] at hm
  omega

theorem toDigitsCore_mem :
    ∀ (f n : Nat) (ds : List Char) (c : Char), c ∈ Nat.toDigitsCore 10 f n ds →
      c ∈ ds ∨ ∃ d, d < 10 ∧ c = Nat.digitChar d := by
  intro f
  induction f with
  | zero => intro n ds c hc; exact Or.inl hc
  | succ f ih =>
    intro n ds c hc
    simp only [Nat.toDigitsCore] at hc
    by_cases h0 : n / 10 = 0
    · simp only [h0, if_true] at hc
      rcases List.mem_cons.mp hc with h | h
      · exact Or.inr ⟨n % 10, Nat.mod_lt n (by omega), h⟩
      · exact Or.inl h
    · simp only [h0, if_false] at hc
      rcases ih (n / 10) (Nat.digitChar (n % 10) :: ds) c hc with h | h
      · rcases List.mem_cons.mp h with h | h
        · exact Or.inr ⟨n % 10, Nat.mod_lt n (by omega), h⟩
        · exact Or.inl h
      · exact Or.inr h

theorem digitChar_ne_underscore (d : Nat) (hd : d < 10) : Nat.digitChar d ≠ '_' := by
  interval_cases d <;> decide

theorem repr_no_underscore (n : Nat) : ∀ c ∈ (Nat.repr n).data, c ≠ '_' := by
  intro c hc
  have hm : c ∈ Nat.toDigitsCore 10 (n + 1) n [] := by
    simpa [Nat.repr, Nat.toDigits, List.asString] using hc
  rcases toDigitsCore_mem (n + 1) n [] c hm with h | ⟨d, hd, rfl⟩
  · exact absurd h (List.not_mem_nil c)
  · exact digitChar_ne_underscore d hd

theorem sep_append_inj {α : Type} [DecidableEq α] (c : α) :
    ∀ (xs1 xs2 ys1 ys2 : List α), c ∉ xs1 → c ∉ xs2 →
      xs1 ++ c :: ys1 = xs2 ++ c :: ys2 → xs1 = xs2 ∧ ys1 = ys2 := by
  intro xs1
  induction xs1 with
  | nil =>
    intro xs2 ys1 ys2 _ h2 he
    cases xs2 with
    | nil => simpa using he
    | cons x xs2 =>
      simp only [List.nil_append, List.cons_append, List.cons.injEq] at he
      exact absurd he.1.symm (by simp at h2; exact fun hh => h2.1 hh.symm)
  | cons x xs1 ih =>
    intro xs2 ys1 ys2 h1 h2 he
    cases xs2 with
    | nil =>
      simp only [List.cons_append, List.nil_append, List.cons.injEq] at he
      exact absurd he.1.symm (by simp at h1; exact h1.1)
    | cons y xs2 =>
      simp only [List.cons_append, List.cons.injEq] at he
      have := ih xs2 ys1 ys2 (by simp at h1; exact h1.2) (by simp at h2; exact h2.2) he.2
      exact ⟨by rw [he.1, this.1], this.2⟩

theorem idString_inj (a b : String) (m n : Nat)
    (h : a ++ "_" ++ Nat.repr m = b ++ "_" ++ Nat.repr n) : m = n := by
  have hdata : a.data ++ '_' :: (Nat.repr m).data = b.data ++ '_' :: (Nat.repr n).data := by
    have := congrArg String.data h
    simpa [String.data_append] using this
  have h1 : '_' ∉ (Nat.repr m).data.reverse := by
    simp only [List.mem_reverse]
    intro hc; exact repr_no_underscore m '_' hc rfl
  have h2 : '_' ∉ (Nat.repr n).data.reverse := by
    simp only [List.mem_reverse]
    intro hc; exact repr_no_underscore n '_' hc rfl
  have hrev := congrArg List.reverse hdata
  simp only [List.reverse_append, List.reverse_cons] at hrev
  have hrev' : (Nat.repr m).data.reverse ++ '_' :: a.data.reverse =
      (Nat.repr n).data.reverse ++ '_' :: b.data.reverse := by
    simpa [List.append_assoc] using hrev
  have hsep := sep_append_inj '_' _ _ _ _ h1 h2 hrev'
  have hmn : (Nat.repr m).data = (Nat.repr n).data := by
    have := congrArg List.reverse hsep.1
    simpa using this
  have hms : Nat.repr m = Nat.repr n := by
    cases hm : Nat.repr m with | mk d1 =>
    cases hn2 : Nat.repr n with | mk d2 =>
    rw [hm, hn2] at hmn
    simp only at hmn
    simp [hmn]
  exact natRepr_inj m n hms

/- Association list lemmas for the first-match List.lookup used by every
   traversal table. -/

theorem lookup_append_left {α β : Type} [BEq α] (l1 l2 : List (α × β)) (a : α) (b : β)
    (h : l1.lookup a = some b) : (l1 ++ l2).lookup a = some b := by
  induction l1 with
  | nil => simp at h
  | cons e l1 ih =>
    rw [List.cons_append]
    cases e with | mk k v =>
    rw [List.lookup_cons] at h
    rw [List.lookup_cons]
    cases hk : a == k with
    | true => rw [hk] at h; simpa using h
    | false => rw [hk] at h; simpa using ih h

theorem lookup_append_right {α β : Type} [BEq α] (l1 l2 : List (α × β)) (a : α)
    (h : l1.lookup a = none) : (l1 ++ l2).lookup a = l2.lookup a := by
  induction l1 with
  | nil => simp
  | cons e l1 ih =>
    rw [List.cons_append]
    cases e with | mk k v =>
    rw [List.lookup_cons] at h
    rw [List.lookup_cons]
    cases hk : a == k with
    | true => rw [hk] at h; simp at h
    | false => rw [hk] at h; simpa using ih h

theorem lookup_eq_none_iff {α β : Type} [BEq α] [LawfulBEq α] (l : List (α × β)) (a : α) :
    l.lookup a = none ↔ a ∉ l.map Prod.fst := by
  induction l with
  | nil => simp
  | cons e l ih =>
    cases e with | mk k v =>
    rw [List.lookup_cons]
    cases hk : a == k with
    | true =>
      have : a = k := eq_of_beq hk
      simp [this]
    | false =>
      have : a ≠ k := by
        intro hh; rw [hh] at hk; simp at hk
      simp [this, ih]

theorem lookup_mem {α β : Type} [BEq α] [LawfulBEq α] (l : List (α × β)) (a : α) (b : β)
    (h : l.lookup a = some b) : (a, b) ∈ l := by
  induction l with
  | nil => simp at h
  | cons e l ih =>
    cases e with | mk k v =>
    rw [List.lookup_cons] at h
    cases hk : a == k with
    | true =>
      rw [hk] at h
      simp only [Option.some.injEq] at h
      have : a = k := eq_of_beq hk
      simp [this, h]
    | false =>
      rw [hk] at h
      exact List.mem_cons_of_mem _ (ih h)

theorem mem_lookup_of_keys_nodup {α β : Type} [BEq α] [LawfulBEq α]
    (l : List (α × β)) (a : α) (b : β)
    (hnd : (l.map Prod.fst).Nodup) (hmem : (a, b) ∈ l) : l.lookup a = some b := by
  induction l with
  | nil => simp at hmem
  | cons e l ih =>
    cases e with | mk k v =>
    simp only [List.map_cons, List.nodup_cons] at hnd
    rw [List.lookup_cons]
    rcases List.mem_cons.mp hmem with h | h
    · simp only [Prod.mk.injEq] at h
      rw [h.1, h.2]
      simp
    · cases hk : a == k with
      | true =>
        have : a = k := eq_of_beq hk
        subst this
        exact absurd (List.mem_map_of_mem Prod.fst h) hnd.1
      | false => simpa using ih hnd.2 h

namespace Serializable

theorem SeenWf_nil : SeenWf [] :=
  ⟨List.nodup_nil, fun k hk => absurd hk (by simp)⟩

theorem SeenWf_snoc (s : SeenS) (a : Addr) (c : String) (hs : SeenWf s)
    (ha : s.lookup a = none) :
    SeenWf (s ++ [(a, c ++ "_" ++ Nat.repr s.length)]) := by
  obtain ⟨hnd, hids⟩ := hs
  have hmem : a ∉ s.map Prod.fst := (lookup_eq_none_iff s a).mp ha
  constructor
  · rw [List.map_append]
    simp only [List.map_cons, List.map_nil]
    rw [List.nodup_append]
    refine ⟨hnd, List.nodup_singleton a, ?_⟩
    intro x hx hxa
    simp only [List.mem_singleton] at hxa
    subst hxa
    exact hmem hx
  · intro k hk
    rw [List.length_append] at hk
    simp only [List.length_singleton] at hk
    by_cases hlt : k < s.length
    · obtain ⟨c0, hc0⟩ := hids k hlt
      refine ⟨c0, ?_⟩
      rw [List.get_append _ hlt]
      exact hc0
    · have hkeq : k = s.length := by omega
      subst hkeq
      refine ⟨c, ?_⟩
      have hle : s.length ≤ s.length := le_refl _
      rw [List.get_append_right _ _ (by omega)] <;> simp

theorem SeenWf_ids_distinct (s : SeenS) (hs : SeenWf s)
    (k1 k2 : Nat) (h1 : k1 < s.length) (h2 : k2 < s.length) (hne : k1 ≠ k2) :
    (s.get ⟨k1, h1⟩).2 ≠ (s.get ⟨k2, h2⟩).2 := by
  obtain ⟨c1, hc1⟩ := hs.2 k1 h1
  obtain ⟨c2, hc2⟩ := hs.2 k2 h2
  rw [hc1, hc2]
  intro he
  exact hne (idString_inj c1 c2 k1 k2 he)

theorem SeenWf_ids_nodup (s : SeenS) (hs : SeenWf s) : (s.map Prod.snd).Nodup := by
  rw [List.nodup_iff_injective_get]
  intro i j hij
  by_contra hne
  have hi : (i : Nat) < s.length := by simpa using i.isLt
  have hj : (j : Nat) < s.length := by simpa using j.isLt
  have hne' : (i : Nat) ≠ (j : Nat) := by
    intro hh
    exact hne (Fin.ext (by simpa using hh))
  have hdist := SeenWf_ids_distinct s hs i j hi hj hne'
  apply hdist
  rw [List.get_map] at hij
  rw [List.get_map] at hij
  exact hij

/-- One-step unfolding of serializeObject on an object reference, with the
monadic plumbing reduced to explicit matches. -/
theorem ser_step_obj (cm marked : List String) (h : Heap) (fuel : Nat) (a : Addr) (s : SeenS) :
    serializeObject cm marked h (fuel + 1) (.obj a) s =
      match s.lookup a with
      | some id => .ok (.backref id, s)
      | none =>
        match h.get? a with
        | none => .error .typeError
        | some n =>
          match ctorName n with
          | .error e => .error e
          | .ok cn =>
            if cm.contains (getClassName cn) then
              serPayload (serializeObject cm marked h fuel) (getClassName cn)
                (getClassName cn ++ "_" ++ Nat.repr s.length)
                (hasSerializedSymbol marked n) n
                (s ++ [(a, getClassName cn ++ "_" ++ Nat.repr s.length)])
            else
              .ok (.raw a, s ++ [(a, getClassName cn ++ "_" ++ Nat.repr s.length)]) := by
  cases hl : s.lookup a with
  | some id => simp only [serializeObject, hl]
  | none =>
    cases hg : h.get? a with
    | none => simp only [serializeObject, hl, hg]
    | some n =>
      cases hc : ctorName n with
      | error e => simp only [serializeObject, hl, hg, hc, Bind.bind, Except.bind]
      | ok cn => simp only [serializeObject, hl, hg, hc, Bind.bind, Except.bind]

theorem ser_step_prim (cm marked : List String) (h : Heap) (fuel : Nat) (p : Prim) (s : SeenS) :
    serializeObject cm marked h (fuel + 1) (.prim p) s = .ok (.prim p, s) := rfl

theorem ser_step_seen (cm marked : List String) (h : Heap) (fuel : Nat) (a : Addr)
    (s : SeenS) (id : String) (hl : s.lookup a = some id) :
    serializeObject cm marked h (fuel + 1) (.obj a) s = .ok (.backref id, s) := by
  rw [ser_step_obj, hl]

theorem ser_step_fresh_reg (cm marked : List String) (h : Heap) (fuel : Nat) (a : Addr)
    (s : SeenS) (n : Node) (cn : String)
    (hl : s.lookup a = none) (hg : h.get? a = some n) (hc : ctorName n = .ok cn)
    (hreg : cm.contains (getClassName cn) = true) :
    serializeObject cm marked h (fuel + 1) (.obj a) s =
      serPayload (serializeObject cm marked h fuel) (getClassName cn)
        (getClassName cn ++ "_" ++ Nat.repr s.length) (hasSerializedSymbol marked n) n
        (s ++ [(a, getClassName cn ++ "_" ++ Nat.repr s.length)]) := by
  simp only [ser_step_obj, hl, hg, hc, hreg, if_true]

theorem ser_step_fresh_unreg (cm marked : List String) (h : Heap) (fuel : Nat) (a : Addr)
    (s : SeenS) (n : Node) (cn : String)
    (hl : s.lookup a = none) (hg : h.get? a = some n) (hc : ctorName n = .ok cn)
    (hreg : cm.contains (getClassName cn) = false) :
    serializeObject cm marked h (fuel + 1) (.obj a) s =
      .ok (.raw a, s ++ [(a, getClassName cn ++ "_" ++ Nat.repr s.length)]) := by
  simp only [ser_step_obj, hl, hg, hc, hreg, Bool.false_eq_true, if_false]

theorem encItem_inv {f : Value → SeenS → Except Err (SOut × SeenS)}
    (Hf : SerInvFun f) : SerInvFun (encItem f) := by
  intro v s o s' h
  unfold encItem at h
  split at h
  · exact Hf v s o s' h
  · simp only [Except.ok.injEq, Prod.mk.injEq] at h
    refine ⟨⟨[], by simp [h.2]⟩, fun hs => ?_⟩
    rw [← h.2]
    exact hs

theorem encList_inv {f : Value → SeenS → Except Err (SOut × SeenS)}
    (Hf : SerInvFun f) :
    ∀ l s os s', encList f l s = .ok (os, s') →
      (∃ t, s' = s ++ t) ∧ (SeenWf s → SeenWf s') := by
  intro l
  induction l with
  | nil =>
    intro s os s' h
    simp only [encList, Except.ok.injEq, Prod.mk.injEq] at h
    refine ⟨⟨[], by simp [h.2]⟩, fun hs => ?_⟩
    rw [← h.2]; exact hs
  | cons v vs ih =>
    intro s os s' h
    simp only [encList] at h
    cases he : encItem f v s with
    | error e =>
      simp only [he, Bind.bind, Except.bind] at h
      exact Except.noConfusion h
    | ok p =>
      simp only [he, Bind.bind, Except.bind] at h
      obtain ⟨o1, s1⟩ := p
      cases hl : encList f vs s1 with
      | error e =>
        simp only [hl, Bind.bind, Except.bind] at h
        exact Except.noConfusion h
      | ok q =>
        simp only [hl, Bind.bind, Except.bind] at h
        obtain ⟨os2, s2⟩ := q
        simp only [Except.ok.injEq, Prod.mk.injEq] at h
        obtain ⟨⟨t1, ht1⟩, h1w⟩ := encItem_inv Hf v s o1 s1 he
        obtain ⟨⟨t2, ht2⟩, h2w⟩ := ih s1 os2 s2 hl
        refine ⟨⟨t1 ++ t2, ?_⟩, fun hs => ?_⟩
        · rw [← h.2, ht2, ht1, List.append_assoc]
        · rw [← h.2]
          exact h2w (h1w hs)

theorem encPairs_inv {f : Value → SeenS → Except Err (SOut × SeenS)}
    (Hf : SerInvFun f) :
    ∀ l s os s', encPairs f l s = .ok (os, s') →
      (∃ t, s' = s ++ t) ∧ (SeenWf s → SeenWf s') := by
  intro l
  induction l with
  | nil =>
    intro s os s' h
    simp only [encPairs, Except.ok.injEq, Prod.mk.injEq] at h
    refine ⟨⟨[], by simp [h.2]⟩, fun hs => ?_⟩
    rw [← h.2]; exact hs
  | cons e rest ih =>
    intro s os s' h
    obtain ⟨k, v⟩ := e
    simp only [encPairs] at h
    cases he1 : encItem f k s with
    | error e1 =>
      simp only [he1, Bind.bind, Except.bind] at h
      exact Except.noConfusion h
    | ok p1 =>
      simp only [he1, Bind.bind, Except.bind] at h
      obtain ⟨ko, s1⟩ := p1
      cases he2 : encItem f v s1 with
      | error e2 =>
        simp only [he2, Bind.bind, Except.bind] at h
        exact Except.noConfusion h
      | ok p2 =>
        simp only [he2, Bind.bind, Except.bind] at h
        obtain ⟨vo, s2⟩ := p2
        cases hl : encPairs f rest s2 with
        | error e3 =>
          simp only [hl, Bind.bind, Except.bind] at h
          exact Except.noConfusion h
        | ok q =>
          simp only [hl, Bind.bind, Except.bind] at h
          obtain ⟨ros, s3⟩ := q
          simp only [Except.ok.injEq, Prod.mk.injEq] at h
          obtain ⟨⟨t1, ht1⟩, h1w⟩ := encItem_inv Hf k s ko s1 he1
          obtain ⟨⟨t2, ht2⟩, h2w⟩ := encItem_inv Hf v s1 vo s2 he2
          obtain ⟨⟨t3, ht3⟩, h3w⟩ := ih s2 ros s3 hl
          refine ⟨⟨t1 ++ t2 ++ t3, ?_⟩, fun hs => ?_⟩
          · rw [← h.2, ht3, ht2, ht1]
            simp [List.append_assoc]
          · rw [← h.2]
            exact h3w (h2w (h1w hs))

theorem encProps_inv {f : Value → SeenS → Except Err (SOut × SeenS)}
    (Hf : SerInvFun f) :
    ∀ l s os s', encProps f l s = .ok (os, s') →
      (∃ t, s' = s ++ t) ∧ (SeenWf s → SeenWf s') := by
  intro l
  induction l with
  | nil =>
    intro s os s' h
    simp only [encProps, Except.ok.injEq, Prod.mk.injEq] at h
    refine ⟨⟨[], by simp [h.2]⟩, fun hs => ?_⟩
    rw [← h.2]; exact hs
  | cons e rest ih =>
    intro s os s' h
    obtain ⟨key, v⟩ := e
    simp only [encProps] at h
    cases he : encItem f v s with
    | error e1 =>
      simp only [he, Bind.bind, Except.bind] at h
      exact Except.noConfusion h
    | ok p =>
      simp only [he, Bind.bind, Except.bind] at h
      obtain ⟨o1, s1⟩ := p
      cases hl : encProps f rest s1 with
      | error e2 =>
        simp only [hl, Bind.bind, Except.bind] at h
        exact Except.noConfusion h
      | ok q =>
        simp only [hl, Bind.bind, Except.bind] at h
        obtain ⟨os2, s2⟩ := q
        simp only [Except.ok.injEq, Prod.mk.injEq] at h
        obtain ⟨⟨t1, ht1⟩, h1w⟩ := encItem_inv Hf v s o1 s1 he
        obtain ⟨⟨t2, ht2⟩, h2w⟩ := ih s1 os2 s2 hl
        refine ⟨⟨t1 ++ t2, ?_⟩, fun hs => ?_⟩
        · rw [← h.2, ht2, ht1, List.append_assoc]
        · rw [← h.2]
          exact h2w (h1w hs)

theorem serPayload_inv {f : Value → SeenS → Except Err (SOut × SeenS)}
    (Hf : SerInvFun f) (className id : String) (mk : Bool) (n : Node) :
    ∀ s o s', serPayload f className id mk n s = .ok (o, s') →
      (∃ t, s' = s ++ t) ∧ (SeenWf s → SeenWf s') := by
  intro s o s' h
  cases n with
  | set elems =>
    simp only [serPayload] at h
    cases hl : encList f elems s with
    | error e =>
      simp only [hl, Bind.bind, Except.bind] at h
      exact Except.noConfusion h
    | ok q =>
      simp only [hl, Bind.bind, Except.bind] at h
      obtain ⟨os2, s2⟩ := q
      simp only [Bind.bind, Except.bind, Except.ok.injEq, Prod.mk.injEq] at h
      obtain ⟨he, hw⟩ := encList_inv Hf elems s os2 s2 hl
      exact ⟨by rw [← h.2]; exact he, fun hs => by rw [← h.2]; exact hw hs⟩
  | map entries =>
    simp only [serPayload] at h
    cases hl : encPairs f entries s with
    | error e =>
      simp only [hl, Bind.bind, Except.bind] at h
      exact Except.noConfusion h
    | ok q =>
      simp only [hl, Bind.bind, Except.bind] at h
      obtain ⟨os2, s2⟩ := q
      simp only [Bind.bind, Except.bind, Except.ok.injEq, Prod.mk.injEq] at h
      obtain ⟨he, hw⟩ := encPairs_inv Hf entries s os2 s2 hl
      exact ⟨by rw [← h.2]; exact he, fun hs => by rw [← h.2]; exact hw hs⟩
  | date instant props =>
    simp only [serPayload, Except.ok.injEq, Prod.mk.injEq] at h
    refine ⟨⟨[], by simp [h.2]⟩, fun hs => ?_⟩
    rw [← h.2]; exact hs
  | arr elems =>
    simp only [serPayload] at h
    cases hl : encProps f (indexedProps elems) s with
    | error e =>
      simp only [hl, Bind.bind, Except.bind] at h
      exact Except.noConfusion h
    | ok q =>
      simp only [hl, Bind.bind, Except.bind] at h
      obtain ⟨os2, s2⟩ := q
      simp only [Bind.bind, Except.bind, Except.ok.injEq, Prod.mk.injEq] at h
      obtain ⟨he, hw⟩ := encProps_inv Hf (indexedProps elems) s os2 s2 hl
      exact ⟨by rw [← h.2]; exact he, fun hs => by rw [← h.2]; exact hw hs⟩
  | record c props =>
    simp only [serPayload] at h
    cases hl : encProps f props s with
    | error e =>
      simp only [hl, Bind.bind, Except.bind] at h
      exact Except.noConfusion h
    | ok q =>
      simp only [hl, Bind.bind, Except.bind] at h
      obtain ⟨os2, s2⟩ := q
      simp only [Bind.bind, Except.bind, Except.ok.injEq, Prod.mk.injEq] at h
      obtain ⟨he, hw⟩ := encProps_inv Hf props s os2 s2 hl
      exact ⟨by rw [← h.2]; exact he, fun hs => by rw [← h.2]; exact hw hs⟩

theorem serializeObject_inv (cm marked : List String) (h : Heap) :
    ∀ fuel, SerInvFun (serializeObject cm marked h fuel) := by
  intro fuel
  induction fuel with
  | zero => intro v s o s' hh; simp [serializeObject] at hh
  | succ fuel ih =>
    intro v s o s' hh
    match v with
    | .prim p =>
      rw [ser_step_prim] at hh
      simp only [Except.ok.injEq, Prod.mk.injEq] at hh
      refine ⟨⟨[], by simp [hh.2]⟩, fun hs => ?_⟩
      rw [← hh.2]; exact hs
    | .obj a =>
      cases hl : s.lookup a with
      | some id =>
        rw [ser_step_seen cm marked h fuel a s id hl] at hh
        simp only [Except.ok.injEq, Prod.mk.injEq] at hh
        refine ⟨⟨[], by simp [hh.2]⟩, fun hs => ?_⟩
        rw [← hh.2]; exact hs
      | none =>
        cases hg : h.get? a with
        | none =>
          rw [ser_step_obj, hl, hg] at hh
          exact Except.noConfusion hh
        | some n =>
          cases hc : ctorName n with
          | error e =>
            have : serializeObject cm marked h (fuel + 1) (.obj a) s = .error e := by
              simp only [ser_step_obj, hl, hg, hc]
            rw [this] at hh
            exact Except.noConfusion hh
          | ok cn =>
            by_cases hreg : cm.contains (getClassName cn)
            · rw [ser_step_fresh_reg cm marked h fuel a s n cn hl hg hc hreg] at hh
              obtain ⟨⟨t, ht⟩, hw⟩ := serPayload_inv ih (getClassName cn)
                (getClassName cn ++ "_" ++ Nat.repr s.length)
                (hasSerializedSymbol marked n) n _ o s' hh
              refine ⟨⟨(a, getClassName cn ++ "_" ++ Nat.repr s.length) :: t, ?_⟩, fun hs => ?_⟩
              · rw [ht, List.append_assoc]
                rfl
              · exact hw (SeenWf_snoc s a (getClassName cn) hs hl)
            · have hreg' : cm.contains (getClassName cn) = false := by
                simpa using hreg
              rw [ser_step_fresh_unreg cm marked h fuel a s n cn hl hg hc hreg'] at hh
              simp only [Except.ok.injEq, Prod.mk.injEq] at hh
              refine ⟨⟨[(a, getClassName cn ++ "_" ++ Nat.repr s.length)], by rw [← hh.2]⟩,
                fun hs => ?_⟩
              rw [← hh.2]
              exact SeenWf_snoc s a (getClassName cn) hs hl

end Serializable

namespace Serializable

/-- One-step unfolding of deserializeObject on a non-object leaf. -/
theorem dec_step_prim (cm : List String) (fuel : Nat) (j : Json) (h : Heap) (r : Refs)
    (hobj : jIsObject j = false) :
    deserializeObject cm (fuel + 1) j h r = .ok (jprimVal j, h, r) := by
  simp only [deserializeObject, hobj, Bool.false_eq_true, if_false]

/-- One-step unfolding of deserializeObject on an object whose __ref property
is truthy: the result is whatever the references table holds for that id
(undefined when absent), with no error raised and no state change. -/
theorem dec_step_ref (cm : List String) (fuel : Nat) (j : Json) (h : Heap) (r : Refs)
    (hobj : jIsObject j = true) (htr : truthy (jget j "__ref") = true) :
    deserializeObject cm (fuel + 1) j h r = .ok (refsGet r (jget j "__ref"), h, r) := by
  simp only [deserializeObject, hobj, htr, if_true]

/-- One-step unfolding of deserializeObject on an object with no truthy __ref
and an unregistered (or absent) type tag: a fresh plain record is allocated
and populated from every own property except __class and __id. -/
theorem dec_step_unreg (cm : List String) (fuel : Nat) (j : Json) (h : Heap) (r : Refs)
    (hobj : jIsObject j = true) (htr : truthy (jget j "__ref") = false)
    (hcls : decCtor cm (jget j "__class") = none) :
    deserializeObject cm (fuel + 1) j h r =
      (match decProps (deserializeObject cm fuel) h.length false (jKeys j)
          (h ++ [Node.record (some "Object") []])
          (refsPut r (jget j "__id") (.obj h.length)) with
        | .error e => .error e
        | .ok (h2, r2) => .ok (.obj h.length, h2, r2)) := by
  simp only [deserializeObject, hobj, htr, hcls, Bool.false_eq_true, if_false, if_true,
    Bind.bind, Except.bind]
  cases decProps (deserializeObject cm fuel) h.length false (jKeys j)
      (h ++ [Node.record (some "Object") []])
      (refsPut r (jget j "__id") (.obj h.length)) with
  | error e => rfl
  | ok p => rfl

/-- One-step unfolding of deserializeObject on an object with no truthy __ref
and a registered type tag: the shell dictated by the tag and the flags is
allocated, registered in the references table, and populated. -/
theorem dec_step_reg (cm : List String) (fuel : Nat) (j : Json) (h : Heap) (r : Refs)
    (cls : String)
    (hobj : jIsObject j = true) (htr : truthy (jget j "__ref") = false)
    (hcls : decCtor cm (jget j "__class") = some cls) :
    deserializeObject cm (fuel + 1) j h r =
      (match decPayload (deserializeObject cm fuel) h.length j (decShell cls j)
          (h ++ [decShell cls j]) (refsPut r (jget j "__id") (.obj h.length)) with
        | .error e => .error e
        | .ok (h2, r2) => .ok (.obj h.length, h2, r2)) := by
  simp only [deserializeObject, hobj, htr, hcls, Bool.false_eq_true, if_false, if_true,
    Bind.bind, Except.bind]
  cases decPayload (deserializeObject cm fuel) h.length j (decShell cls j)
      (h ++ [decShell cls j]) (refsPut r (jget j "__id") (.obj h.length)) with
  | error e => rfl
  | ok p => rfl

/-- Map.get on a missing key yields undefined. -/
theorem refsGet_none (r : Refs) (k : Option Json) (hk : r.lookup k = none) :
    refsGet r k = .prim .undef := by
  simp [refsGet, hk]

end Serializable

/-- C3 counterexample: copy(v, 0) on a plain one-property record returns v
itself (the same reference, with the heap unchanged and nothing allocated),
not a new top-level shell as the claim states. -/
theorem c3_counterexample :
    UiUtils.deepCopy 9 (Value.obj 0) exPlain 0 = .ok (Value.obj 0, exPlain, []) := rfl

/-- C3 amended: copy(v, 0) is the true shallow stop of the implementation: it
returns v itself unchanged, allocating nothing, so every immediate child of
the result is trivially reference-identical to the corresponding child of
v because the result is v. -/
theorem c3_amended_level0_returns_instance (fuel : Nat) (v : Value) (h : Heap) :
    UiUtils.deepCopy (fuel + 1) v h 0 = .ok (v, h, []) := by
  cases v with
  | prim p => rfl
  | obj a => rfl

/-- C2 counterexample: deserializing the text {"__ref":"X"}, whose
back-reference id X is recorded nowhere, yields undefined with no
DanglingReferenceError (no error of any kind) surfaced. -/
theorem c2_counterexample :
    Serializable.deserialize builtinClassMap 9 (Json.obj [("__ref", Json.str "X")]) =
      .ok (.prim .undef, [], []) := rfl

/-- C2 amended: whenever a decoded object carries a truthy __ref, the decoder
returns the references-table entry for that id without raising any error, and
when the id is unrecorded that entry is undefined — an unresolved
back-reference produces a silently returned undefined, never a surfaced
DanglingReferenceError. -/
theorem c2_amended_dangling_ref_is_undefined (cm : List String) (fuel : Nat)
    (props : List (String × Json)) (h : Heap) (r : Serializable.Refs)
    (htr : Serializable.truthy (Serializable.jget (Json.obj props) "__ref") = true) :
    Serializable.deserializeObject cm (fuel + 1) (Json.obj props) h r =
      .ok (Serializable.refsGet r (Serializable.jget (Json.obj props) "__ref"), h, r) ∧
    (r.lookup (Serializable.jget (Json.obj props) "__ref") = none →
      Serializable.refsGet r (Serializable.jget (Json.obj props) "__ref") = .prim .undef) :=
  ⟨Serializable.dec_step_ref cm fuel _ h r rfl htr,
   fun hk => Serializable.refsGet_none r _ hk⟩

/-- C2 amended witness at the concrete dangling input {"__ref":"X"}. -/
theorem c2_amended_witness :
    Serializable.deserializeObject [] 1 (Json.obj [("__ref", Json.str "X")]) [] [] =
      .ok (.prim .undef, [], []) := by
  have hh := c2_amended_dangling_ref_is_undefined [] 0 [("__ref", Json.str "X")] [] [] rfl
  exact hh.1.trans (by rw [hh.2 rfl])

/-- C10: on an object whose prototype is null (so that it has no constructor
property), serialize throws while reading instance.constructor.name and
deepCopy throws while reading instance.constructor.prototype, instead of
producing a text or a copy. -/
theorem c10_null_proto_throws :
    Serializable.serialize builtinClassMap [] exNullProto 9 (Value.obj 0) = .error .typeError ∧
    UiUtils.deepCopy 9 (Value.obj 0) exNullProto (-1) = .error .typeError :=
  ⟨rfl, rfl⟩

/-- C4: for the self-containing map m.set("self", m), serialize terminates
with an output carrying exactly one back-reference (and one declaration) of
the map's id, deserialize terminates reconstructing a map whose "self" entry
is the reconstructed map itself, and deepCopy terminates producing one single
new map whose "self" entry is that copy itself. -/
theorem c4_cycle_termination :
    Serializable.serialize builtinClassMap [] exSelfMap 20 (Value.obj 0) =
      .ok (some exSelfMapJson) ∧
    Json.countKeyStr "__ref" "Map_0" exSelfMapJson = 1 ∧
    Json.countKeyStr "__id" "Map_0" exSelfMapJson = 1 ∧
    Serializable.deserialize builtinClassMap 20 exSelfMapJson =
      .ok (Value.obj 0, [Node.map [(Value.prim (Prim.str "self"), Value.obj 0)]],
        [(some (Json.str "Map_0"), Value.obj 0)]) ∧
    UiUtils.deepCopy 20 (Value.obj 0) exSelfMap (-1) =
      .ok (Value.obj 1,
        [Node.map [(Value.prim (Prim.str "self"), Value.obj 0)],
         Node.map [(Value.prim (Prim.str "self"), Value.obj 1)]], [(0, 1)]) :=
  ⟨rfl, rfl, rfl, rfl, rfl⟩

/-- C6 counterexample: a plain record (class Object, not in the registry)
holding a Set is not encoded property-by-property: serializeObject records it
in the visited table and returns it raw without visiting the Set (the visited
table gains no entry for address 1), and the final output carries no kind
tag at all — the Set degrades to the empty object of its plain JSON image. -/
theorem c6_counterexample :
    Serializable.serializeObject builtinClassMap [] exRecordWithSet 9 (Value.obj 0) [] =
      .ok (.raw 0, [(0, "Object_0")]) ∧
    Serializable.serialize builtinClassMap [] exRecordWithSet 9 (Value.obj 0) =
      .ok (some (Json.obj [("s", Json.obj [])])) :=
  ⟨rfl, rfl⟩

/-- C6 amended: the per-property recursive encoding happens only in the
registered-kind branch; a composite value whose class name is not registered
(in particular every plain record, whose class Object is never registered) is
recorded in the visited table and then returned unchanged, without the
encoder descending into its children. -/
theorem c6_amended_plain_record_passthrough (cm marked : List String) (h : Heap)
    (fuel : Nat) (a : Addr) (s : Serializable.SeenS) (n : Node) (cn : String)
    (hl : s.lookup a = none) (hg : h.get? a = some n)
    (hc : Serializable.ctorName n = .ok cn)
    (hreg : cm.contains (Serializable.getClassName cn) = false) :
    Serializable.serializeObject cm marked h (fuel + 1) (.obj a) s =
      .ok (.raw a,
        s ++ [(a, Serializable.getClassName cn ++ "_" ++ Nat.repr s.length)]) :=
  Serializable.ser_step_fresh_unreg cm marked h fuel a s n cn hl hg hc hreg

/-- C6 amended witness at the concrete record-holding-a-Set heap. -/
theorem c6_amended_witness :
    Serializable.serializeObject builtinClassMap [] exRecordWithSet 1 (Value.obj 0) [] =
      .ok (.raw 0, [(0, "Object_0")]) := by
  have hh := c6_amended_plain_record_passthrough builtinClassMap [] exRecordWithSet 0 0 []
    (Node.record (some "Object") [("s", Value.obj 1)]) "Object" rfl rfl rfl rfl
  exact hh

/-- C9: an unregistered composite is inserted into the visited table
(consuming an id of the form className_size) before the fall-through returns
it unchanged; any later encounter of the same identity yields a
back-reference node; concretely, for a tagged instance sharing one plain
record between two properties, the output carries the back-reference id
Object_1 exactly once and declares it on no node, and deserializing that
output resolves the back-reference to undefined. -/
theorem c9_unregistered_consumes_id :
    (∀ (cm marked : List String) (h : Heap) (fuel : Nat) (a : Addr)
      (s : Serializable.SeenS) (n : Node) (cn : String),
      s.lookup a = none → h.get? a = some n → Serializable.ctorName n = .ok cn →
      cm.contains (Serializable.getClassName cn) = false →
      Serializable.serializeObject cm marked h (fuel + 1) (.obj a) s =
        .ok (.raw a,
          s ++ [(a, Serializable.getClassName cn ++ "_" ++ Nat.repr s.length)])) ∧
    (∀ (cm marked : List String) (h : Heap) (fuel : Nat) (a : Addr)
      (s : Serializable.SeenS) (id : String),
      s.lookup a = some id →
      Serializable.serializeObject cm marked h (fuel + 1) (.obj a) s =
        .ok (.backref id, s)) ∧
    Serializable.serialize exSharedCm [] exShared 20 (Value.obj 0) =
      .ok (some exSharedJson) ∧
    Json.countKeyStr "__ref" "Object_1" exSharedJson = 1 ∧
    Json.countKeyStr "__id" "Object_1" exSharedJson = 0 ∧
    Serializable.deserialize exSharedCm 20 exSharedJson =
      .ok (Value.obj 0,
        [Node.record (some "P") [("a", Value.obj 1), ("b", Value.prim .undef)],
         Node.record (some "Object") []],
        [(some (Json.str "P_0"), Value.obj 0), (none, Value.obj 1)]) :=
  ⟨fun cm marked h fuel a s n cn hl hg hc hreg =>
    Serializable.ser_step_fresh_unreg cm marked h fuel a s n cn hl hg hc hreg,
   fun cm marked h fuel a s id hl =>
    Serializable.ser_step_seen cm marked h fuel a s id hl,
   rfl, rfl, rfl, rfl⟩

/-- C9 witness: the two universally quantified components instantiated at the
concrete shared-record scenario. -/
theorem c9_witness :
    Serializable.serializeObject builtinClassMap [] exRecordWithSet 1 (Value.obj 0) [] =
      .ok (.raw 0, [(0, "Object_0")]) ∧
    Serializable.serializeObject builtinClassMap [] exRecordWithSet 1 (Value.obj 0)
        [(0, "Object_0")] = .ok (.backref "Object_0", [(0, "Object_0")]) :=
  ⟨c9_unregistered_consumes_id.1 builtinClassMap [] exRecordWithSet 0 0 []
      (Node.record (some "Object") [("s", Value.obj 1)]) "Object" rfl rfl rfl rfl,
   c9_unregistered_consumes_id.2.1 builtinClassMap [] exRecordWithSet 0 0
      [(0, "Object_0")] "Object_0" rfl⟩

/-- C1 counterexample: for the tagged instance p (class P, registered) with
p.a and p.b bound to the same plain record, the round trip is not
structurally equivalent and does not preserve sharing: the decoded instance
has a bound to a reconstructed object but b bound to undefined (the raw
passthrough of the first occurrence carries no id, so the back-reference of
the second occurrence resolves to nothing). -/
theorem c1_counterexample :
    Serializable.serialize exSharedCm [] exShared 20 (Value.obj 0) =
      .ok (some exSharedJson) ∧
    Serializable.deserialize exSharedCm 20 exSharedJson =
      .ok (Value.obj 0,
        [Node.record (some "P") [("a", Value.obj 1), ("b", Value.prim .undef)],
         Node.record (some "Object") []],
        [(some (Json.str "P_0"), Value.obj 0), (none, Value.obj 1)]) ∧
    exShared.get? 0 = some (Node.record (some "P") [("a", Value.obj 1), ("b", Value.obj 1)]) ∧
    Value.prim Prim.undef ≠ Value.obj 1 :=
  ⟨rfl, rfl, rfl, by decide⟩

/-- C5: within one serialize traversal, a composite already in the visited
table is returned as a back-reference with the table unchanged (so an
identity receives at most one id and is never re-encoded); a fresh composite
is recorded under the id className_size — size being the visited-table size
at the moment of assignment — before any child is visited (the new binding
together with the old table is a prefix of the table at every later point);
and starting from a well-formed table the table stays well-formed, grows by
appending only, and both its addresses and its ids are pairwise distinct. -/
theorem c5_visited_table_invariants (cm marked : List String) (h : Heap) :
    (∀ (fuel : Nat) (a : Addr) (s : Serializable.SeenS) (id : String),
      s.lookup a = some id →
      Serializable.serializeObject cm marked h (fuel + 1) (.obj a) s =
        .ok (.backref id, s)) ∧
    (∀ (fuel : Nat) (a : Addr) (s : Serializable.SeenS) (n : Node) (cn : String)
      (o : Serializable.SOut) (s' : Serializable.SeenS),
      s.lookup a = none → h.get? a = some n → Serializable.ctorName n = .ok cn →
      Serializable.serializeObject cm marked h (fuel + 1) (.obj a) s = .ok (o, s') →
      ∃ t, s' =
        (s ++ [(a, Serializable.getClassName cn ++ "_" ++ Nat.repr s.length)]) ++ t) ∧
    (∀ (fuel : Nat) (v : Value) (s : Serializable.SeenS) (o : Serializable.SOut)
      (s' : Serializable.SeenS), Serializable.SeenWf s →
      Serializable.serializeObject cm marked h fuel v s = .ok (o, s') →
      Serializable.SeenWf s' ∧ (∃ t, s' = s ++ t) ∧
        (s'.map Prod.fst).Nodup ∧ (s'.map Prod.snd).Nodup) := by
  refine ⟨fun fuel a s id hl => Serializable.ser_step_seen cm marked h fuel a s id hl,
    fun fuel a s n cn o s' hl hg hc hrun => ?_, fun fuel v s o s' hwf hrun => ?_⟩
  · by_cases hreg : cm.contains (Serializable.getClassName cn)
    · rw [Serializable.ser_step_fresh_reg cm marked h fuel a s n cn hl hg hc hreg] at hrun
      exact (Serializable.serPayload_inv (Serializable.serializeObject_inv cm marked h fuel)
        _ _ _ n _ o s' hrun).1
    · have hreg' : cm.contains (Serializable.getClassName cn) = false := by simpa using hreg
      rw [Serializable.ser_step_fresh_unreg cm marked h fuel a s n cn hl hg hc hreg'] at hrun
      simp only [Except.ok.injEq, Prod.mk.injEq] at hrun
      exact ⟨[], by rw [← hrun.2, List.append_nil]⟩
  · obtain ⟨hext, hwf'⟩ := Serializable.serializeObject_inv cm marked h fuel v s o s' hrun
    exact ⟨hwf' hwf, hext, (hwf' hwf).1, Serializable.SeenWf_ids_nodup s' (hwf' hwf)⟩

/-- C5 witness: the three components instantiated on the self-containing map
(a re-encounter, a fresh assignment, and a full well-formed run). -/
theorem c5_witness :
    Serializable.serializeObject builtinClassMap [] exSelfMap 1 (Value.obj 0)
        [(0, "Map_0")] = .ok (.backref "Map_0", [(0, "Map_0")]) ∧
    (∃ t, [(0, "Map_0")] =
      ([] ++ [(0, Serializable.getClassName "Map" ++ "_" ++ Nat.repr 0)]) ++ t) ∧
    (Serializable.SeenWf [(0, "Map_0")] ∧ (∃ t, [(0, "Map_0")] = [] ++ t) ∧
      ([(0, "Map_0")].map Prod.fst).Nodup ∧ ([(0, "Map_0")].map Prod.snd).Nodup) := by
  have h1 := (c5_visited_table_invariants builtinClassMap [] exSelfMap).1 0 0
    [(0, "Map_0")] "Map_0" rfl
  have h2 := (c5_visited_table_invariants builtinClassMap [] exSelfMap).2.1 8 0 []
    (Node.map [(Value.prim (Prim.str "self"), Value.obj 0)]) "Map"
    (.mapNode "Map" "Map_0" false [(.prim (.str "self"), .backref "Map_0")])
    [(0, "Map_0")] rfl rfl rfl rfl
  have h3 := (c5_visited_table_invariants builtinClassMap [] exSelfMap).2.2 9 (Value.obj 0)
    [] (.mapNode "Map" "Map_0" false [(.prim (.str "self"), .backref "Map_0")])
    [(0, "Map_0")] Serializable.SeenWf_nil rfl
  exact ⟨h1, h2, h3⟩

theorem get?_set_ne {α : Type} (l : List α) (i j : Nat) (a : α) (hij : i ≠ j) :
    (l.set i a).get? j = l.get? j := by
  simp [List.get?_eq_getElem?, List.getElem?_set_ne hij]

theorem get?_append_left {α : Type} (l1 l2 : List α) (i : Nat) (hi : i < l1.length) :
    (l1 ++ l2).get? i = l1.get? i := by
  simp [List.get?_eq_getElem?, List.getElem?_append_left hi]

theorem get?_append_self {α : Type} (l1 : List α) (x : α) :
    (l1 ++ [x]).get? l1.length = some x := by
  simp [List.get?_eq_getElem?]

namespace Serializable

theorem heapSetAdd_pres (h : Heap) (a : Addr) (v : Value) (h' : Heap)
    (hrun : heapSetAdd h a v = .ok h') :
    h'.length = h.length ∧ ∀ i, i ≠ a → h'.get? i = h.get? i := by
  unfold heapSetAdd at hrun
  cases hg : h.get? a with
  | none => rw [hg] at hrun; exact Except.noConfusion hrun
  | some n =>
    rw [hg] at hrun
    cases n with
    | set elems =>
      simp only [Except.ok.injEq] at hrun
      subst hrun
      exact ⟨by simp, fun i hi => get?_set_ne h a i _ (fun hh => hi hh.symm)⟩
    | arr elems => exact Except.noConfusion hrun
    | map entries => exact Except.noConfusion hrun
    | date instant props => exact Except.noConfusion hrun
    | record c props => exact Except.noConfusion hrun

theorem heapMapPut_pres (h : Heap) (a : Addr) (k v : Value) (h' : Heap)
    (hrun : heapMapPut h a k v = .ok h') :
    h'.length = h.length ∧ ∀ i, i ≠ a → h'.get? i = h.get? i := by
  unfold heapMapPut at hrun
  cases hg : h.get? a with
  | none => rw [hg] at hrun; exact Except.noConfusion hrun
  | some n =>
    rw [hg] at hrun
    cases n with
    | map entries =>
      simp only [Except.ok.injEq] at hrun
      subst hrun
      exact ⟨by simp, fun i hi => get?_set_ne h a i _ (fun hh => hi hh.symm)⟩
    | arr elems => exact Except.noConfusion hrun
    | set elems => exact Except.noConfusion hrun
    | date instant props => exact Except.noConfusion hrun
    | record c props => exact Except.noConfusion hrun

theorem heapAssign_pres (h : Heap) (a : Addr) (k : String) (v : Value) (h' : Heap)
    (hrun : heapAssign h a k v = .ok h') :
    h'.length = h.length ∧ ∀ i, i ≠ a → h'.get? i = h.get? i := by
  unfold heapAssign at hrun
  cases hg : h.get? a with
  | none => rw [hg] at hrun; exact Except.noConfusion hrun
  | some n =>
    rw [hg] at hrun
    simp only [Except.ok.injEq] at hrun
    subst hrun
    exact ⟨by simp, fun i hi => get?_set_ne h a i _ (fun hh => hi hh.symm)⟩

theorem decItem_pres {f : Json → Heap → Refs → Except Err (Value × Heap × Refs)}
    (Hf : PresFun f) :
    ∀ j h r v h' r', decItem f j h r = .ok (v, h', r') →
      h.length ≤ h'.length ∧ ∀ i, i < h.length → h'.get? i = h.get? i := by
  intro j h r v h' r' hrun
  unfold decItem at hrun
  split at hrun
  · exact Hf j h r v h' r' hrun
  · simp only [Except.ok.injEq, Prod.mk.injEq] at hrun
    rw [← hrun.2.1]
    exact ⟨le_refl _, fun i _ => rfl⟩

theorem decItemOpt_pres {f : Json → Heap → Refs → Except Err (Value × Heap × Refs)}
    (Hf : PresFun f) :
    ∀ oj h r v h' r', decItemOpt f oj h r = .ok (v, h', r') →
      h.length ≤ h'.length ∧ ∀ i, i < h.length → h'.get? i = h.get? i := by
  intro oj h r v h' r' hrun
  cases oj with
  | none =>
    simp only [decItemOpt, Except.ok.injEq, Prod.mk.injEq] at hrun
    rw [← hrun.2.1]
    exact ⟨le_refl _, fun i _ => rfl⟩
  | some j => exact decItem_pres Hf j h r v h' r' hrun

theorem decSetItems_pres {f : Json → Heap → Refs → Except Err (Value × Heap × Refs)}
    (Hf : PresFun f) (a : Addr) :
    ∀ js h r h' r', decSetItems f a js h r = .ok (h', r') →
      h.length ≤ h'.length ∧ ∀ i, i < h.length → i ≠ a → h'.get? i = h.get? i := by
  intro js
  induction js with
  | nil =>
    intro h r h' r' hrun
    simp only [decSetItems, Except.ok.injEq, Prod.mk.injEq] at hrun
    rw [← hrun.1]
    exact ⟨le_refl _, fun i _ _ => rfl⟩
  | cons j js ih =>
    intro h r h' r' hrun
    simp only [decSetItems] at hrun
    cases h1 : decItem f j h r with
    | error e =>
      simp only [h1, Bind.bind, Except.bind] at hrun
      exact Except.noConfusion hrun
    | ok p =>
      obtain ⟨v1, h1', r1⟩ := p
      simp only [h1, Bind.bind, Except.bind] at hrun
      cases h2 : heapSetAdd h1' a v1 with
      | error e =>
        simp only [h2, Bind.bind, Except.bind] at hrun
        exact Except.noConfusion hrun
      | ok h2' =>
        simp only [h2, Bind.bind, Except.bind] at hrun
        obtain ⟨hl1, hp1⟩ := decItem_pres Hf j h r v1 h1' r1 h1
        obtain ⟨hl2, hp2⟩ := heapSetAdd_pres h1' a v1 h2' h2
        obtain ⟨hl3, hp3⟩ := ih h2' r1 h' r' hrun
        refine ⟨by omega, fun i hi hia => ?_⟩
        rw [hp3 i (by omega) hia, hp2 i hia, hp1 i hi]

theorem decMapEntries_pres {f : Json → Heap → Refs → Except Err (Value × Heap × Refs)}
    (Hf : PresFun f) (a : Addr) :
    ∀ es h r h' r', decMapEntries f a es h r = .ok (h', r') →
      h.length ≤ h'.length ∧ ∀ i, i < h.length → i ≠ a → h'.get? i = h.get? i := by
  intro es
  induction es with
  | nil =>
    intro h r h' r' hrun
    simp only [decMapEntries, Except.ok.injEq, Prod.mk.injEq] at hrun
    rw [← hrun.1]
    exact ⟨le_refl _, fun i _ _ => rfl⟩
  | cons e es ih =>
    intro h r h' r' hrun
    cases e with
    | null => simp only [decMapEntries] at hrun; exact Except.noConfusion hrun
    | bool b => simp only [decMapEntries] at hrun; exact Except.noConfusion hrun
    | num n => simp only [decMapEntries] at hrun; exact Except.noConfusion hrun
    | str s => simp only [decMapEntries] at hrun; exact Except.noConfusion hrun
    | obj props => simp only [decMapEntries] at hrun; exact Except.noConfusion hrun
    | arr l =>
      simp only [decMapEntries] at hrun
      cases h1 : decItemOpt f (l.get? 0) h r with
      | error e1 =>
        simp only [h1, Bind.bind, Except.bind] at hrun
        exact Except.noConfusion hrun
      | ok p1 =>
        obtain ⟨kv, h1', r1⟩ := p1
        simp only [h1, Bind.bind, Except.bind] at hrun
        cases h2 : decItemOpt f (l.get? 1) h1' r1 with
        | error e2 =>
          simp only [h2] at hrun
          exact Except.noConfusion hrun
        | ok p2 =>
          obtain ⟨vv, h2', r2⟩ := p2
          simp only [h2] at hrun
          cases h3 : heapMapPut h2' a kv vv with
          | error e3 =>
            simp only [h3] at hrun
            exact Except.noConfusion hrun
          | ok h3' =>
            simp only [h3] at hrun
            obtain ⟨hl1, hp1⟩ := decItemOpt_pres Hf (l.get? 0) h r kv h1' r1 h1
            obtain ⟨hl2, hp2⟩ := decItemOpt_pres Hf (l.get? 1) h1' r1 vv h2' r2 h2
            obtain ⟨hl3, hp3⟩ := heapMapPut_pres h2' a kv vv h3' h3
            obtain ⟨hl4, hp4⟩ := ih h3' r2 h' r' hrun
            refine ⟨by omega, fun i hi hia => ?_⟩
            rw [hp4 i (by omega) hia, hp3 i hia, hp2 i (by omega), hp1 i hi]

theorem decProps_pres {f : Json → Heap → Refs → Except Err (Value × Heap × Refs)}
    (Hf : PresFun f) (a : Addr) (useGuard : Bool) :
    ∀ ps h r h' r', decProps f a useGuard ps h r = .ok (h', r') →
      h.length ≤ h'.length ∧ ∀ i, i < h.length → i ≠ a → h'.get? i = h.get? i := by
  intro ps
  induction ps with
  | nil =>
    intro h r h' r' hrun
    simp only [decProps, Except.ok.injEq, Prod.mk.injEq] at hrun
    rw [← hrun.1]
    exact ⟨le_refl _, fun i _ _ => rfl⟩
  | cons e ps ih =>
    intro h r h' r' hrun
    obtain ⟨k, j⟩ := e
    simp only [decProps] at hrun
    split at hrun
    · exact ih h r h' r' hrun
    · split at hrun
      · exact ih h r h' r' hrun
      · cases h1 : decItem f j h r with
        | error e1 =>
          simp only [h1, Bind.bind, Except.bind] at hrun
          exact Except.noConfusion hrun
        | ok p1 =>
          obtain ⟨v1, h1', r1⟩ := p1
          simp only [h1, Bind.bind, Except.bind] at hrun
          cases h2 : heapAssign h1' a k v1 with
          | error e2 =>
            simp only [h2] at hrun
            exact Except.noConfusion hrun
          | ok h2' =>
            simp only [h2] at hrun
            obtain ⟨hl1, hp1⟩ := decItem_pres Hf j h r v1 h1' r1 h1
            obtain ⟨hl2, hp2⟩ := heapAssign_pres h1' a k v1 h2' h2
            obtain ⟨hl3, hp3⟩ := ih h2' r1 h' r' hrun
            refine ⟨by omega, fun i hi hia => ?_⟩
            rw [hp3 i (by omega) hia, hp2 i hia, hp1 i hi]

theorem deserializeObject_pres (cm : List String) :
    ∀ fuel, PresFun (deserializeObject cm fuel) := by
  intro fuel
  induction fuel with
  | zero =>
    intro j h r v h' r' hrun
    simp [deserializeObject] at hrun
  | succ fuel ih =>
    intro j h r v h' r' hrun
    by_cases hobj : jIsObject j
    · by_cases htr : truthy (jget j "__ref")
      · rw [dec_step_ref cm fuel j h r hobj htr] at hrun
        simp only [Except.ok.injEq, Prod.mk.injEq] at hrun
        rw [← hrun.2.1]
        exact ⟨le_refl _, fun i _ => rfl⟩
      · have htr' : truthy (jget j "__ref") = false := by simpa using htr
        cases hcls : decCtor cm (jget j "__class") with
        | some cls =>
          rw [dec_step_reg cm fuel j h r cls hobj htr' hcls] at hrun
          cases hpay : decPayload (deserializeObject cm fuel) h.length j (decShell cls j)
              (h ++ [decShell cls j]) (refsPut r (jget j "__id") (.obj h.length)) with
          | error e =>
            rw [hpay] at hrun
            exact Except.noConfusion hrun
          | ok p =>
            obtain ⟨h2, r2⟩ := p
            rw [hpay] at hrun
            simp only [Except.ok.injEq, Prod.mk.injEq] at hrun
            have hlen1 : (h ++ [decShell cls j]).length = h.length + 1 := by simp
            have hstep : (h ++ [decShell cls j]).length ≤ h2.length ∧
                ∀ i, i < (h ++ [decShell cls j]).length → i ≠ h.length →
                  h2.get? i = (h ++ [decShell cls j]).get? i := by
              unfold decPayload at hpay
              cases hsh : decShell cls j with
              | set elems =>
                rw [hsh] at hpay
                cases hv : jsonList (jget j "values") with
                | error e =>
                  simp only [hv, Bind.bind, Except.bind] at hpay
                  exact Except.noConfusion hpay
                | ok vals =>
                  simp only [hv, Bind.bind, Except.bind] at hpay
                  exact decSetItems_pres ih h.length vals _ _ h2 r2 hpay
              | map entries =>
                rw [hsh] at hpay
                cases hv : jsonList (jget j "entries") with
                | error e =>
                  simp only [hv, Bind.bind, Except.bind] at hpay
                  exact Except.noConfusion hpay
                | ok es =>
                  simp only [hv, Bind.bind, Except.bind] at hpay
                  exact decMapEntries_pres ih h.length es _ _ h2 r2 hpay
              | arr elems =>
                rw [hsh] at hpay
                exact decProps_pres ih h.length true (jKeys j) _ _ h2 r2 hpay
              | date instant props =>
                rw [hsh] at hpay
                exact decProps_pres ih h.length true (jKeys j) _ _ h2 r2 hpay
              | record c props =>
                rw [hsh] at hpay
                exact decProps_pres ih h.length true (jKeys j) _ _ h2 r2 hpay
            rw [← hrun.2.1]
            refine ⟨by omega, fun i hi => ?_⟩
            rw [hstep.2 i (by omega) (by omega), get?_append_left h [decShell cls j] i hi]
        | none =>
          rw [dec_step_unreg cm fuel j h r hobj htr' hcls] at hrun
          cases hpay : decProps (deserializeObject cm fuel) h.length false (jKeys j)
              (h ++ [Node.record (some "Object") []])
              (refsPut r (jget j "__id") (.obj h.length)) with
          | error e =>
            rw [hpay] at hrun
            exact Except.noConfusion hrun
          | ok p =>
            obtain ⟨h2, r2⟩ := p
            rw [hpay] at hrun
            simp only [Except.ok.injEq, Prod.mk.injEq] at hrun
            obtain ⟨hl1, hp1⟩ := decProps_pres ih h.length false (jKeys j) _ _ h2 r2 hpay
            rw [← hrun.2.1]
            have hlen1 : (h ++ [Node.record (some "Object") []]).length = h.length + 1 := by
              simp
            refine ⟨by omega, fun i hi => ?_⟩
            rw [hp1 i (by omega) (by omega),
              get?_append_left h [Node.record (some "Object") []] i hi]
    · have hobj' : jIsObject j = false := by simpa using hobj
      rw [dec_step_prim cm fuel j h r hobj'] at hrun
      simp only [Except.ok.injEq, Prod.mk.injEq] at hrun
      rw [← hrun.2.1]
      exact ⟨le_refl _, fun i _ => rfl⟩

end Serializable

theorem get?_set_self {α : Type} (l : List α) (i : Nat) (a : α) (hi : i < l.length) :
    (l.set i a).get? i = some a := by
  simp [List.get?_eq_getElem?, List.getElem?_set_self hi]

namespace Serializable

/-- Keys that survive the metadata stripping of the unregistered decode
branch. -/
theorem decProps_false_shape {f : Json → Heap → Refs → Except Err (Value × Heap × Refs)}
    (Hf : PresFun f) (a : Addr) :
    ∀ (ps : List (String × Json)) (ps0 : List (String × Value)) (c0 : Option String)
      (h : Heap) (r : Refs) (h' : Heap) (r' : Refs),
      h.get? a = some (.record c0 ps0) → a < h.length →
      (ps0.map Prod.fst ++
        (ps.map Prod.fst).filter (fun k => !(k == "__class" || k == "__id"))).Nodup →
      decProps f a false ps h r = .ok (h', r') →
      ∃ newProps, h'.get? a = some (.record c0 (ps0 ++ newProps)) ∧
        newProps.map Prod.fst =
          (ps.map Prod.fst).filter (fun k => !(k == "__class" || k == "__id")) := by
  intro ps
  induction ps with
  | nil =>
    intro ps0 c0 h r h' r' hga hlt hnd hrun
    simp only [decProps, Except.ok.injEq, Prod.mk.injEq] at hrun
    refine ⟨[], ?_, by simp⟩
    rw [← hrun.1, List.append_nil]
    exact hga
  | cons e ps ih =>
    intro ps0 c0 h r h' r' hga hlt hnd hrun
    obtain ⟨k, j⟩ := e
    simp only [decProps] at hrun
    by_cases hmeta : (k == "__class" || k == "__id") = true
    · rw [if_pos hmeta] at hrun
      have hfilter : ((((k, j) :: ps).map Prod.fst).filter
          (fun k => !(k == "__class" || k == "__id"))) =
          ((ps.map Prod.fst).filter (fun k => !(k == "__class" || k == "__id"))) := by
        simp only [List.map_cons, List.filter_cons, hmeta]
        simp
      rw [hfilter] at hnd
      obtain ⟨np, hnp1, hnp2⟩ := ih ps0 c0 h r h' r' hga hlt hnd hrun
      exact ⟨np, hnp1, by rw [hnp2, hfilter]⟩
    · rw [if_neg hmeta] at hrun
      have hng : ¬(false && !heapKeyUndef h a k) = true := by simp
      rw [if_neg hng] at hrun
      cases h1 : decItem f j h r with
      | error e1 =>
        simp only [h1, Bind.bind, Except.bind] at hrun
        exact Except.noConfusion hrun
      | ok p1 =>
        obtain ⟨v1, h1', r1⟩ := p1
        simp only [h1, Bind.bind, Except.bind] at hrun
        obtain ⟨hm1, hp1⟩ := decItem_pres Hf j h r v1 h1' r1 h1
        have hga1 : h1'.get? a = some (.record c0 ps0) := by
          rw [hp1 a hlt]; exact hga
        have hlt1 : a < h1'.length := lt_of_lt_of_le hlt hm1
        cases h2 : heapAssign h1' a k v1 with
        | error e2 =>
          simp only [h2] at hrun
          exact Except.noConfusion hrun
        | ok h2' =>
          simp only [h2] at hrun
          have hmeta' : (k == "__class" || k == "__id") = false := by
            simpa using hmeta
          have hfilter : ((((k, j) :: ps).map Prod.fst).filter
              (fun k => !(k == "__class" || k == "__id"))) =
              k :: ((ps.map Prod.fst).filter (fun k => !(k == "__class" || k == "__id"))) := by
            simp only [List.map_cons, List.filter_cons, hmeta']
            simp
          rw [hfilter] at hnd
          have hkfresh : k ∉ ps0.map Prod.fst := by
            intro hk
            have := (List.nodup_append.mp hnd).2.2
            exact this hk (List.mem_cons_self k _)
          have hput : propPut ps0 k v1 = ps0 ++ [(k, v1)] := by
            unfold propPut
            rw [if_neg ?_]
            intro hsome
            rw [Option.isSome_iff_exists] at hsome
            obtain ⟨b, hb⟩ := hsome
            exact hkfresh (List.mem_map_of_mem Prod.fst (lookup_mem ps0 k b hb))
          have h2eq : h2' = h1'.set a (.record c0 (ps0 ++ [(k, v1)])) := by
            unfold heapAssign at h2
            rw [hga1] at h2
            simp only [Except.ok.injEq] at h2
            rw [← h2]
            simp only [shellAssign]
            rw [hput]
          have hga2 : h2'.get? a = some (.record c0 (ps0 ++ [(k, v1)])) := by
            rw [h2eq]
            exact get?_set_self h1' a _ hlt1
          have hlt2 : a < h2'.length := by
            rw [h2eq]
            simpa using hlt1
          have hnd2 : ((ps0 ++ [(k, v1)]).map Prod.fst ++
              (ps.map Prod.fst).filter (fun k => !(k == "__class" || k == "__id"))).Nodup := by
            simp only [List.map_append, List.map_cons, List.map_nil] at hnd ⊢
            simpa [List.append_assoc] using hnd
          obtain ⟨np, hnp1, hnp2⟩ := ih (ps0 ++ [(k, v1)]) c0 h2' r1 h' r' hga2 hlt2 hnd2 hrun
          refine ⟨(k, v1) :: np, ?_, ?_⟩
          · rw [hnp1]
            simp [List.append_assoc]
          · rw [hfilter]
            simp [hnp2]

end Serializable

/-- C7: decoding a node whose type tag is not in the registry never throws
for the unknown tag itself: the decoder allocates a fresh plain structureless
record (class Object), registers it, and populates it by recursively decoding
every own property except the metadata fields __class and __id; whenever that
population succeeds the result is the fresh record whose own property names
are exactly the node's own non-metadata names in order. -/
theorem c7_unknown_kind_decodes_to_plain_record (cm : List String) (fuel : Nat)
    (j : Json) (h : Heap) (r : Serializable.Refs)
    (hobj : Serializable.jIsObject j = true)
    (htr : Serializable.truthy (Serializable.jget j "__ref") = false)
    (hcls : Serializable.decCtor cm (Serializable.jget j "__class") = none) :
    (Serializable.deserializeObject cm (fuel + 1) j h r =
      match Serializable.decProps (Serializable.deserializeObject cm fuel) h.length false
          (Serializable.jKeys j) (h ++ [Node.record (some "Object") []])
          (Serializable.refsPut r (Serializable.jget j "__id") (.obj h.length)) with
        | .error e => .error e
        | .ok (h2, r2) => .ok (.obj h.length, h2, r2)) ∧
    (∀ (v : Value) (h' : Heap) (r' : Serializable.Refs),
      (((Serializable.jKeys j).map Prod.fst).filter
        (fun k => !(k == "__class" || k == "__id"))).Nodup →
      Serializable.deserializeObject cm (fuel + 1) j h r = .ok (v, h', r') →
      v = .obj h.length ∧
        ∃ newProps, h'.get? h.length = some (.record (some "Object") newProps) ∧
          newProps.map Prod.fst = ((Serializable.jKeys j).map Prod.fst).filter
            (fun k => !(k == "__class" || k == "__id"))) := by
  have hstep := Serializable.dec_step_unreg cm fuel j h r hobj htr hcls
  refine ⟨hstep, fun v h' r' hnd hrun => ?_⟩
  rw [hstep] at hrun
  cases hpay : Serializable.decProps (Serializable.deserializeObject cm fuel) h.length false
      (Serializable.jKeys j) (h ++ [Node.record (some "Object") []])
      (Serializable.refsPut r (Serializable.jget j "__id") (.obj h.length)) with
  | error e =>
    rw [hpay] at hrun
    exact Except.noConfusion hrun
  | ok p =>
    obtain ⟨h2, r2⟩ := p
    rw [hpay] at hrun
    simp only [Except.ok.injEq, Prod.mk.injEq] at hrun
    obtain ⟨np, hnp1, hnp2⟩ := Serializable.decProps_false_shape
      (Serializable.deserializeObject_pres cm fuel) h.length (Serializable.jKeys j) []
      (some "Object") (h ++ [Node.record (some "Object") []])
      (Serializable.refsPut r (Serializable.jget j "__id") (.obj h.length)) h2 r2
      (get?_append_self h _) (by simp) (by simpa using hnd) hpay
    refine ⟨hrun.1.symm, np, ?_, hnp2⟩
    rw [← hrun.2.1]
    simpa using hnp1

/-- C7 witness: a node tagged with the unregistered class Ghost decodes to a
plain record carrying its non-metadata property. -/
theorem c7_witness :
    Serializable.deserializeObject builtinClassMap 2
        (Json.obj [("__class", Json.str "Ghost"), ("__id", Json.str "Ghost_0"),
          ("x", Json.num 7)]) [] [] =
      .ok (Value.obj 0, [Node.record (some "Object") [("x", Value.prim (Prim.num 7))]],
        [(some (Json.str "Ghost_0"), Value.obj 0)]) ∧
    (Value.obj 0 : Value) = Value.obj 0 ∧
    ∃ newProps,
      [Node.record (some "Object") [("x", Value.prim (Prim.num 7))]].get? 0 =
        some (Node.record (some "Object") newProps) ∧
      newProps.map Prod.fst =
        (((Serializable.jKeys (Json.obj [("__class", Json.str "Ghost"),
          ("__id", Json.str "Ghost_0"), ("x", Json.num 7)])).map Prod.fst).filter
            (fun k => !(k == "__class" || k == "__id"))) := by
  have hh := (c7_unknown_kind_decodes_to_plain_record builtinClassMap 1
    (Json.obj [("__class", Json.str "Ghost"), ("__id", Json.str "Ghost_0"),
      ("x", Json.num 7)]) [] [] rfl rfl rfl).2
    (Value.obj 0) [Node.record (some "Object") [("x", Value.prim (Prim.num 7))]]
    [(some (Json.str "Ghost_0"), Value.obj 0)] (by decide) rfl
  exact ⟨rfl, hh.1 ▸ rfl, hh.2⟩

theorem snd_nodup_inj {α β : Type} (l : List (α × β))
    (hnd : (l.map Prod.snd).Nodup) (a b : α) (c : β)
    (ha : (a, c) ∈ l) (hb : (b, c) ∈ l) : a = b := by
  induction l with
  | nil => simp at ha
  | cons e l ih =>
    simp only [List.map_cons, List.nodup_cons] at hnd
    rcases List.mem_cons.mp ha with ha1 | ha1 <;> rcases List.mem_cons.mp hb with hb1 | hb1
    · exact congrArg Prod.fst (ha1.trans hb1.symm)
    · exfalso
      apply hnd.1
      have hcc : c ∈ List.map Prod.snd l := List.mem_map_of_mem Prod.snd hb1
      rw [← ha1]
      exact hcc
    · exfalso
      apply hnd.1
      have hcc : c ∈ List.map Prod.snd l := List.mem_map_of_mem Prod.snd ha1
      rw [← hb1]
      exact hcc
    · exact ih hnd.2 ha1 hb1

theorem valCorr_mono (s t : List (Addr × Addr)) (v v' : Value)
    (h : valCorr s v v') : valCorr (s ++ t) v v' := by
  cases v with
  | prim p => cases v' with
    | prim q => exact h
    | obj a => exact h
  | obj a => cases v' with
    | prim q => exact h
    | obj a' => exact lookup_append_left s t a a' h

theorem pairCorr_mono (s t : List (Addr × Addr)) (e e' : Value × Value)
    (h : valCorr s e.1 e'.1 ∧ valCorr s e.2 e'.2) :
    valCorr (s ++ t) e.1 e'.1 ∧ valCorr (s ++ t) e.2 e'.2 :=
  ⟨valCorr_mono s t _ _ h.1, valCorr_mono s t _ _ h.2⟩

theorem nodeCorr_mono (s t : List (Addr × Addr)) (n n' : Node)
    (h : nodeCorr s n n') : nodeCorr (s ++ t) n n' := by
  cases n <;> cases n' <;> simp only [nodeCorr] at h ⊢ <;> try exact h
  · exact h.imp (fun a b => valCorr_mono s t a b)
  · exact h.imp (fun a b => valCorr_mono s t a b)
  · exact h.imp (fun a b => pairCorr_mono s t a b)
  · exact ⟨h.1, h.2.imp (fun a b hh => ⟨hh.1, valCorr_mono s t _ _ hh.2⟩)⟩
  · exact ⟨h.1, h.2.imp (fun a b hh => ⟨hh.1, valCorr_mono s t _ _ hh.2⟩)⟩

theorem valCorr_inj (s : List (Addr × Addr))
    (hv : (s.map Prod.snd).Nodup) (x y x' y' : Value)
    (hx : valCorr s x x') (hy : valCorr s y y') (hne : x ≠ y) : x' ≠ y' := by
  cases x with
  | prim p =>
    cases x' with
    | obj a => exact absurd hx (by simp [valCorr])
    | prim p' =>
      cases y with
      | prim q =>
        cases y' with
        | obj b => exact fun hh => by simp at hh
        | prim q' =>
          simp only [valCorr] at hx hy
          rw [← hx, ← hy]
          intro hh
          simp only [Value.prim.injEq] at hh
          exact hne (by rw [hh])
      | obj b =>
        cases y' with
        | prim q' => exact absurd hy (by simp [valCorr])
        | obj b' => exact fun hh => by simp at hh
  | obj a =>
    cases x' with
    | prim p' => exact absurd hx (by simp [valCorr])
    | obj a' =>
      cases y with
      | prim q =>
        cases y' with
        | prim q' => exact fun hh => by simp at hh
        | obj b' => exact absurd hy (by simp [valCorr])
      | obj b =>
        cases y' with
        | prim q' => exact fun hh => by simp at hh
        | obj b' =>
          simp only [valCorr] at hx hy
          intro hh
          simp only [Value.obj.injEq] at hh
          subst hh
          exact hne (by
            rw [snd_nodup_inj s hv a b a' (lookup_mem s a a' hx) (lookup_mem s b a' hy)])

namespace UiUtils

theorem copyDone_mono (h0 h h' : Heap) (s t : SeenC) (e : Addr × Addr)
    (hd : copyDone h0 h s e) (hh : h'.get? e.2 = h.get? e.2) :
    copyDone h0 h' (s ++ t) e := by
  obtain ⟨n, n', h1, h2, h3⟩ := hd
  exact ⟨n, n', h1, by rw [hh]; exact h2, nodeCorr_mono s t n n' h3⟩

end UiUtils

theorem forall2_mem_right {α β : Type} {R : α → β → Prop} :
    ∀ {l : List α} {l' : List β}, List.Forall₂ R l l' → ∀ y ∈ l', ∃ x ∈ l, R x y := by
  intro l l' h
  induction h with
  | nil => intro y hy; simp at hy
  | cons hr hrest ih =>
    intro y hy
    rcases List.mem_cons.mp hy with hy1 | hy1
    · subst hy1
      exact ⟨_, List.mem_cons_self _ _, hr⟩
    · obtain ⟨x, hx1, hx2⟩ := ih y hy1
      exact ⟨x, List.mem_cons_of_mem _ hx1, hx2⟩

theorem forall2_snoc {α β : Type} {R : α → β → Prop} {l : List α} {l' : List β}
    {x : α} {y : β} (h : List.Forall₂ R l l') (hxy : R x y) :
    List.Forall₂ R (l ++ [x]) (l' ++ [y]) :=
  List.rel_append h (List.Forall₂.cons hxy List.Forall₂.nil)

namespace UiUtils

theorem nextLevel_neg_one : nextLevel (-1) = -1 := rfl

/-- One-step unfolding of copyObject on an object reference, with the monadic
plumbing reduced to explicit matches. -/
theorem copy_step_obj (fuel : Nat) (a : Addr) (h : Heap) (s : SeenC) (level : Int) :
    copyObject (fuel + 1) (.obj a) h s level =
      match s.lookup a with
      | some a' => .ok (.obj a', h, s)
      | none =>
        if level == 0 then .ok (.obj a, h, s)
        else
          match h.get? a with
          | none => .error .typeError
          | some n =>
            match copyShell n with
            | .error e => .error e
            | .ok shell =>
              match copyPayload (fun v hh ss => copyObject fuel v hh ss (nextLevel level))
                  h.length n (h ++ [shell]) (s ++ [(a, h.length)]) with
              | .error e => .error e
              | .ok (h2, s2) => .ok (.obj h.length, h2, s2) := by
  cases hl : s.lookup a with
  | some a' => simp only [copyObject, hl]
  | none =>
    by_cases hz : level == 0
    · simp only [copyObject, hl, hz, if_true]
    · have hz' : (level == 0) = false := by simpa using hz
      cases hg : h.get? a with
      | none => simp only [copyObject, hl, hz', hg, Bool.false_eq_true, if_false]
      | some n =>
        cases hsh : copyShell n with
        | error e =>
          simp only [copyObject, hl, hz', hg, hsh, Bool.false_eq_true, if_false,
            Bind.bind, Except.bind]
        | ok shell =>
          simp only [copyObject, hl, hz', hg, hsh, Bool.false_eq_true, if_false,
            Bind.bind, Except.bind]
          cases copyPayload (fun v hh ss => copyObject fuel v hh ss (nextLevel level))
              h.length n (h ++ [shell]) (s ++ [(a, h.length)]) with
          | error e => rfl
          | ok p => rfl

theorem copy_step_seen (fuel : Nat) (a a' : Addr) (h : Heap) (s : SeenC) (level : Int)
    (hl : s.lookup a = some a') :
    copyObject (fuel + 1) (.obj a) h s level = .ok (.obj a', h, s) := by
  rw [copy_step_obj, hl]

theorem copy_step_fresh (fuel : Nat) (a : Addr) (h : Heap) (s : SeenC) (n : Node)
    (shell : Node) (hl : s.lookup a = none) (hg : h.get? a = some n)
    (hsh : copyShell n = .ok shell) :
    copyObject (fuel + 1) (.obj a) h s (-1) =
      match copyPayload (fun v hh ss => copyObject fuel v hh ss (-1))
          h.length n (h ++ [shell]) (s ++ [(a, h.length)]) with
      | .error e => .error e
      | .ok (h2, s2) => .ok (.obj h.length, h2, s2) := by
  have hz : ((-1 : Int) == 0) = false := rfl
  simp only [copy_step_obj, hl, hg, hsh, hz, Bool.false_eq_true, if_false, nextLevel_neg_one]

end UiUtils

theorem lookup_fresh_append {α β : Type} [BEq α] [LawfulBEq α]
    (s t : List (α × β)) (a : α) (b : β) (h : s.lookup a = none) :
    (s ++ [(a, b)] ++ t).lookup a = some b := by
  rw [List.append_assoc, lookup_append_right _ _ _ h]
  rw [List.singleton_append, List.lookup_cons]
  simp

namespace UiUtils

theorem copyACE_alloc (h0 h : Heap) (s pend : SeenC) (a a' : Addr) (shell : Node)
    (hace : copyACE h0 h s pend) (hinv : copyInv h0 h s) :
    copyACE h0 (h ++ [shell]) (s ++ [(a, a')]) ((a, a') :: pend) := by
  intro e he
  rcases List.mem_append.mp he with he1 | he1
  · rcases hace e he1 with hp | hd
    · exact Or.inl (List.mem_cons_of_mem _ hp)
    · refine Or.inr (copyDone_mono h0 h _ s [(a, a')] e hd ?_)
      have := (hinv.2.2.1 e he1).2.2
      exact get?_append_left h [shell] e.2 this
  · simp only [List.mem_singleton] at he1
    subst he1
    exact Or.inl (List.mem_cons_self _ _)

theorem copyACE_write (h0 h : Heap) (s pend : SeenC) (a' : Addr) (nd : Node)
    (hace : copyACE h0 h s pend) (hp : ∀ e ∈ s, e.2 = a' → e ∈ pend) :
    copyACE h0 (h.set a' nd) s pend := by
  intro e he
  by_cases hea : e.2 = a'
  · exact Or.inl (hp e he hea)
  · rcases hace e he with hp1 | hd
    · exact Or.inl hp1
    · refine Or.inr ?_
      obtain ⟨n, n', h1, h2, h3⟩ := hd
      exact ⟨n, n', h1, by rw [get?_set_ne h a' e.2 nd (fun hh => hea hh.symm)]; exact h2, h3⟩

theorem copyItem_sim (h0 : Heap) (pend : SeenC)
    {f : Value → Heap → SeenC → Except Err (Value × Heap × SeenC)}
    (Hf : CopySimFun h0 pend f) : CopySimFun h0 pend (copyItem f) := by
  intro v h s v' h' s' hinv hace hok hrun
  unfold copyItem at hrun
  split at hrun
  · exact Hf v h s v' h' s' hinv hace hok hrun
  · rename_i hobj
    simp only [Except.ok.injEq, Prod.mk.injEq] at hrun
    obtain ⟨h1, h2, h3⟩ := hrun
    subst h2; subst h3
    refine ⟨hinv, ⟨[], by simp⟩, le_refl _, fun i _ => rfl, fun e he => Or.inl he, hace, ?_⟩
    cases v with
    | prim p => rw [← h1]; simp [valCorr]
    | obj a => exact absurd (show isObject (Value.obj a) = true from rfl) hobj

end UiUtils

namespace UiUtils

theorem copySetItems_sim (h0 : Heap) (pend : SeenC)
    {f : Value → Heap → SeenC → Except Err (Value × Heap × SeenC)}
    (Hf : CopySimFun h0 pend f) (a' : Addr) :
    ∀ (rest prefixOrig copied : List Value) (h : Heap) (s : SeenC) (h2 : Heap) (s2 : SeenC),
      copyInv h0 h s → copyACE h0 h s pend →
      h.get? a' = some (.set copied) →
      h0.length ≤ a' → a' < h.length →
      (∀ e ∈ s, e.2 = a' → e ∈ pend) →
      List.Forall₂ (valCorr s) prefixOrig copied →
      (prefixOrig ++ rest).Nodup →
      (∀ x ∈ prefixOrig ++ rest, valOk h0 x) →
      copySetItems f a' rest h s = .ok (h2, s2) →
      copyInv h0 h2 s2 ∧ (∃ t, s2 = s ++ t) ∧ h.length ≤ h2.length ∧
        (∀ i, i < h.length → i ≠ a' → h2.get? i = h.get? i) ∧
        (∀ e ∈ s2, e ∈ s ∨ h.length ≤ e.2) ∧
        copyACE h0 h2 s2 pend ∧
        ∃ copiedAll, h2.get? a' = some (.set copiedAll) ∧
          List.Forall₂ (valCorr s2) (prefixOrig ++ rest) copiedAll := by
  intro rest
  induction rest with
  | nil =>
    intro prefixOrig copied h s h2 s2 hinv hace hga hge hlt hp hf2 hnd hok hrun
    simp only [copySetItems, Except.ok.injEq, Prod.mk.injEq] at hrun
    obtain ⟨hh, hs⟩ := hrun
    subst hh; subst hs
    exact ⟨hinv, ⟨[], by simp⟩, le_refl _, fun i _ _ => rfl, fun e he => Or.inl he, hace,
      copied, by simpa using hga, by simpa using hf2⟩
  | cons x rest ih =>
    intro prefixOrig copied h s h2 s2 hinv hace hga hge hlt hp hf2 hnd hok hrun
    simp only [copySetItems] at hrun
    cases h1 : copyItem f x h s with
    | error e =>
      simp only [h1, Bind.bind, Except.bind] at hrun
      exact Except.noConfusion hrun
    | ok p1 =>
      obtain ⟨cv, h1', s1'⟩ := p1
      simp only [h1, Bind.bind, Except.bind] at hrun
      have hokx : valOk h0 x := hok x (by simp)
      obtain ⟨hinv1, ⟨t1, ht1⟩, hlen1, hpres1, hnew1, hace1, hcorr1⟩ :=
        copyItem_sim h0 pend Hf x h s cv h1' s1' hinv hace hokx h1
      have hga1 : h1'.get? a' = some (.set copied) := by
        rw [hpres1 a' hlt]; exact hga
      cases h2s : Serializable.heapSetAdd h1' a' cv with
      | error e =>
        simp only [h2s] at hrun
        exact Except.noConfusion hrun
      | ok h2' =>
        simp only [h2s] at hrun
        have hxp : x ∉ prefixOrig := by
          intro hh
          have hdisj := (List.nodup_append.mp hnd).2.2
          exact hdisj hh (List.mem_cons_self x rest)
        have hfresh : cv ∉ copied := by
          intro hmem
          obtain ⟨y, hy1, hy2⟩ := forall2_mem_right hf2 cv hmem
          have hy2' : valCorr s1' y cv := ht1 ▸ valCorr_mono s t1 y cv hy2
          have hxy : x ≠ y := fun hh => hxp (hh ▸ hy1)
          exact (valCorr_inj s1' hinv1.2.2.2.2 x y cv cv hcorr1 hy2' hxy) rfl
        have hset : setAdd copied cv = copied ++ [cv] := by
          unfold setAdd
          rw [if_neg (by simpa using hfresh)]
        have h2eq : h2' = h1'.set a' (.set (copied ++ [cv])) := by
          unfold Serializable.heapSetAdd at h2s
          rw [hga1] at h2s
          simp only [Except.ok.injEq] at h2s
          rw [← h2s, hset]
        have hlt1 : a' < h1'.length := lt_of_lt_of_le hlt hlen1
        have hinv2 : copyInv h0 h2' s1' := by
          obtain ⟨i1, i2, i3, i4, i5⟩ := hinv1
          subst h2eq
          refine ⟨by simpa using i1, fun i hi => ?_, fun e he => ?_, i4, i5⟩
          · rw [get?_set_ne h1' a' i _ (by omega)]
            exact i2 i hi
          · have := i3 e he
            simpa using this
        have hp1 : ∀ e ∈ s1', e.2 = a' → e ∈ pend := by
          intro e he hea
          rcases hnew1 e he with he1 | he1
          · exact hp e he1 hea
          · rw [hea] at he1
            exact absurd hlt (not_lt.mpr he1)
        have hace2 : copyACE h0 h2' s1' pend := by
          rw [h2eq]
          exact copyACE_write h0 h1' s1' pend a' _ hace1 hp1
        have hga2 : h2'.get? a' = some (.set (copied ++ [cv])) := by
          rw [h2eq]
          exact get?_set_self h1' a' _ hlt1
        have hf2' : List.Forall₂ (valCorr s1') (prefixOrig ++ [x]) (copied ++ [cv]) := by
          refine forall2_snoc ?_ hcorr1
          rw [ht1]
          exact hf2.imp (fun p q hpq => valCorr_mono s t1 p q hpq)
        have hnd' : ((prefixOrig ++ [x]) ++ rest).Nodup := by
          rw [List.append_assoc, List.singleton_append]
          exact hnd
        have hok' : ∀ y ∈ (prefixOrig ++ [x]) ++ rest, valOk h0 y := by
          intro y hy
          apply hok
          rw [List.append_assoc, List.singleton_append] at hy
          exact hy
        obtain ⟨r1, ⟨t2, ht2⟩, r3, r4, r5, r6, copiedAll, r7, r8⟩ :=
          ih (prefixOrig ++ [x]) (copied ++ [cv]) h2' s1' h2 s2 hinv2 hace2 hga2 hge
            (by rw [h2eq]; simpa using hlt1) hp1 hf2' hnd' hok' hrun
        have hlen2 : h.length ≤ h2'.length := by
          rw [h2eq]
          simpa using hlen1
        refine ⟨r1, ⟨t1 ++ t2, by rw [ht2, ht1, List.append_assoc]⟩, by omega,
          fun i hi hia => ?_, fun e he => ?_, r6, copiedAll, r7, ?_⟩
        · rw [r4 i (by omega) hia, h2eq, get?_set_ne h1' a' i _ (fun hh => hia hh.symm),
            hpres1 i hi]
        · rcases r5 e he with he1 | he1
          · rcases hnew1 e he1 with he2 | he2
            · exact Or.inl he2
            · exact Or.inr he2
          · exact Or.inr (by omega)
        · rw [List.append_assoc, List.singleton_append] at r8
          exact r8

end UiUtils

namespace UiUtils

theorem copyMapEntries_sim (h0 : Heap) (pend : SeenC)
    {f : Value → Heap → SeenC → Except Err (Value × Heap × SeenC)}
    (Hf : CopySimFun h0 pend f) (a' : Addr) :
    ∀ (rest prefixOrig copied : List (Value × Value)) (h : Heap) (s : SeenC)
      (h2 : Heap) (s2 : SeenC),
      copyInv h0 h s → copyACE h0 h s pend →
      h.get? a' = some (.map copied) →
      h0.length ≤ a' → a' < h.length →
      (∀ e ∈ s, e.2 = a' → e ∈ pend) →
      List.Forall₂ (fun e e' => valCorr s e.1 e'.1 ∧ valCorr s e.2 e'.2) prefixOrig copied →
      ((prefixOrig ++ rest).map Prod.fst).Nodup →
      (∀ x ∈ prefixOrig ++ rest, valOk h0 x.1 ∧ valOk h0 x.2) →
      copyMapEntries f a' rest h s = .ok (h2, s2) →
      copyInv h0 h2 s2 ∧ (∃ t, s2 = s ++ t) ∧ h.length ≤ h2.length ∧
        (∀ i, i < h.length → i ≠ a' → h2.get? i = h.get? i) ∧
        (∀ e ∈ s2, e ∈ s ∨ h.length ≤ e.2) ∧
        copyACE h0 h2 s2 pend ∧
        ∃ copiedAll, h2.get? a' = some (.map copiedAll) ∧
          List.Forall₂ (fun e e' => valCorr s2 e.1 e'.1 ∧ valCorr s2 e.2 e'.2)
            (prefixOrig ++ rest) copiedAll := by
  intro rest
  induction rest with
  | nil =>
    intro prefixOrig copied h s h2 s2 hinv hace hga hge hlt hp hf2 hnd hok hrun
    simp only [copyMapEntries, Except.ok.injEq, Prod.mk.injEq] at hrun
    obtain ⟨hh, hs⟩ := hrun
    subst hh; subst hs
    exact ⟨hinv, ⟨[], by simp⟩, le_refl _, fun i _ _ => rfl, fun e he => Or.inl he, hace,
      copied, by simpa using hga, by simpa using hf2⟩
  | cons x rest ih =>
    intro prefixOrig copied h s h2 s2 hinv hace hga hge hlt hp hf2 hnd hok hrun
    obtain ⟨xk, xv⟩ := x
    simp only [copyMapEntries] at hrun
    cases h1 : copyItem f xk h s with
    | error e =>
      simp only [h1, Bind.bind, Except.bind] at hrun
      exact Except.noConfusion hrun
    | ok p1 =>
      obtain ⟨ck, h1', s1'⟩ := p1
      simp only [h1, Bind.bind, Except.bind] at hrun
      have hokk : valOk h0 xk := (hok (xk, xv) (by simp)).1
      have hokv : valOk h0 xv := (hok (xk, xv) (by simp)).2
      obtain ⟨hinv1, ⟨t1, ht1⟩, hlen1, hpres1, hnew1, hace1, hcorr1⟩ :=
        copyItem_sim h0 pend Hf xk h s ck h1' s1' hinv hace hokk h1
      cases h2c : copyItem f xv h1' s1' with
      | error e =>
        simp only [h2c] at hrun
        exact Except.noConfusion hrun
      | ok p2 =>
        obtain ⟨cv, h2', s2'⟩ := p2
        simp only [h2c] at hrun
        obtain ⟨hinv2, ⟨t2, ht2⟩, hlen2, hpres2, hnew2, hace2, hcorr2⟩ :=
          copyItem_sim h0 pend Hf xv h1' s1' cv h2' s2' hinv1 hace1 hokv h2c
        have hga2 : h2'.get? a' = some (.map copied) := by
          rw [hpres2 a' (lt_of_lt_of_le hlt hlen1), hpres1 a' hlt]
          exact hga
        cases h3m : Serializable.heapMapPut h2' a' ck cv with
        | error e =>
          simp only [h3m] at hrun
          exact Except.noConfusion hrun
        | ok h3' =>
          simp only [h3m] at hrun
          have hxp : xk ∉ (prefixOrig.map Prod.fst) := by
            intro hh
            have hdisj := (List.nodup_append.mp (by simpa using hnd)).2.2
            exact hdisj hh (by simp)
          have hckfresh : copied.lookup ck = none := by
            rw [lookup_eq_none_iff]
            intro hmem
            rw [List.mem_map] at hmem
            obtain ⟨ep, hep1, hep2⟩ := hmem
            obtain ⟨y, hy1, hy2⟩ := forall2_mem_right hf2 ep hep1
            have hyk : valCorr s2' y.1 ck := by
              rw [ht2, ht1]
              rw [hep2] at hy2
              exact valCorr_mono _ _ _ _ (valCorr_mono _ _ _ _ hy2.1)
            have hck : valCorr s2' xk ck := by
              rw [ht2]
              exact valCorr_mono _ _ _ _ hcorr1
            have hxy : xk ≠ y.1 := by
              intro hh
              apply hxp
              rw [hh]
              exact List.mem_map_of_mem Prod.fst hy1
            exact (valCorr_inj s2' hinv2.2.2.2.2 xk y.1 ck ck hck hyk hxy) rfl
          have hput : mapPut copied ck cv = copied ++ [(ck, cv)] := by
            unfold mapPut
            rw [if_neg (by simp [hckfresh])]
          have h3eq : h3' = h2'.set a' (.map (copied ++ [(ck, cv)])) := by
            unfold Serializable.heapMapPut at h3m
            rw [hga2] at h3m
            simp only [Except.ok.injEq] at h3m
            rw [← h3m, hput]
          have hlt2 : a' < h2'.length := lt_of_lt_of_le hlt (le_trans hlen1 hlen2)
          have hinv3 : copyInv h0 h3' s2' := by
            obtain ⟨i1, i2, i3, i4, i5⟩ := hinv2
            subst h3eq
            refine ⟨by simpa using i1, fun i hi => ?_, fun e he => ?_, i4, i5⟩
            · rw [get?_set_ne h2' a' i _ (by intro hh; omega)]
              exact i2 i hi
            · have := i3 e he
              simpa using this
          have hp1 : ∀ e ∈ s2', e.2 = a' → e ∈ pend := by
            intro e he hea
            rcases hnew2 e he with he1 | he1
            · rcases hnew1 e he1 with he2 | he2
              · exact hp e he2 hea
              · rw [hea] at he2
                exact absurd hlt (not_lt.mpr he2)
            · rw [hea] at he1
              exact absurd (lt_of_lt_of_le hlt hlen1) (not_lt.mpr he1)
          have hace3 : copyACE h0 h3' s2' pend := by
            rw [h3eq]
            exact copyACE_write h0 h2' s2' pend a' _ hace2 hp1
          have hga3 : h3'.get? a' = some (.map (copied ++ [(ck, cv)])) := by
            rw [h3eq]
            exact get?_set_self h2' a' _ hlt2
          have hf2' : List.Forall₂ (fun e e' => valCorr s2' e.1 e'.1 ∧ valCorr s2' e.2 e'.2)
              (prefixOrig ++ [(xk, xv)]) (copied ++ [(ck, cv)]) := by
            refine forall2_snoc ?_ ⟨by rw [ht2]; exact valCorr_mono _ _ _ _ hcorr1, hcorr2⟩
            rw [ht2, ht1]
            exact hf2.imp (fun p q hpq =>
              ⟨valCorr_mono _ _ _ _ (valCorr_mono _ _ _ _ hpq.1),
               valCorr_mono _ _ _ _ (valCorr_mono _ _ _ _ hpq.2)⟩)
          have hnd' : (((prefixOrig ++ [(xk, xv)]) ++ rest).map Prod.fst).Nodup := by
            rw [List.append_assoc, List.singleton_append]
            exact hnd
          have hok' : ∀ y ∈ (prefixOrig ++ [(xk, xv)]) ++ rest, valOk h0 y.1 ∧ valOk h0 y.2 := by
            intro y hy
            apply hok
            rw [List.append_assoc, List.singleton_append] at hy
            exact hy
          obtain ⟨r1, ⟨t3, ht3⟩, r3, r4, r5, r6, copiedAll, r7, r8⟩ :=
            ih (prefixOrig ++ [(xk, xv)]) (copied ++ [(ck, cv)]) h3' s2' h2 s2 hinv3 hace3
              hga3 hge (by rw [h3eq]; simpa using hlt2) hp1 hf2' hnd' hok' hrun
          have hlen3 : h.length ≤ h3'.length := by
            rw [h3eq]
            simp only [List.length_set]
            omega
          refine ⟨r1, ⟨t1 ++ t2 ++ t3, by rw [ht3, ht2, ht1]; simp [List.append_assoc]⟩,
            by omega, fun i hi hia => ?_, fun e he => ?_, r6, copiedAll, r7, ?_⟩
          · rw [r4 i (by omega) hia, h3eq, get?_set_ne h2' a' i _ (fun hh => hia hh.symm),
              hpres2 i (by omega), hpres1 i hi]
          · rcases r5 e he with he1 | he1
            · rcases hnew2 e he1 with he2 | he2
              · rcases hnew1 e he2 with he3 | he3
                · exact Or.inl he3
                · exact Or.inr he3
              · exact Or.inr (by omega)
            · exact Or.inr (by omega)
          · rw [List.append_assoc, List.singleton_append] at r8
            exact r8

end UiUtils

theorem forall2_prop_keys {s : List (Addr × Addr)}
    {l l' : List (String × Value)}
    (h : List.Forall₂ (fun p p' => p.1 = p'.1 ∧ valCorr s p.2 p'.2) l l') :
    l'.map Prod.fst = l.map Prod.fst := by
  induction h with
  | nil => rfl
  | cons hr hrest ih => simp [ih, hr.1]

namespace UiUtils

theorem copyProps_sim_kv (h0 : Heap) (pend : SeenC)
    {f : Value → Heap → SeenC → Except Err (Value × Heap × SeenC)}
    (Hf : CopySimFun h0 pend f) (a' : Addr) (mk : List (String × Value) → Node)
    (Hassign : ∀ ps k v, Serializable.shellAssign (mk ps) k v = mk (propPut ps k v))
    (Hundef : ∀ ps k, ps.lookup k = none → Serializable.shellKeyUndef (mk ps) k = true) :
    ∀ (rest prefixOrig copied : List (String × Value)) (h : Heap) (s : SeenC)
      (h2 : Heap) (s2 : SeenC),
      copyInv h0 h s → copyACE h0 h s pend →
      h.get? a' = some (mk copied) →
      h0.length ≤ a' → a' < h.length →
      (∀ e ∈ s, e.2 = a' → e ∈ pend) →
      List.Forall₂ (fun p p' => p.1 = p'.1 ∧ valCorr s p.2 p'.2) prefixOrig copied →
      ((prefixOrig ++ rest).map Prod.fst).Nodup →
      (∀ p ∈ prefixOrig ++ rest, valOk h0 p.2) →
      copyProps f a' rest h s = .ok (h2, s2) →
      copyInv h0 h2 s2 ∧ (∃ t, s2 = s ++ t) ∧ h.length ≤ h2.length ∧
        (∀ i, i < h.length → i ≠ a' → h2.get? i = h.get? i) ∧
        (∀ e ∈ s2, e ∈ s ∨ h.length ≤ e.2) ∧
        copyACE h0 h2 s2 pend ∧
        ∃ copiedAll, h2.get? a' = some (mk copiedAll) ∧
          List.Forall₂ (fun p p' => p.1 = p'.1 ∧ valCorr s2 p.2 p'.2)
            (prefixOrig ++ rest) copiedAll := by
  intro rest
  induction rest with
  | nil =>
    intro prefixOrig copied h s h2 s2 hinv hace hga hge hlt hp hf2 hnd hok hrun
    simp only [copyProps, Except.ok.injEq, Prod.mk.injEq] at hrun
    obtain ⟨hh, hs⟩ := hrun
    subst hh; subst hs
    exact ⟨hinv, ⟨[], by simp⟩, le_refl _, fun i _ _ => rfl, fun e he => Or.inl he, hace,
      copied, by simpa using hga, by simpa using hf2⟩
  | cons x rest ih =>
    intro prefixOrig copied h s h2 s2 hinv hace hga hge hlt hp hf2 hnd hok hrun
    obtain ⟨k, v⟩ := x
    simp only [copyProps] at hrun
    have hkeys : copied.map Prod.fst = prefixOrig.map Prod.fst := forall2_prop_keys hf2
    have hkfresh : copied.lookup k = none := by
      rw [lookup_eq_none_iff, hkeys]
      intro hmem
      have hdisj := (List.nodup_append.mp (by simpa using hnd)).2.2
      exact hdisj hmem (by simp)
    have hguard : Serializable.heapKeyUndef h a' k = true := by
      unfold Serializable.heapKeyUndef
      rw [hga]
      exact Hundef copied k hkfresh
    rw [hguard] at hrun
    simp only [Bool.not_true, Bool.and_false, Bool.false_eq_true, if_false] at hrun
    cases h1 : copyItem f v h s with
    | error e =>
      simp only [h1, Bind.bind, Except.bind] at hrun
      exact Except.noConfusion hrun
    | ok p1 =>
      obtain ⟨cv, h1', s1'⟩ := p1
      simp only [h1, Bind.bind, Except.bind] at hrun
      have hokv : valOk h0 v := hok (k, v) (by simp)
      obtain ⟨hinv1, ⟨t1, ht1⟩, hlen1, hpres1, hnew1, hace1, hcorr1⟩ :=
        copyItem_sim h0 pend Hf v h s cv h1' s1' hinv hace hokv h1
      have hga1 : h1'.get? a' = some (mk copied) := by
        rw [hpres1 a' hlt]; exact hga
      cases h2a : Serializable.heapAssign h1' a' k cv with
      | error e =>
        simp only [h2a] at hrun
        exact Except.noConfusion hrun
      | ok h2' =>
        simp only [h2a] at hrun
        have hput : propPut copied k cv = copied ++ [(k, cv)] := by
          unfold propPut
          rw [if_neg (by simp [hkfresh])]
        have h2eq : h2' = h1'.set a' (mk (copied ++ [(k, cv)])) := by
          unfold Serializable.heapAssign at h2a
          rw [hga1] at h2a
          simp only [Except.ok.injEq] at h2a
          rw [← h2a, Hassign, hput]
        have hlt1 : a' < h1'.length := lt_of_lt_of_le hlt hlen1
        have hinv2 : copyInv h0 h2' s1' := by
          obtain ⟨i1, i2, i3, i4, i5⟩ := hinv1
          subst h2eq
          refine ⟨by simpa using i1, fun i hi => ?_, fun e he => ?_, i4, i5⟩
          · rw [get?_set_ne h1' a' i _ (by intro hh; omega)]
            exact i2 i hi
          · have := i3 e he
            simpa using this
        have hp1 : ∀ e ∈ s1', e.2 = a' → e ∈ pend := by
          intro e he hea
          rcases hnew1 e he with he1 | he1
          · exact hp e he1 hea
          · rw [hea] at he1
            exact absurd hlt (not_lt.mpr he1)
        have hace2 : copyACE h0 h2' s1' pend := by
          rw [h2eq]
          exact copyACE_write h0 h1' s1' pend a' _ hace1 hp1
        have hga2 : h2'.get? a' = some (mk (copied ++ [(k, cv)])) := by
          rw [h2eq]
          exact get?_set_self h1' a' _ hlt1
        have hf2' : List.Forall₂ (fun p p' => p.1 = p'.1 ∧ valCorr s1' p.2 p'.2)
            (prefixOrig ++ [(k, v)]) (copied ++ [(k, cv)]) := by
          refine forall2_snoc ?_ ⟨rfl, hcorr1⟩
          rw [ht1]
          exact hf2.imp (fun p q hpq => ⟨hpq.1, valCorr_mono _ _ _ _ hpq.2⟩)
        have hnd' : (((prefixOrig ++ [(k, v)]) ++ rest).map Prod.fst).Nodup := by
          rw [List.append_assoc, List.singleton_append]
          exact hnd
        have hok' : ∀ y ∈ (prefixOrig ++ [(k, v)]) ++ rest, valOk h0 y.2 := by
          intro y hy
          apply hok
          rw [List.append_assoc, List.singleton_append] at hy
          exact hy
        obtain ⟨r1, ⟨t2, ht2⟩, r3, r4, r5, r6, copiedAll, r7, r8⟩ :=
          ih (prefixOrig ++ [(k, v)]) (copied ++ [(k, cv)]) h2' s1' h2 s2 hinv2 hace2 hga2
            hge (by rw [h2eq]; simpa using hlt1) hp1 hf2' hnd' hok' hrun
        have hlen2 : h.length ≤ h2'.length := by
          rw [h2eq]
          simp only [List.length_set]
          omega
        refine ⟨r1, ⟨t1 ++ t2, by rw [ht2, ht1, List.append_assoc]⟩, by omega,
          fun i hi hia => ?_, fun e he => ?_, r6, copiedAll, r7, ?_⟩
        · rw [r4 i (by omega) hia, h2eq, get?_set_ne h1' a' i _ (fun hh => hia hh.symm),
            hpres1 i hi]
        · rcases r5 e he with he1 | he1
          · rcases hnew1 e he1 with he2 | he2
            · exact Or.inl he2
            · exact Or.inr he2
          · exact Or.inr (by omega)
        · rw [List.append_assoc, List.singleton_append] at r8
          exact r8

end UiUtils

namespace UiUtils

theorem copyProps_sim_arr (h0 : Heap) (pend : SeenC)
    {f : Value → Heap → SeenC → Except Err (Value × Heap × SeenC)}
    (Hf : CopySimFun h0 pend f) (a' : Addr) :
    ∀ (rest : List (String × Value)) (prefixVals copied : List Value)
      (h : Heap) (s : SeenC) (h2 : Heap) (s2 : SeenC),
      copyInv h0 h s → copyACE h0 h s pend →
      h.get? a' = some (.arr copied) →
      h0.length ≤ a' → a' < h.length →
      (∀ e ∈ s, e.2 = a' → e ∈ pend) →
      List.Forall₂ (valCorr s) prefixVals copied →
      (∀ p ∈ rest, valOk h0 p.2) →
      copyProps f a' rest h s = .ok (h2, s2) →
      copyInv h0 h2 s2 ∧ (∃ t, s2 = s ++ t) ∧ h.length ≤ h2.length ∧
        (∀ i, i < h.length → i ≠ a' → h2.get? i = h.get? i) ∧
        (∀ e ∈ s2, e ∈ s ∨ h.length ≤ e.2) ∧
        copyACE h0 h2 s2 pend ∧
        ∃ copiedAll, h2.get? a' = some (.arr copiedAll) ∧
          List.Forall₂ (valCorr s2) (prefixVals ++ rest.map Prod.snd) copiedAll := by
  intro rest
  induction rest with
  | nil =>
    intro prefixVals copied h s h2 s2 hinv hace hga hge hlt hp hf2 hok hrun
    simp only [copyProps, Except.ok.injEq, Prod.mk.injEq] at hrun
    obtain ⟨hh, hs⟩ := hrun
    subst hh; subst hs
    exact ⟨hinv, ⟨[], by simp⟩, le_refl _, fun i _ _ => rfl, fun e he => Or.inl he, hace,
      copied, by simpa using hga, by simpa using hf2⟩
  | cons x rest ih =>
    intro prefixVals copied h s h2 s2 hinv hace hga hge hlt hp hf2 hok hrun
    obtain ⟨k, v⟩ := x
    simp only [copyProps] at hrun
    have hguard : Serializable.heapKeyUndef h a' k = true := by
      unfold Serializable.heapKeyUndef
      rw [hga]
      rfl
    rw [hguard] at hrun
    simp only [Bool.not_true, Bool.and_false, Bool.false_eq_true, if_false] at hrun
    cases h1 : copyItem f v h s with
    | error e =>
      simp only [h1, Bind.bind, Except.bind] at hrun
      exact Except.noConfusion hrun
    | ok p1 =>
      obtain ⟨cv, h1', s1'⟩ := p1
      simp only [h1, Bind.bind, Except.bind] at hrun
      have hokv : valOk h0 v := hok (k, v) (by simp)
      obtain ⟨hinv1, ⟨t1, ht1⟩, hlen1, hpres1, hnew1, hace1, hcorr1⟩ :=
        copyItem_sim h0 pend Hf v h s cv h1' s1' hinv hace hokv h1
      have hga1 : h1'.get? a' = some (.arr copied) := by
        rw [hpres1 a' hlt]; exact hga
      cases h2a : Serializable.heapAssign h1' a' k cv with
      | error e =>
        simp only [h2a] at hrun
        exact Except.noConfusion hrun
      | ok h2' =>
        simp only [h2a] at hrun
        have h2eq : h2' = h1'.set a' (.arr (copied ++ [cv])) := by
          unfold Serializable.heapAssign at h2a
          rw [hga1] at h2a
          simp only [Except.ok.injEq] at h2a
          rw [← h2a]
          rfl
        have hlt1 : a' < h1'.length := lt_of_lt_of_le hlt hlen1
        have hinv2 : copyInv h0 h2' s1' := by
          obtain ⟨i1, i2, i3, i4, i5⟩ := hinv1
          subst h2eq
          refine ⟨by simpa using i1, fun i hi => ?_, fun e he => ?_, i4, i5⟩
          · rw [get?_set_ne h1' a' i _ (by intro hh; omega)]
            exact i2 i hi
          · have := i3 e he
            simpa using this
        have hp1 : ∀ e ∈ s1', e.2 = a' → e ∈ pend := by
          intro e he hea
          rcases hnew1 e he with he1 | he1
          · exact hp e he1 hea
          · rw [hea] at he1
            exact absurd hlt (not_lt.mpr he1)
        have hace2 : copyACE h0 h2' s1' pend := by
          rw [h2eq]
          exact copyACE_write h0 h1' s1' pend a' _ hace1 hp1
        have hga2 : h2'.get? a' = some (.arr (copied ++ [cv])) := by
          rw [h2eq]
          exact get?_set_self h1' a' _ hlt1
        have hf2' : List.Forall₂ (valCorr s1') (prefixVals ++ [v]) (copied ++ [cv]) := by
          refine forall2_snoc ?_ hcorr1
          rw [ht1]
          exact hf2.imp (fun p q hpq => valCorr_mono _ _ _ _ hpq)
        have hok' : ∀ y ∈ rest, valOk h0 y.2 := fun y hy => hok y (by simp [hy])
        obtain ⟨r1, ⟨t2, ht2⟩, r3, r4, r5, r6, copiedAll, r7, r8⟩ :=
          ih (prefixVals ++ [v]) (copied ++ [cv]) h2' s1' h2 s2 hinv2 hace2 hga2
            hge (by rw [h2eq]; simpa using hlt1) hp1 hf2' hok' hrun
        have hlen2 : h.length ≤ h2'.length := by
          rw [h2eq]
          simp only [List.length_set]
          omega
        refine ⟨r1, ⟨t1 ++ t2, by rw [ht2, ht1, List.append_assoc]⟩, by omega,
          fun i hi hia => ?_, fun e he => ?_, r6, copiedAll, r7, ?_⟩
        · rw [r4 i (by omega) hia, h2eq, get?_set_ne h1' a' i _ (fun hh => hia hh.symm),
            hpres1 i hi]
        · rcases r5 e he with he1 | he1
          · rcases hnew1 e he1 with he2 | he2
            · exact Or.inl he2
            · exact Or.inr he2
          · exact Or.inr (by omega)
        · rw [List.append_assoc, List.singleton_append] at r8
          simpa using r8

end UiUtils


theorem indexedProps_snd (es : List Value) :
    (Serializable.indexedProps es).map Prod.snd = es := by
  simp only [Serializable.indexedProps, List.map_map]
  exact List.enum_map_snd es

theorem indexedProps_mem_snd (es : List Value) (p : String × Value)
    (hp : p ∈ Serializable.indexedProps es) : p.2 ∈ es := by
  have := List.mem_map_of_mem Prod.snd hp
  rw [indexedProps_snd] at this
  exact this

namespace UiUtils

theorem copyObject_sim (h0 : Heap) (hwf : WfHeap h0) :
    ∀ (fuel : Nat) (pend : SeenC),
      CopySimFun h0 pend (fun v h s => copyObject fuel v h s (-1)) := by
  intro fuel
  induction fuel with
  | zero =>
    intro pend v h s v' h' s' _ _ _ hrun
    simp [copyObject] at hrun
  | succ fuel ih =>
    intro pend v h s v' h' s' hinv hace hok hrun
    replace hrun : copyObject (fuel + 1) v h s (-1) = .ok (v', h', s') := hrun
    cases v with
    | prim p =>
      simp only [copyObject, Except.ok.injEq, Prod.mk.injEq] at hrun
      obtain ⟨hv, hh, hs⟩ := hrun
      subst hh; subst hs
      refine ⟨hinv, ⟨[], by simp⟩, le_refl _, fun i _ => rfl, fun e he => Or.inl he, hace, ?_⟩
      rw [← hv]
      simp [valCorr]
    | obj a =>
      cases hl : s.lookup a with
      | some a' =>
        rw [copy_step_seen fuel a a' h s (-1) hl] at hrun
        simp only [Except.ok.injEq, Prod.mk.injEq] at hrun
        obtain ⟨hv, hh, hs⟩ := hrun
        subst hh; subst hs
        refine ⟨hinv, ⟨[], by simp⟩, le_refl _, fun i _ => rfl, fun e he => Or.inl he, hace, ?_⟩
        rw [← hv]
        exact hl
      | none =>
        have hvb : a < h0.length := hok
        have hg0 : h0.get? a = some (h0.get ⟨a, hvb⟩) := List.get?_eq_get hvb
        have hg : h.get? a = some (h0.get ⟨a, hvb⟩) := by
          rw [hinv.2.1 a hvb]; exact hg0
        have hnwf : nodeWf h0 (h0.get ⟨a, hvb⟩) :=
          hwf (h0.get ⟨a, hvb⟩) (List.get_mem h0 a hvb)
        have hanotin : a ∉ s.map Prod.fst := (lookup_eq_none_iff s a).mp hl
        cases hshell : copyShell (h0.get ⟨a, hvb⟩) with
        | error e =>
          have hbad : copyObject (fuel + 1) (.obj a) h s (-1) = .error e := by
            have hz : ((-1 : Int) == 0) = false := rfl
            simp only [copy_step_obj, hl, hg, hshell, hz, Bool.false_eq_true, if_false]
          rw [hbad] at hrun
          exact Except.noConfusion hrun
        | ok shell =>
          rw [copy_step_fresh fuel a h s (h0.get ⟨a, hvb⟩) shell hl hg hshell] at hrun
          cases hpay : copyPayload (fun v hh ss => copyObject fuel v hh ss (-1))
              h.length (h0.get ⟨a, hvb⟩) (h ++ [shell]) (s ++ [(a, h.length)]) with
          | error e =>
            rw [hpay] at hrun
            exact Except.noConfusion hrun
          | ok p =>
            obtain ⟨h2, s2⟩ := p
            rw [hpay] at hrun
            simp only [Except.ok.injEq, Prod.mk.injEq] at hrun
            obtain ⟨hv, hh, hs⟩ := hrun
            subst hh; subst hs
            have hinv1 : copyInv h0 (h ++ [shell]) (s ++ [(a, h.length)]) := by
              obtain ⟨i1, i2, i3, i4, i5⟩ := hinv
              refine ⟨by simp; omega, fun i hi => ?_, fun e he => ?_, ?_, ?_⟩
              · rw [get?_append_left h [shell] i (by omega)]
                exact i2 i hi
              · rcases List.mem_append.mp he with he1 | he1
                · obtain ⟨j1, j2, j3⟩ := i3 e he1
                  refine ⟨j1, j2, ?_⟩
                  simp only [List.length_append, List.length_singleton]
                  exact Nat.lt_succ_of_lt j3
                · simp only [List.mem_singleton] at he1
                  subst he1
                  refine ⟨hvb, i1, ?_⟩
                  simp only [List.length_append, List.length_singleton]
                  exact Nat.lt_succ_self _
              · simp only [List.map_append, List.map_cons, List.map_nil]
                rw [List.nodup_append]
                refine ⟨i4, List.nodup_singleton a, ?_⟩
                intro x hx hxa
                simp only [List.mem_singleton] at hxa
                subst hxa
                exact hanotin hx
              · simp only [List.map_append, List.map_cons, List.map_nil]
                rw [List.nodup_append]
                refine ⟨i5, List.nodup_singleton _, ?_⟩
                intro x hx hxa
                simp only [List.mem_singleton] at hxa
                subst hxa
                rw [List.mem_map] at hx
                obtain ⟨e, he1, he2⟩ := hx
                obtain ⟨j1, j2, j3⟩ := i3 e he1
                rw [he2] at j3
                exact absurd j3 (lt_irrefl _)
            have hace1 : copyACE h0 (h ++ [shell]) (s ++ [(a, h.length)])
                ((a, h.length) :: pend) :=
              copyACE_alloc h0 h s pend a h.length shell hace hinv
            have hpend1 : ∀ e ∈ s ++ [(a, h.length)], e.2 = h.length →
                e ∈ (a, h.length) :: pend := by
              intro e he hea
              rcases List.mem_append.mp he with he1 | he1
              · have hlth := (hinv.2.2.1 e he1).2.2
                rw [hea] at hlth
                exact absurd hlth (lt_irrefl _)
              · simp only [List.mem_singleton] at he1
                subst he1
                exact List.mem_cons_self _ _
            have hga1 : (h ++ [shell]).get? h.length = some shell := get?_append_self h shell
            have hlt1 : h.length < (h ++ [shell]).length := by simp
            have hge1 : h0.length ≤ h.length := hinv.1
            have hfinish : ∀ (t0 : SeenC) (nf : Node),
                copyInv h0 h2 s2 → s2 = (s ++ [(a, h.length)]) ++ t0 →
                (h ++ [shell]).length ≤ h2.length →
                (∀ i, i < (h ++ [shell]).length → i ≠ h.length →
                  h2.get? i = (h ++ [shell]).get? i) →
                (∀ e ∈ s2, e ∈ s ++ [(a, h.length)] ∨ (h ++ [shell]).length ≤ e.2) →
                copyACE h0 h2 s2 ((a, h.length) :: pend) →
                h2.get? h.length = some nf →
                nodeCorr s2 (h0.get ⟨a, hvb⟩) nf →
                copyInv h0 h2 s2 ∧ (∃ t, s2 = s ++ t) ∧ h.length ≤ h2.length ∧
                  (∀ i, i < h.length → h2.get? i = h.get? i) ∧
                  (∀ e ∈ s2, e ∈ s ∨ h.length ≤ e.2) ∧
                  copyACE h0 h2 s2 pend ∧ valCorr s2 (.obj a) v' := by
              intro t0 nf r1 rext r3 r4 r5 r6 rnf rcorr
              have hdone : copyDone h0 h2 s2 (a, h.length) :=
                ⟨h0.get ⟨a, hvb⟩, nf, hg0, rnf, rcorr⟩
              refine ⟨r1, ⟨[(a, h.length)] ++ t0, by rw [rext, List.append_assoc]⟩,
                by simp only [List.length_append, List.length_singleton] at r3; omega,
                fun i hi => ?_, fun e he => ?_, fun e he => ?_, ?_⟩
              · rw [r4 i (by simp only [List.length_append, List.length_singleton]; omega)
                  (by omega), get?_append_left h [shell] i hi]
              · rcases r5 e he with he1 | he1
                · rcases List.mem_append.mp he1 with he2 | he2
                  · exact Or.inl he2
                  · simp only [List.mem_singleton] at he2
                    subst he2
                    exact Or.inr (le_refl _)
                · simp only [List.length_append, List.length_singleton] at he1
                  exact Or.inr (le_trans (Nat.le_succ _) he1)
              · rcases r6 e he with he1 | he1
                · rcases List.mem_cons.mp he1 with he2 | he2
                  · subst he2
                    exact Or.inr hdone
                  · exact Or.inl he2
                · exact Or.inr he1
              · rw [← hv]
                show List.lookup a s2 = some h.length
                rw [rext]
                exact lookup_fresh_append s t0 a h.length hl
            cases hnode : h0.get ⟨a, hvb⟩ with
            | set elems =>
              rw [hnode] at hshell hpay hnwf
              simp only [copyShell, Except.ok.injEq] at hshell
              subst hshell
              have hpd : copyPayload (fun v hh ss => copyObject fuel v hh ss (-1))
                  h.length (Node.set elems) (h ++ [Node.set []]) (s ++ [(a, h.length)]) =
                  copySetItems (fun v hh ss => copyObject fuel v hh ss (-1))
                    h.length elems (h ++ [Node.set []]) (s ++ [(a, h.length)]) := rfl
              rw [hpd] at hpay
              simp only [nodeWf] at hnwf
              obtain ⟨r1, ⟨t0, rext⟩, r3, r4, r5, r6, copiedAll, r7, r8⟩ :=
                copySetItems_sim h0 ((a, h.length) :: pend) (ih ((a, h.length) :: pend))
                  h.length elems [] [] (h ++ [Node.set []]) (s ++ [(a, h.length)]) h2 s2
                  hinv1 hace1 hga1 hge1 hlt1 hpend1 List.Forall₂.nil
                  (by simpa using hnwf.1) (by simpa using hnwf.2) hpay
              refine hfinish t0 (Node.set copiedAll) r1 rext r3 r4 r5 r6 r7 ?_
              rw [hnode]
              simp only [nodeCorr]
              simpa using r8
            | map entries =>
              rw [hnode] at hshell hpay hnwf
              simp only [copyShell, Except.ok.injEq] at hshell
              subst hshell
              have hpd : copyPayload (fun v hh ss => copyObject fuel v hh ss (-1))
                  h.length (Node.map entries) (h ++ [Node.map []]) (s ++ [(a, h.length)]) =
                  copyMapEntries (fun v hh ss => copyObject fuel v hh ss (-1))
                    h.length entries (h ++ [Node.map []]) (s ++ [(a, h.length)]) := rfl
              rw [hpd] at hpay
              simp only [nodeWf] at hnwf
              obtain ⟨r1, ⟨t0, rext⟩, r3, r4, r5, r6, copiedAll, r7, r8⟩ :=
                copyMapEntries_sim h0 ((a, h.length) :: pend) (ih ((a, h.length) :: pend))
                  h.length entries [] [] (h ++ [Node.map []]) (s ++ [(a, h.length)]) h2 s2
                  hinv1 hace1 hga1 hge1 hlt1 hpend1 List.Forall₂.nil
                  (by simpa using hnwf.1) (by simpa using hnwf.2) hpay
              refine hfinish t0 (Node.map copiedAll) r1 rext r3 r4 r5 r6 r7 ?_
              rw [hnode]
              simp only [nodeCorr]
              simpa using r8
            | arr elems =>
              rw [hnode] at hshell hpay hnwf
              simp only [copyShell, Except.ok.injEq] at hshell
              subst hshell
              have hpd : copyPayload (fun v hh ss => copyObject fuel v hh ss (-1))
                  h.length (Node.arr elems) (h ++ [Node.arr []]) (s ++ [(a, h.length)]) =
                  copyProps (fun v hh ss => copyObject fuel v hh ss (-1))
                    h.length (Serializable.indexedProps elems)
                    (h ++ [Node.arr []]) (s ++ [(a, h.length)]) := rfl
              rw [hpd] at hpay
              simp only [nodeWf] at hnwf
              obtain ⟨r1, ⟨t0, rext⟩, r3, r4, r5, r6, copiedAll, r7, r8⟩ :=
                copyProps_sim_arr h0 ((a, h.length) :: pend) (ih ((a, h.length) :: pend))
                  h.length (Serializable.indexedProps elems) [] []
                  (h ++ [Node.arr []]) (s ++ [(a, h.length)]) h2 s2
                  hinv1 hace1 hga1 hge1 hlt1 hpend1 List.Forall₂.nil
                  (fun p hp => hnwf p.2 (indexedProps_mem_snd elems p hp)) hpay
              refine hfinish t0 (Node.arr copiedAll) r1 rext r3 r4 r5 r6 r7 ?_
              rw [hnode]
              simp only [nodeCorr]
              rw [List.nil_append, indexedProps_snd] at r8
              exact r8
            | date instant props =>
              rw [hnode] at hshell hpay hnwf
              simp only [copyShell, Except.ok.injEq] at hshell
              subst hshell
              have hpd : copyPayload (fun v hh ss => copyObject fuel v hh ss (-1))
                  h.length (Node.date instant props) (h ++ [Node.date instant []])
                    (s ++ [(a, h.length)]) =
                  copyProps (fun v hh ss => copyObject fuel v hh ss (-1))
                    h.length props (h ++ [Node.date instant []]) (s ++ [(a, h.length)]) := rfl
              rw [hpd] at hpay
              simp only [nodeWf] at hnwf
              obtain ⟨r1, ⟨t0, rext⟩, r3, r4, r5, r6, copiedAll, r7, r8⟩ :=
                copyProps_sim_kv h0 ((a, h.length) :: pend) (ih ((a, h.length) :: pend))
                  h.length (Node.date instant) (fun _ _ _ => rfl)
                  (fun ps k hk => by simp [Serializable.shellKeyUndef, hk])
                  props [] [] (h ++ [Node.date instant []]) (s ++ [(a, h.length)]) h2 s2
                  hinv1 hace1 hga1 hge1 hlt1 hpend1 List.Forall₂.nil
                  (by simpa using hnwf.1) (by simpa using hnwf.2) hpay
              refine hfinish t0 (Node.date instant copiedAll) r1 rext r3 r4 r5 r6 r7 ?_
              rw [hnode]
              simp only [nodeCorr]
              exact ⟨by trivial, by simpa using r8⟩
            | record c props =>
              cases c with
              | none =>
                rw [hnode] at hshell
                simp only [copyShell] at hshell
                exact Except.noConfusion hshell
              | some cname =>
                rw [hnode] at hshell hpay hnwf
                simp only [copyShell, Except.ok.injEq] at hshell
                subst hshell
                have hpd : copyPayload (fun v hh ss => copyObject fuel v hh ss (-1))
                    h.length (Node.record (some cname) props)
                      (h ++ [Node.record (some cname) []]) (s ++ [(a, h.length)]) =
                    copyProps (fun v hh ss => copyObject fuel v hh ss (-1))
                      h.length props (h ++ [Node.record (some cname) []])
                      (s ++ [(a, h.length)]) := rfl
                rw [hpd] at hpay
                simp only [nodeWf] at hnwf
                obtain ⟨r1, ⟨t0, rext⟩, r3, r4, r5, r6, copiedAll, r7, r8⟩ :=
                  copyProps_sim_kv h0 ((a, h.length) :: pend) (ih ((a, h.length) :: pend))
                    h.length (Node.record (some cname)) (fun _ _ _ => rfl)
                    (fun ps k hk => by simp [Serializable.shellKeyUndef, hk])
                    props [] [] (h ++ [Node.record (some cname) []]) (s ++ [(a, h.length)])
                    h2 s2 hinv1 hace1 hga1 hge1 hlt1 hpend1 List.Forall₂.nil
                    (by simpa using hnwf.1) (by simpa using hnwf.2) hpay
                refine hfinish t0 (Node.record (some cname) copiedAll) r1 rext r3 r4 r5 r6 r7 ?_
                rw [hnode]
                simp only [nodeCorr]
                exact ⟨by trivial, by simpa using r8⟩

end UiUtils

/-- C8: full-depth deep copy isolation. For a well-formed object graph, a
successful full-depth deepCopy leaves every original node untouched, places
every copy at a fresh address past the original heap (so no copied composite
is reference-identical to any original node), translates the input value
through a duplicate-free original-to-copy table (one single new object per
original, so internal sharing is preserved exactly), and every copied node
holds the original node's kind, scalars, and children with each child
reference translated through that same table (structural equality with the
same sharing topology). -/
theorem c8_full_copy_isolation (fuel : Nat) (h0 : Heap) (v v' : Value)
    (h' : Heap) (s' : UiUtils.SeenC)
    (hwf : WfHeap h0) (hok : valOk h0 v)
    (hrun : UiUtils.deepCopy fuel v h0 (-1) = .ok (v', h', s')) :
    (∀ i, i < h0.length → h'.get? i = h0.get? i) ∧
    (∀ e ∈ s', e.1 < h0.length ∧ h0.length ≤ e.2 ∧ e.2 < h'.length) ∧
    (s'.map Prod.fst).Nodup ∧ (s'.map Prod.snd).Nodup ∧
    valCorr s' v v' ∧
    (∀ e ∈ s', UiUtils.copyDone h0 h' s' e) := by
  have hinv0 : UiUtils.copyInv h0 h0 [] :=
    ⟨le_refl _, fun i _ => rfl, fun e he => absurd he (List.not_mem_nil e),
      List.nodup_nil, List.nodup_nil⟩
  have hace0 : UiUtils.copyACE h0 h0 [] [] :=
    fun e he => absurd he (List.not_mem_nil e)
  obtain ⟨hinv', _, _, hpres, _, hace', hcorr⟩ :=
    UiUtils.copyObject_sim h0 hwf fuel [] v h0 [] v' h' s' hinv0 hace0 hok hrun
  exact ⟨hpres, hinv'.2.2.1, hinv'.2.2.2.1, hinv'.2.2.2.2, hcorr,
    fun e he => (hace' e he).resolve_left (List.not_mem_nil e)⟩

/-- C8 witness: the record whose two properties share one Set. The copy run
produces a record at the fresh address 2 whose two properties are the same
single copied Set at the fresh address 3, the originals at 0 and 1 are
untouched, and the table is duplicate-free on both sides. -/
theorem c8_witness :
    WfHeap ex8H ∧ valOk ex8H (Value.obj 0) ∧
    ((∀ i, i < ex8H.length → ex8H'.get? i = ex8H.get? i) ∧
     (∀ e ∈ ex8S, e.1 < ex8H.length ∧ ex8H.length ≤ e.2 ∧ e.2 < ex8H'.length) ∧
     (ex8S.map Prod.fst).Nodup ∧ (ex8S.map Prod.snd).Nodup ∧
     valCorr ex8S (Value.obj 0) (Value.obj 2) ∧
     (∀ e ∈ ex8S, UiUtils.copyDone ex8H ex8H' ex8S e)) := by
  have hwf : WfHeap ex8H := by
    intro n hn
    simp only [ex8H, List.mem_cons, List.not_mem_nil, or_false] at hn
    rcases hn with h | h <;> subst h
    · refine ⟨by decide, fun p hp => ?_⟩
      rcases List.mem_cons.mp hp with h1 | hp2
      · subst h1; exact Nat.one_lt_two
      · rcases List.mem_cons.mp hp2 with h1 | hp3
        · subst h1; exact Nat.one_lt_two
        · exact absurd hp3 (List.not_mem_nil p)
    · refine ⟨by decide, fun w hw => ?_⟩
      rcases List.mem_cons.mp hw with h1 | hw2
      · subst h1; trivial
      · exact absurd hw2 (List.not_mem_nil w)
  have hok : valOk ex8H (Value.obj 0) := Nat.zero_lt_two
  exact ⟨hwf, hok,
    c8_full_copy_isolation 4 ex8H (Value.obj 0) (Value.obj 2) ex8H' ex8S hwf hok rfl⟩

/- Round-trip simulation toolkit: bookkeeping of the joint encode/decode
   table. -/

namespace Serializable

theorem seenOf_append (τ t : Tri) : seenOf (τ ++ t) = seenOf τ ++ seenOf t :=
  List.map_append _ τ t

theorem tranOf_append (τ t : Tri) : tranOf (τ ++ t) = tranOf τ ++ tranOf t :=
  List.map_append _ τ t

theorem refsOf_append (τ t : Tri) : refsOf (τ ++ t) = refsOf τ ++ refsOf t :=
  List.map_append _ τ t

theorem seenOf_length (τ : Tri) : (seenOf τ).length = τ.length :=
  List.length_map τ _

theorem seenOf_fst (τ : Tri) : (seenOf τ).map Prod.fst = τ.map (fun t => t.1) := by
  simp [seenOf, List.map_map, Function.comp]

theorem seenOf_snd (τ : Tri) : (seenOf τ).map Prod.snd = τ.map (fun t => t.2.1) := by
  simp [seenOf, List.map_map, Function.comp]

theorem tranOf_fst (τ : Tri) : (tranOf τ).map Prod.fst = τ.map (fun t => t.1) := by
  simp [tranOf, List.map_map, Function.comp]

theorem tranOf_snd (τ : Tri) : (tranOf τ).map Prod.snd = τ.map (fun t => t.2.2) := by
  simp [tranOf, List.map_map, Function.comp]

/-- The BEq test of two __id key options reduces to the string comparison of
the ids. -/
theorem optStrBeq (a b : String) :
    ((some (Json.str a) : Option Json) == some (Json.str b)) = (a == b) := rfl

theorem refsOf_lookup_none (τ : Tri) (id : String)
    (hid : id ∉ τ.map (fun t => t.2.1)) :
    (refsOf τ).lookup (some (Json.str id)) = none := by
  induction τ with
  | nil => rfl
  | cons t τ ih =>
    have hne : ((some (Json.str id) : Option Json) == some (Json.str t.2.1)) = false := by
      rw [optStrBeq, beq_eq_false_iff_ne]
      intro hh
      exact hid (by rw [List.map_cons, ← hh]; exact List.mem_cons_self _ _)
    simp only [refsOf, List.map_cons, List.lookup, hne]
    exact ih (fun hmem => hid (List.mem_cons_of_mem _ hmem))

/-- Looking up an id recorded in the joint table: the three projections agree
on the entry found. -/
theorem tau_lookup (τ : Tri) (hids : (τ.map (fun t => t.2.1)).Nodup)
    (a : Addr) (id : String) (hl : (seenOf τ).lookup a = some id) :
    ∃ a', (a, id, a') ∈ τ ∧ (tranOf τ).lookup a = some a' ∧
      (refsOf τ).lookup (some (Json.str id)) = some (Value.obj a') := by
  induction τ with
  | nil => simp [seenOf] at hl
  | cons t τ ih =>
    rw [List.map_cons] at hids
    obtain ⟨hnotin, hndtl⟩ := List.nodup_cons.mp hids
    by_cases hta : a = t.1
    · have htb : (a == t.1) = true := beq_iff_eq.mpr hta
      simp only [seenOf, List.map_cons, List.lookup, htb] at hl
      simp only [Option.some.injEq] at hl
      have hidb : ((some (Json.str id) : Option Json) == some (Json.str t.2.1)) = true := by
        rw [optStrBeq]
        exact beq_iff_eq.mpr hl.symm
      refine ⟨t.2.2, ?_, ?_, ?_⟩
      · have hteq : (a, id, t.2.2) = t := by rw [hta, ← hl]
        rw [hteq]
        exact List.mem_cons_self _ _
      · simp only [tranOf, List.map_cons, List.lookup, htb]
      · simp only [refsOf, List.map_cons, List.lookup, hidb]
    · have htb : (a == t.1) = false := beq_eq_false_iff_ne.mpr hta
      simp only [seenOf, List.map_cons, List.lookup, htb] at hl
      have hl' : (seenOf τ).lookup a = some id := hl
      have htl : id ∈ τ.map (fun t => t.2.1) := by
        have hmem := lookup_mem (seenOf τ) a id hl'
        have h2 : id ∈ (seenOf τ).map Prod.snd := List.mem_map.mpr ⟨(a, id), hmem, rfl⟩
        rw [seenOf_snd] at h2
        exact h2
      have hne : ((some (Json.str id) : Option Json) == some (Json.str t.2.1)) = false := by
        rw [optStrBeq, beq_eq_false_iff_ne]
        intro hh
        rw [hh] at htl
        exact hnotin htl
      obtain ⟨a', hmem, hlt, hlr⟩ := ih hndtl hl'
      refine ⟨a', List.mem_cons_of_mem _ hmem, ?_, ?_⟩
      · simp only [tranOf, List.map_cons, List.lookup, htb]
        exact hlt
      · simp only [refsOf, List.map_cons, List.lookup, hne]
        exact hlr

/-- Map.set on a fresh key appends. -/
theorem refsPut_fresh (r : Refs) (k : Option Json) (v : Value)
    (hk : r.lookup k = none) : refsPut r k v = r ++ [(k, v)] := by
  simp [refsPut, hk]

theorem decNodeCorr_mono (s t : List (Addr × Addr)) (n n' : Node)
    (h : decNodeCorr s n n') : decNodeCorr (s ++ t) n n' := by
  cases n <;> cases n' <;> simp only [decNodeCorr] at h ⊢ <;> try exact h
  · exact h.imp (fun a b => valCorr_mono s t a b)
  · exact h.imp (fun a b => valCorr_mono s t a b)
  · exact h.imp (fun a b => pairCorr_mono s t a b)
  · exact ⟨h.1, h.2.imp (fun a b hh => ⟨hh.1, valCorr_mono s t _ _ hh.2⟩)⟩

theorem decDone_mono (h0 h h' : Heap) (τ text : Tri) (t : Addr × String × Addr)
    (hd : decDone h0 h τ t) (hh : h'.get? t.2.2 = h.get? t.2.2) :
    decDone h0 h' (τ ++ text) t := by
  obtain ⟨n, n', h1, h2, h3⟩ := hd
  refine ⟨n, n', h1, by rw [hh]; exact h2, ?_⟩
  rw [tranOf_append]
  exact decNodeCorr_mono _ _ _ _ h3

theorem decACE_alloc (h0 h : Heap) (τ pend : Tri) (a : Addr) (id : String)
    (a' : Addr) (shell : Node)
    (hace : decACE h0 h τ pend) (hinv : decInv h0 h τ) :
    decACE h0 (h ++ [shell]) (τ ++ [(a, id, a')]) ((a, id, a') :: pend) := by
  intro t ht
  rcases List.mem_append.mp ht with ht1 | ht1
  · rcases hace t ht1 with hp | hd
    · exact Or.inl (List.mem_cons_of_mem _ hp)
    · refine Or.inr (decDone_mono h0 h _ τ [(a, id, a')] t hd ?_)
      have hb := (hinv.2.1 t ht1).2
      exact get?_append_left h [shell] t.2.2 hb
  · simp only [List.mem_singleton] at ht1
    subst ht1
    exact Or.inl (List.mem_cons_self _ _)

theorem decACE_write (h0 h : Heap) (τ pend : Tri) (a' : Addr) (nd : Node)
    (hace : decACE h0 h τ pend) (hp : ∀ t ∈ τ, t.2.2 = a' → t ∈ pend) :
    decACE h0 (h.set a' nd) τ pend := by
  intro t ht
  by_cases hta : t.2.2 = a'
  · exact Or.inl (hp t ht hta)
  · rcases hace t ht with hp1 | hd
    · exact Or.inl hp1
    · obtain ⟨n, n', h1, h2, h3⟩ := hd
      exact Or.inr ⟨n, n', h1,
        by rw [get?_set_ne h a' t.2.2 nd (fun hh => hta hh.symm)]; exact h2, h3⟩

/-- Ids assigned by the encoder are never the empty string, so their __ref
occurrences are truthy. -/
theorem SeenWf_lookup_shape (s : SeenS) (hs : SeenWf s) (a : Addr) (id : String)
    (hl : s.lookup a = some id) : ∃ c k, id = c ++ "_" ++ Nat.repr k := by
  have hmem := lookup_mem s a id hl
  obtain ⟨k, hk⟩ := List.mem_iff_get.mp hmem
  obtain ⟨c, hc⟩ := hs.2 k.1 k.2
  refine ⟨c, k.1, ?_⟩
  have hget : s.get ⟨k.1, k.2⟩ = (a, id) := by
    rw [show (⟨k.1, k.2⟩ : Fin s.length) = k from rfl]
    exact hk
  rw [hget] at hc
  exact hc

theorem idString_ne_empty (c : String) (k : Nat) :
    ((c ++ "_" ++ Nat.repr k : String) == "") = false := by
  rw [beq_eq_false_iff_ne]
  intro hh
  have hl : (c ++ "_" ++ Nat.repr k).length = 0 := by rw [hh]; rfl
  simp [String.length_append] at hl
  exact absurd hl.1.2 (by decide)

theorem hasSerializedSymbol_nil (n : Node) : hasSerializedSymbol [] n = false := by
  cases n with
  | arr es => rfl
  | set es => rfl
  | map en => rfl
  | date i ps => rfl
  | record c ps => cases c with
    | none => rfl
    | some cname => rfl

theorem markedProps_false : markedProps false = [] := rfl

/-- No decimal numeral is one of the two skipped metadata keys. -/
theorem repr_ne_underscored (i : Nat) (s : String) (hs : '_' ∈ s.data) :
    Nat.repr i ≠ s := by
  intro hh
  have := repr_no_underscore i '_' (by rw [hh]; exact hs)
  exact this rfl

theorem jget_obj (ps : List (String × Json)) (k : String) :
    jget (Json.obj ps) k = ps.lookup k := rfl

theorem jget_none (ps : List (String × Json)) (k : String)
    (hk : ∀ p ∈ ps, p.1 ≠ k) : jget (Json.obj ps) k = none := by
  rw [jget_obj, lookup_eq_none_iff]
  intro hmem
  obtain ⟨p, hp, hp2⟩ := List.mem_map.mp hmem
  exact hk p hp hp2

theorem lookup_cons_ne {β : Type} (k a : String) (v : β) (l : List (String × β))
    (h : (a == k) = false) : List.lookup a ((k, v) :: l) = List.lookup a l := by
  simp [List.lookup, h]

theorem lookup_cons_hit {β : Type} (k : String) (v : β) (l : List (String × β)) :
    List.lookup k ((k, v) :: l) = some v := by
  simp [List.lookup]

end Serializable

namespace Serializable

/-- With the fall-through raw branch absent, the fueled JSON.stringify agrees
with the pure structural rendering of the serializer output tree. -/
theorem jsonify_toJson (h : Heap) :
    ∀ (fuel : Nat) (o : SOut) (oj : Option Json), SOut.noRaw o = true →
      jsonify h fuel o = .ok oj → oj = SOut.toJson o := by
  intro fuel
  induction fuel with
  | zero => intro o oj _ hrun; exact Except.noConfusion hrun
  | succ fuel ih =>
    have hlist : ∀ (os : List SOut) (js : List Json), SOut.noRawList os = true →
        soutOptList (jsonify h fuel) os = .ok js → js = SOut.toJsonList os := by
      intro os
      induction os with
      | nil =>
        intro js _ hrun
        simp only [soutOptList, Except.ok.injEq] at hrun
        rw [← hrun]
        rfl
      | cons o os ihl =>
        intro js hnr hrun
        simp only [SOut.noRawList, Bool.and_eq_true] at hnr
        simp only [soutOptList] at hrun
        cases hj : jsonify h fuel o with
        | error e =>
          simp only [hj, Bind.bind, Except.bind] at hrun
          exact Except.noConfusion hrun
        | ok j1 =>
          simp only [hj, Bind.bind, Except.bind] at hrun
          cases hjs : soutOptList (jsonify h fuel) os with
          | error e =>
            simp only [hjs] at hrun
            exact Except.noConfusion hrun
          | ok js1 =>
            simp only [hjs, Except.ok.injEq] at hrun
            rw [← hrun, ih o j1 hnr.1 hj, ihl js1 hnr.2 hjs]
            simp only [SOut.toJsonList]
    have hpairs : ∀ (es : List (SOut × SOut)) (js : List Json),
        SOut.noRawPairs es = true →
        soutOptPairs (jsonify h fuel) es = .ok js → js = SOut.toJsonPairs es := by
      intro es
      induction es with
      | nil =>
        intro js _ hrun
        simp only [soutOptPairs, Except.ok.injEq] at hrun
        rw [← hrun]
        rfl
      | cons e es ihl =>
        intro js hnr hrun
        obtain ⟨k, v⟩ := e
        simp only [SOut.noRawPairs, Bool.and_eq_true] at hnr
        simp only [soutOptPairs] at hrun
        cases hk : jsonify h fuel k with
        | error e1 =>
          simp only [hk, Bind.bind, Except.bind] at hrun
          exact Except.noConfusion hrun
        | ok kj =>
          simp only [hk, Bind.bind, Except.bind] at hrun
          cases hv : jsonify h fuel v with
          | error e1 =>
            simp only [hv] at hrun
            exact Except.noConfusion hrun
          | ok vj =>
            simp only [hv] at hrun
            cases hjs : soutOptPairs (jsonify h fuel) es with
            | error e1 =>
              simp only [hjs] at hrun
              exact Except.noConfusion hrun
            | ok js1 =>
              simp only [hjs, Except.ok.injEq] at hrun
              rw [← hrun, ih k kj hnr.1.1 hk, ih v vj hnr.1.2 hv, ihl js1 hnr.2 hjs]
              simp only [SOut.toJsonPairs]
    have hprops : ∀ (ps : List (String × SOut)) (js : List (String × Json)),
        SOut.noRawProps ps = true →
        soutOptProps (jsonify h fuel) ps = .ok js → js = SOut.toJsonProps ps := by
      intro ps
      induction ps with
      | nil =>
        intro js _ hrun
        simp only [soutOptProps, Except.ok.injEq] at hrun
        rw [← hrun]
        rfl
      | cons p ps ihl =>
        intro js hnr hrun
        obtain ⟨k, o⟩ := p
        simp only [SOut.noRawProps, Bool.and_eq_true] at hnr
        simp only [soutOptProps] at hrun
        cases hj : jsonify h fuel o with
        | error e =>
          simp only [hj, Bind.bind, Except.bind] at hrun
          exact Except.noConfusion hrun
        | ok j1 =>
          simp only [hj, Bind.bind, Except.bind] at hrun
          cases hjs : soutOptProps (jsonify h fuel) ps with
          | error e =>
            simp only [hjs] at hrun
            exact Except.noConfusion hrun
          | ok js1 =>
            simp only [hjs] at hrun
            rw [ih o j1 hnr.1 hj] at hrun
            cases hto : SOut.toJson o with
            | none =>
              rw [hto] at hrun
              simp only [Except.ok.injEq] at hrun
              rw [← hrun, ihl js1 hnr.2 hjs]
              simp only [SOut.toJsonProps, hto]
            | some jv =>
              rw [hto] at hrun
              simp only [Except.ok.injEq] at hrun
              rw [← hrun, ihl js1 hnr.2 hjs]
              simp only [SOut.toJsonProps, hto]
    intro o oj hnr hrun
    cases o with
    | prim p =>
      simp only [jsonify, Except.ok.injEq] at hrun
      rw [← hrun]
      rfl
    | raw a => simp [SOut.noRaw] at hnr
    | backref id =>
      simp only [jsonify, Except.ok.injEq] at hrun
      rw [← hrun]
      rfl
    | setNode cls id mk values =>
      simp only [SOut.noRaw] at hnr
      simp only [jsonify] at hrun
      cases hjs : soutOptList (jsonify h fuel) values with
      | error e =>
        simp only [hjs, Bind.bind, Except.bind] at hrun
        exact Except.noConfusion hrun
      | ok js =>
        simp only [hjs, Bind.bind, Except.bind, Except.ok.injEq] at hrun
        rw [← hrun, hlist values js hnr hjs]
        simp only [SOut.toJson]
    | mapNode cls id mk entries =>
      simp only [SOut.noRaw] at hnr
      simp only [jsonify] at hrun
      cases hjs : soutOptPairs (jsonify h fuel) entries with
      | error e =>
        simp only [hjs, Bind.bind, Except.bind] at hrun
        exact Except.noConfusion hrun
      | ok js =>
        simp only [hjs, Bind.bind, Except.bind, Except.ok.injEq] at hrun
        rw [← hrun, hpairs entries js hnr hjs]
        simp only [SOut.toJson]
    | dateNode cls id mk instant =>
      simp only [jsonify, Except.ok.injEq] at hrun
      rw [← hrun]
      rfl
    | objNode cls id mk props =>
      simp only [SOut.noRaw] at hnr
      simp only [jsonify] at hrun
      cases hjs : soutOptProps (jsonify h fuel) props with
      | error e =>
        simp only [hjs, Bind.bind, Except.bind] at hrun
        exact Except.noConfusion hrun
      | ok js =>
        simp only [hjs, Bind.bind, Except.bind, Except.ok.injEq] at hrun
        rw [← hrun, hprops props js hnr hjs]
        simp only [SOut.toJson]

/-- A node of a fully registered heap always takes the registered branch of
the encoder. -/
theorem registered_contains (cm : List String) (n : Node) (cn : String)
    (hreg : nodeRegistered cm n) (hc : ctorName n = .ok cn) :
    cm.contains (getClassName cn) = true := by
  cases n with
  | arr es =>
    simp only [ctorName, Except.ok.injEq] at hc
    subst hc
    exact List.elem_eq_true_of_mem hreg.1
  | set es =>
    simp only [ctorName, Except.ok.injEq] at hc
    subst hc
    exact List.elem_eq_true_of_mem hreg.1
  | map en =>
    simp only [ctorName, Except.ok.injEq] at hc
    subst hc
    exact List.elem_eq_true_of_mem hreg.1
  | date i ps =>
    simp only [ctorName, Except.ok.injEq] at hc
    subst hc
    exact List.elem_eq_true_of_mem hreg.1
  | record c ps =>
    obtain ⟨⟨cname, hc1, hc2, hc3, _⟩, _⟩ := hreg
    subst hc1
    simp only [ctorName, Except.ok.injEq] at hc
    subst hc
    rw [hc3]
    exact List.elem_eq_true_of_mem hc2

/-- Over a fully registered heap the encoder never emits a raw fall-through
value, and every encoded object value renders to an actual JSON tree. -/
theorem ser_output_clean (cm marked : List String) (h0 : Heap)
    (hreg : ∀ n ∈ h0, nodeRegistered cm n) :
    ∀ (fuel : Nat) (v : Value) (s : SeenS) (o : SOut) (s' : SeenS),
      serializeObject cm marked h0 fuel v s = .ok (o, s') →
      SOut.noRaw o = true ∧ (isObject v = true → (SOut.toJson o).isSome = true) := by
  intro fuel
  induction fuel with
  | zero => intro v s o s' hrun; exact Except.noConfusion hrun
  | succ fuel ih =>
    have hitem : ∀ v s o s', encItem (serializeObject cm marked h0 fuel) v s = .ok (o, s') →
        SOut.noRaw o = true := by
      intro v s o s' hrun
      unfold encItem at hrun
      split at hrun
      · exact (ih v s o s' hrun).1
      · simp only [Except.ok.injEq, Prod.mk.injEq] at hrun
        rw [← hrun.1]
        rfl
    have hlist : ∀ l s os s', encList (serializeObject cm marked h0 fuel) l s = .ok (os, s') →
        SOut.noRawList os = true := by
      intro l
      induction l with
      | nil =>
        intro s os s' hrun
        simp only [encList, Except.ok.injEq, Prod.mk.injEq] at hrun
        rw [← hrun.1]
        rfl
      | cons v vs ihl =>
        intro s os s' hrun
        simp only [encList] at hrun
        cases he : encItem (serializeObject cm marked h0 fuel) v s with
        | error e =>
          simp only [he, Bind.bind, Except.bind] at hrun
          exact Except.noConfusion hrun
        | ok p =>
          obtain ⟨o1, s1⟩ := p
          simp only [he, Bind.bind, Except.bind] at hrun
          cases hl : encList (serializeObject cm marked h0 fuel) vs s1 with
          | error e =>
            simp only [hl] at hrun
            exact Except.noConfusion hrun
          | ok p2 =>
            obtain ⟨os1, s2⟩ := p2
            simp only [hl, Except.ok.injEq, Prod.mk.injEq] at hrun
            rw [← hrun.1]
            simp only [SOut.noRawList, Bool.and_eq_true]
            exact ⟨hitem v s o1 s1 he, ihl s1 os1 s2 hl⟩
    have hpairs : ∀ l s os s', encPairs (serializeObject cm marked h0 fuel) l s = .ok (os, s') →
        SOut.noRawPairs os = true := by
      intro l
      induction l with
      | nil =>
        intro s os s' hrun
        simp only [encPairs, Except.ok.injEq, Prod.mk.injEq] at hrun
        rw [← hrun.1]
        rfl
      | cons e es ihl =>
        intro s os s' hrun
        obtain ⟨k, v⟩ := e
        simp only [encPairs] at hrun
        cases hk : encItem (serializeObject cm marked h0 fuel) k s with
        | error e1 =>
          simp only [hk, Bind.bind, Except.bind] at hrun
          exact Except.noConfusion hrun
        | ok p =>
          obtain ⟨ko, s1⟩ := p
          simp only [hk, Bind.bind, Except.bind] at hrun
          cases hv : encItem (serializeObject cm marked h0 fuel) v s1 with
          | error e1 =>
            simp only [hv] at hrun
            exact Except.noConfusion hrun
          | ok p2 =>
            obtain ⟨vo, s2⟩ := p2
            simp only [hv] at hrun
            cases hl : encPairs (serializeObject cm marked h0 fuel) es s2 with
            | error e1 =>
              simp only [hl] at hrun
              exact Except.noConfusion hrun
            | ok p3 =>
              obtain ⟨os1, s3⟩ := p3
              simp only [hl, Except.ok.injEq, Prod.mk.injEq] at hrun
              rw [← hrun.1]
              simp only [SOut.noRawPairs, Bool.and_eq_true]
              exact ⟨⟨hitem k s ko s1 hk, hitem v s1 vo s2 hv⟩, ihl s2 os1 s3 hl⟩
    have hprops : ∀ l s os s', encProps (serializeObject cm marked h0 fuel) l s = .ok (os, s') →
        SOut.noRawProps os = true := by
      intro l
      induction l with
      | nil =>
        intro s os s' hrun
        simp only [encProps, Except.ok.injEq, Prod.mk.injEq] at hrun
        rw [← hrun.1]
        rfl
      | cons p ps ihl =>
        intro s os s' hrun
        obtain ⟨k, v⟩ := p
        simp only [encProps] at hrun
        cases he : encItem (serializeObject cm marked h0 fuel) v s with
        | error e =>
          simp only [he, Bind.bind, Except.bind] at hrun
          exact Except.noConfusion hrun
        | ok p1 =>
          obtain ⟨o1, s1⟩ := p1
          simp only [he, Bind.bind, Except.bind] at hrun
          cases hl : encProps (serializeObject cm marked h0 fuel) ps s1 with
          | error e =>
            simp only [hl] at hrun
            exact Except.noConfusion hrun
          | ok p2 =>
            obtain ⟨os1, s2⟩ := p2
            simp only [hl, Except.ok.injEq, Prod.mk.injEq] at hrun
            rw [← hrun.1]
            simp only [SOut.noRawProps, Bool.and_eq_true]
            exact ⟨hitem v s o1 s1 he, ihl s1 os1 s2 hl⟩
    intro v s o s' hrun
    cases v with
    | prim p =>
      rw [ser_step_prim] at hrun
      simp only [Except.ok.injEq, Prod.mk.injEq] at hrun
      refine ⟨by rw [← hrun.1]; rfl, fun hobj => ?_⟩
      simp [isObject] at hobj
    | obj a =>
      cases hl : s.lookup a with
      | some id =>
        rw [ser_step_seen cm marked h0 fuel a s id hl] at hrun
        simp only [Except.ok.injEq, Prod.mk.injEq] at hrun
        exact ⟨by rw [← hrun.1]; rfl, fun _ => by rw [← hrun.1]; rfl⟩
      | none =>
        cases hg : h0.get? a with
        | none =>
          rw [ser_step_obj] at hrun
          simp only [hl, hg] at hrun
          exact Except.noConfusion hrun
        | some n =>
          cases hc : ctorName n with
          | error e =>
            rw [ser_step_obj] at hrun
            simp only [hl, hg, hc] at hrun
            exact Except.noConfusion hrun
          | ok cn =>
            have hn0 : n ∈ h0 := List.get?_mem hg
            have hcont : cm.contains (getClassName cn) = true :=
              registered_contains cm n cn (hreg n hn0) hc
            rw [ser_step_fresh_reg cm marked h0 fuel a s n cn hl hg hc hcont] at hrun
            cases n with
            | arr es =>
              simp only [serPayload] at hrun
              cases hel : encProps (serializeObject cm marked h0 fuel)
                  (indexedProps es) (s ++ [(a, getClassName cn ++ "_" ++ Nat.repr s.length)]) with
              | error e =>
                simp only [hel, Bind.bind, Except.bind] at hrun
                exact Except.noConfusion hrun
              | ok p =>
                obtain ⟨os1, s2⟩ := p
                simp only [hel, Bind.bind, Except.bind, Except.ok.injEq, Prod.mk.injEq] at hrun
                refine ⟨by rw [← hrun.1]; simpa [SOut.noRaw] using hprops _ _ _ _ hel,
                  fun _ => by rw [← hrun.1]; rfl⟩
            | set es =>
              simp only [serPayload] at hrun
              cases hel : encList (serializeObject cm marked h0 fuel)
                  es (s ++ [(a, getClassName cn ++ "_" ++ Nat.repr s.length)]) with
              | error e =>
                simp only [hel, Bind.bind, Except.bind] at hrun
                exact Except.noConfusion hrun
              | ok p =>
                obtain ⟨os1, s2⟩ := p
                simp only [hel, Bind.bind, Except.bind, Except.ok.injEq, Prod.mk.injEq] at hrun
                refine ⟨by rw [← hrun.1]; simpa [SOut.noRaw] using hlist _ _ _ _ hel,
                  fun _ => by rw [← hrun.1]; rfl⟩
            | map en =>
              simp only [serPayload] at hrun
              cases hel : encPairs (serializeObject cm marked h0 fuel)
                  en (s ++ [(a, getClassName cn ++ "_" ++ Nat.repr s.length)]) with
              | error e =>
                simp only [hel, Bind.bind, Except.bind] at hrun
                exact Except.noConfusion hrun
              | ok p =>
                obtain ⟨os1, s2⟩ := p
                simp only [hel, Bind.bind, Except.bind, Except.ok.injEq, Prod.mk.injEq] at hrun
                refine ⟨by rw [← hrun.1]; simpa [SOut.noRaw] using hpairs _ _ _ _ hel,
                  fun _ => by rw [← hrun.1]; rfl⟩
            | date i ps =>
              simp only [serPayload, Except.ok.injEq, Prod.mk.injEq] at hrun
              exact ⟨by rw [← hrun.1]; rfl, fun _ => by rw [← hrun.1]; rfl⟩
            | record c ps =>
              simp only [serPayload] at hrun
              cases hel : encProps (serializeObject cm marked h0 fuel)
                  ps (s ++ [(a, getClassName cn ++ "_" ++ Nat.repr s.length)]) with
              | error e =>
                simp only [hel, Bind.bind, Except.bind] at hrun
                exact Except.noConfusion hrun
              | ok p =>
                obtain ⟨os1, s2⟩ := p
                simp only [hel, Bind.bind, Except.bind, Except.ok.injEq, Prod.mk.injEq] at hrun
                refine ⟨by rw [← hrun.1]; simpa [SOut.noRaw] using hprops _ _ _ _ hel,
                  fun _ => by rw [← hrun.1]; rfl⟩

end Serializable

namespace Serializable

/-- A JSON-safe primitive decodes back to itself from its JSON leaf. -/
theorem prim_dec_id (p : Prim) (hp : primSafe p) :
    jIsObject ((primJson p).getD .null) = false ∧
      jprimVal ((primJson p).getD .null) = .prim p := by
  cases p with
  | undef => exact absurd hp (by simp [primSafe])
  | null => exact ⟨rfl, rfl⟩
  | bool b => exact ⟨rfl, rfl⟩
  | num n => exact ⟨rfl, rfl⟩
  | str s => exact ⟨rfl, rfl⟩

/-- One element position of the joint simulation: the conditional
encoder/decoder pair treats a primitive as a fixed point and otherwise defers
to the recursive pair. -/
theorem roundItem (cm : List String) (h0 : Heap) (pend : Tri)
    {f : Value → SeenS → Except Err (SOut × SeenS)}
    (Hf : RoundSim cm h0 pend f) : RoundSim cm h0 pend (encItem f) := by
  intro v o s' τ fuel2 h v' h' r' hsafe hok henc hinv hace hdec
  unfold encItem at henc
  split at henc
  · exact Hf v o s' τ fuel2 h v' h' r' hsafe hok henc hinv hace hdec
  · rename_i hobj
    cases v with
    | obj a => exact absurd (show isObject (Value.obj a) = true from rfl) hobj
    | prim p =>
      simp only [Except.ok.injEq, Prod.mk.injEq] at henc
      obtain ⟨ho, hs⟩ := henc
      have hpd := prim_dec_id p hsafe
      rw [← ho] at hdec
      simp only [SOut.toJson, asPrim] at hdec
      unfold decItem at hdec
      rw [hpd.1] at hdec
      simp only [Bool.false_eq_true, if_false, Except.ok.injEq, Prod.mk.injEq] at hdec
      obtain ⟨hv, hh, hr⟩ := hdec
      refine ⟨τ, hs.symm, hr.symm, ⟨[], by simp⟩, by rw [← hh]; exact hinv,
        by rw [← hh]; exact hace, by rw [← hh], fun i _ => by rw [← hh],
        fun t ht => Or.inl ht, ?_⟩
      rw [← hv, hpd.2]
      simp [valCorr]

/-- Set-payload loop of the joint simulation: the decoded Set accumulates the
translations of the original elements in order. -/
theorem roundSetItems (cm : List String) (h0 : Heap) (pend : Tri)
    {f : Value → SeenS → Except Err (SOut × SeenS)}
    (Hf : RoundSim cm h0 pend f) (a' : Addr) :
    ∀ (rest prefixOrig : List Value) (outs : List SOut) (s2 : SeenS)
      (τ : Tri) (fuel2 : Nat) (h : Heap) (decoded : List Value) (h2 : Heap) (r2 : Refs),
      decInv h0 h τ → decACE h0 h τ pend →
      h.get? a' = some (.set decoded) →
      a' < h.length →
      (∀ t ∈ τ, t.2.2 = a' → t ∈ pend) →
      List.Forall₂ (valCorr (tranOf τ)) prefixOrig decoded →
      (prefixOrig ++ rest).Nodup →
      (∀ x ∈ prefixOrig ++ rest, valSafe x ∧ valOk h0 x) →
      encList f rest (seenOf τ) = .ok (outs, s2) →
      decSetItems (deserializeObject cm fuel2) a' (SOut.toJsonList outs) h (refsOf τ) =
        .ok (h2, r2) →
      ∃ τ2, s2 = seenOf τ2 ∧ r2 = refsOf τ2 ∧ (∃ t, τ2 = τ ++ t) ∧
        decInv h0 h2 τ2 ∧ decACE h0 h2 τ2 pend ∧
        h.length ≤ h2.length ∧
        (∀ i, i < h.length → i ≠ a' → h2.get? i = h.get? i) ∧
        (∀ t ∈ τ2, t ∈ τ ∨ h.length ≤ t.2.2) ∧
        ∃ decodedAll, h2.get? a' = some (.set decodedAll) ∧
          List.Forall₂ (valCorr (tranOf τ2)) (prefixOrig ++ rest) decodedAll := by
  intro rest
  induction rest with
  | nil =>
    intro prefixOrig outs s2 τ fuel2 h decoded h2 r2 hinv hace hga hlt hp hf2 hnd hok
      henc hdec
    simp only [encList, Except.ok.injEq, Prod.mk.injEq] at henc
    obtain ⟨ho, hs⟩ := henc
    rw [← ho] at hdec
    simp only [SOut.toJsonList, decSetItems, Except.ok.injEq, Prod.mk.injEq] at hdec
    obtain ⟨hh, hr⟩ := hdec
    exact ⟨τ, hs.symm, hr.symm, ⟨[], by simp⟩, by rw [← hh]; exact hinv,
      by rw [← hh]; exact hace, by rw [← hh], fun i _ _ => by rw [← hh],
      fun t ht => Or.inl ht, decoded, by rw [← hh]; simpa using hga, by simpa using hf2⟩
  | cons x rest ih =>
    intro prefixOrig outs s2 τ fuel2 h decoded h2 r2 hinv hace hga hlt hp hf2 hnd hok
      henc hdec
    simp only [encList] at henc
    cases he : encItem f x (seenOf τ) with
    | error e =>
      simp only [he, Bind.bind, Except.bind] at henc
      exact Except.noConfusion henc
    | ok p1 =>
      obtain ⟨o1, s1⟩ := p1
      simp only [he, Bind.bind, Except.bind] at henc
      cases hel : encList f rest s1 with
      | error e =>
        simp only [hel] at henc
        exact Except.noConfusion henc
      | ok p2 =>
        obtain ⟨os, s2'⟩ := p2
        simp only [hel, Except.ok.injEq, Prod.mk.injEq] at henc
        obtain ⟨ho, hs2⟩ := henc
        rw [← ho] at hdec
        simp only [SOut.toJsonList, decSetItems] at hdec
        cases hd1 : decItem (deserializeObject cm fuel2) ((SOut.toJson o1).getD .null)
            h (refsOf τ) with
        | error e =>
          simp only [hd1, Bind.bind, Except.bind] at hdec
          exact Except.noConfusion hdec
        | ok q1 =>
          obtain ⟨v1, h1, r1⟩ := q1
          simp only [hd1, Bind.bind, Except.bind] at hdec
          have hokx := hok x (by simp)
          obtain ⟨τa, hsa, hra, ⟨ta, hta⟩, hinva, hacea, hlena, hpresa, hnewa, hcorra⟩ :=
            roundItem cm h0 pend Hf x o1 s1 τ fuel2 h v1 h1 r1 hokx.1 hokx.2 he hinv hace hd1
          have hga1 : h1.get? a' = some (.set decoded) := by
            rw [hpresa a' hlt]
            exact hga
          cases h2s : heapSetAdd h1 a' v1 with
          | error e =>
            rw [hra] at hdec
            simp only [h2s] at hdec
            exact Except.noConfusion hdec
          | ok h1b =>
            rw [hra] at hdec
            simp only [h2s] at hdec
            have hxp : x ∉ prefixOrig := by
              intro hh
              have hdisj := (List.nodup_append.mp hnd).2.2
              exact hdisj hh (List.mem_cons_self x rest)
            have hf2a : List.Forall₂ (valCorr (tranOf τa)) prefixOrig decoded := by
              rw [hta, tranOf_append]
              exact hf2.imp (fun p q hpq => valCorr_mono _ _ p q hpq)
            have hndsnd : ((tranOf τa).map Prod.snd).Nodup := by
              rw [tranOf_snd]
              exact hinva.2.2
            have hfresh : v1 ∉ decoded := by
              intro hmem
              obtain ⟨y, hy1, hy2⟩ := forall2_mem_right hf2a v1 hmem
              have hxy : x ≠ y := fun hh => hxp (hh ▸ hy1)
              exact (valCorr_inj (tranOf τa) hndsnd x y v1 v1 hcorra hy2 hxy) rfl
            have hset : setAdd decoded v1 = decoded ++ [v1] := by
              unfold setAdd
              rw [if_neg (by simpa using hfresh)]
            have h2eq : h1b = h1.set a' (.set (decoded ++ [v1])) := by
              unfold heapSetAdd at h2s
              rw [hga1] at h2s
              simp only [Except.ok.injEq] at h2s
              rw [← h2s, hset]
            have hlt1 : a' < h1.length := lt_of_lt_of_le hlt hlena
            have hinvb : decInv h0 h1b τa := by
              obtain ⟨i1, i2, i3⟩ := hinva
              subst h2eq
              refine ⟨i1, fun t ht => ⟨(i2 t ht).1, ?_⟩, i3⟩
              have := (i2 t ht).2
              simpa using this
            have hp1 : ∀ t ∈ τa, t.2.2 = a' → t ∈ pend := by
              intro t ht hta2
              rcases hnewa t ht with ht1 | ht1
              · exact hp t ht1 hta2
              · rw [hta2] at ht1
                exact absurd hlt (not_lt.mpr ht1)
            have haceb : decACE h0 h1b τa pend := by
              rw [h2eq]
              exact decACE_write h0 h1 τa pend a' _ hacea hp1
            have hgab : h1b.get? a' = some (.set (decoded ++ [v1])) := by
              rw [h2eq]
              exact get?_set_self h1 a' _ hlt1
            have hf2' : List.Forall₂ (valCorr (tranOf τa)) (prefixOrig ++ [x])
                (decoded ++ [v1]) := forall2_snoc hf2a hcorra
            have hnd' : ((prefixOrig ++ [x]) ++ rest).Nodup := by
              rw [List.append_assoc, List.singleton_append]
              exact hnd
            have hok' : ∀ y ∈ (prefixOrig ++ [x]) ++ rest, valSafe y ∧ valOk h0 y := by
              intro y hy
              apply hok
              rw [List.append_assoc, List.singleton_append] at hy
              exact hy
            rw [hsa] at hel
            obtain ⟨τ2, hs2', hr2, ⟨t2, ht2⟩, r1', r2', r3, r4, r5, decodedAll, r7, r8⟩ :=
              ih (prefixOrig ++ [x]) os s2' τa fuel2 h1b (decoded ++ [v1]) h2 r2
                hinvb haceb hgab (by rw [h2eq]; simpa using hlt1) hp1 hf2' hnd' hok'
                hel hdec
            have hlen2 : h.length ≤ h1b.length := by
              rw [h2eq]
              simpa using hlena
            refine ⟨τ2, by rw [← hs2, hs2'], hr2, ⟨ta ++ t2, by rw [ht2, hta, List.append_assoc]⟩,
              r1', r2', by omega, fun i hi hia => ?_, fun t ht => ?_, decodedAll, r7, ?_⟩
            · rw [r4 i (by omega) hia, h2eq, get?_set_ne h1 a' i _ (fun hh => hia hh.symm),
                hpresa i hi]
            · rcases r5 t ht with ht1 | ht1
              · rcases hnewa t ht1 with ht3 | ht3
                · exact Or.inl ht3
                · exact Or.inr ht3
              · exact Or.inr (by omega)
            · rw [List.append_assoc, List.singleton_append] at r8
              exact r8

end Serializable

namespace Serializable

/-- Map-payload loop of the joint simulation: the decoded Map accumulates the
translated key/value pairs of the original entries in order. -/
theorem roundMapEntries (cm : List String) (h0 : Heap) (pend : Tri)
    {f : Value → SeenS → Except Err (SOut × SeenS)}
    (Hf : RoundSim cm h0 pend f) (a' : Addr) :
    ∀ (rest prefixOrig : List (Value × Value)) (outs : List (SOut × SOut)) (s2 : SeenS)
      (τ : Tri) (fuel2 : Nat) (h : Heap) (decoded : List (Value × Value))
      (h2 : Heap) (r2 : Refs),
      decInv h0 h τ → decACE h0 h τ pend →
      h.get? a' = some (.map decoded) →
      a' < h.length →
      (∀ t ∈ τ, t.2.2 = a' → t ∈ pend) →
      List.Forall₂ (fun e e' => valCorr (tranOf τ) e.1 e'.1 ∧ valCorr (tranOf τ) e.2 e'.2)
        prefixOrig decoded →
      ((prefixOrig ++ rest).map Prod.fst).Nodup →
      (∀ x ∈ prefixOrig ++ rest, (valSafe x.1 ∧ valOk h0 x.1) ∧
        (valSafe x.2 ∧ valOk h0 x.2)) →
      encPairs f rest (seenOf τ) = .ok (outs, s2) →
      decMapEntries (deserializeObject cm fuel2) a' (SOut.toJsonPairs outs) h (refsOf τ) =
        .ok (h2, r2) →
      ∃ τ2, s2 = seenOf τ2 ∧ r2 = refsOf τ2 ∧ (∃ t, τ2 = τ ++ t) ∧
        decInv h0 h2 τ2 ∧ decACE h0 h2 τ2 pend ∧
        h.length ≤ h2.length ∧
        (∀ i, i < h.length → i ≠ a' → h2.get? i = h.get? i) ∧
        (∀ t ∈ τ2, t ∈ τ ∨ h.length ≤ t.2.2) ∧
        ∃ decodedAll, h2.get? a' = some (.map decodedAll) ∧
          List.Forall₂ (fun e e' => valCorr (tranOf τ2) e.1 e'.1 ∧
            valCorr (tranOf τ2) e.2 e'.2) (prefixOrig ++ rest) decodedAll := by
  intro rest
  induction rest with
  | nil =>
    intro prefixOrig outs s2 τ fuel2 h decoded h2 r2 hinv hace hga hlt hp hf2 hnd hok
      henc hdec
    simp only [encPairs, Except.ok.injEq, Prod.mk.injEq] at henc
    obtain ⟨ho, hs⟩ := henc
    rw [← ho] at hdec
    simp only [SOut.toJsonPairs, decMapEntries, Except.ok.injEq, Prod.mk.injEq] at hdec
    obtain ⟨hh, hr⟩ := hdec
    exact ⟨τ, hs.symm, hr.symm, ⟨[], by simp⟩, by rw [← hh]; exact hinv,
      by rw [← hh]; exact hace, by rw [← hh], fun i _ _ => by rw [← hh],
      fun t ht => Or.inl ht, decoded, by rw [← hh]; simpa using hga, by simpa using hf2⟩
  | cons x rest ih =>
    intro prefixOrig outs s2 τ fuel2 h decoded h2 r2 hinv hace hga hlt hp hf2 hnd hok
      henc hdec
    obtain ⟨xk, xv⟩ := x
    simp only [encPairs] at henc
    cases hek : encItem f xk (seenOf τ) with
    | error e =>
      simp only [hek, Bind.bind, Except.bind] at henc
      exact Except.noConfusion henc
    | ok p1 =>
      obtain ⟨ko, s1⟩ := p1
      simp only [hek, Bind.bind, Except.bind] at henc
      cases hev : encItem f xv s1 with
      | error e =>
        simp only [hev] at henc
        exact Except.noConfusion henc
      | ok p2 =>
        obtain ⟨vo, s1'⟩ := p2
        simp only [hev] at henc
        cases hel : encPairs f rest s1' with
        | error e =>
          simp only [hel] at henc
          exact Except.noConfusion henc
        | ok p3 =>
          obtain ⟨os, s2'⟩ := p3
          simp only [hel, Except.ok.injEq, Prod.mk.injEq] at henc
          obtain ⟨ho, hs2⟩ := henc
          rw [← ho] at hdec
          simp only [SOut.toJsonPairs, decMapEntries, decItemOpt, List.get?] at hdec
          cases hd1 : decItem (deserializeObject cm fuel2) ((SOut.toJson ko).getD .null)
              h (refsOf τ) with
          | error e =>
            simp only [hd1, Bind.bind, Except.bind] at hdec
            exact Except.noConfusion hdec
          | ok q1 =>
            obtain ⟨kd, h1, r1⟩ := q1
            simp only [hd1, Bind.bind, Except.bind] at hdec
            have hokx := hok (xk, xv) (by simp)
            obtain ⟨τa, hsa, hra, ⟨ta, hta⟩, hinva, hacea, hlena, hpresa, hnewa, hcorra⟩ :=
              roundItem cm h0 pend Hf xk ko s1 τ fuel2 h kd h1 r1 hokx.1.1 hokx.1.2 hek
                hinv hace hd1
            rw [hra] at hdec
            cases hd2 : decItem (deserializeObject cm fuel2) ((SOut.toJson vo).getD .null)
                h1 (refsOf τa) with
            | error e =>
              simp only [hd2] at hdec
              exact Except.noConfusion hdec
            | ok q2 =>
              obtain ⟨vd, h1', r1'⟩ := q2
              simp only [hd2] at hdec
              rw [hsa] at hev
              obtain ⟨τb, hsb, hrb, ⟨tb, htb⟩, hinvb, haceb, hlenb, hpresb, hnewb, hcorrb⟩ :=
                roundItem cm h0 pend Hf xv vo s1' τa fuel2 h1 vd h1' r1' hokx.2.1 hokx.2.2
                  hev hinva hacea hd2
              rw [hrb] at hdec
              have hga2 : h1'.get? a' = some (.map decoded) := by
                rw [hpresb a' (lt_of_lt_of_le hlt hlena), hpresa a' hlt]
                exact hga
              cases h3m : heapMapPut h1' a' kd vd with
              | error e =>
                simp only [h3m] at hdec
                exact Except.noConfusion hdec
              | ok h3' =>
                simp only [h3m] at hdec
                have hxp : xk ∉ (prefixOrig.map Prod.fst) := by
                  intro hh
                  have hdisj := (List.nodup_append.mp (by simpa using hnd)).2.2
                  exact hdisj hh (by simp)
                have hndsnd : ((tranOf τb).map Prod.snd).Nodup := by
                  rw [tranOf_snd]
                  exact hinvb.2.2
                have hcka : valCorr (tranOf τb) xk kd := by
                  rw [htb, tranOf_append]
                  exact valCorr_mono _ _ _ _ hcorra
                have hckfresh : decoded.lookup kd = none := by
                  rw [lookup_eq_none_iff]
                  intro hmem
                  rw [List.mem_map] at hmem
                  obtain ⟨ep, hep1, hep2⟩ := hmem
                  obtain ⟨y, hy1, hy2⟩ := forall2_mem_right hf2 ep hep1
                  have hyk : valCorr (tranOf τb) y.1 kd := by
                    rw [htb, hta, tranOf_append, tranOf_append]
                    rw [hep2] at hy2
                    exact valCorr_mono _ _ _ _ (valCorr_mono _ _ _ _ hy2.1)
                  have hxy : xk ≠ y.1 := by
                    intro hh
                    apply hxp
                    rw [hh]
                    exact List.mem_map_of_mem Prod.fst hy1
                  exact (valCorr_inj (tranOf τb) hndsnd xk y.1 kd kd hcka hyk hxy) rfl
                have hput : mapPut decoded kd vd = decoded ++ [(kd, vd)] := by
                  unfold mapPut
                  rw [if_neg (by simp [hckfresh])]
                have h3eq : h3' = h1'.set a' (.map (decoded ++ [(kd, vd)])) := by
                  unfold heapMapPut at h3m
                  rw [hga2] at h3m
                  simp only [Except.ok.injEq] at h3m
                  rw [← h3m, hput]
                have hlt2 : a' < h1'.length := lt_of_lt_of_le hlt (le_trans hlena hlenb)
                have hinv3 : decInv h0 h3' τb := by
                  obtain ⟨i1, i2, i3⟩ := hinvb
                  subst h3eq
                  refine ⟨i1, fun t ht => ⟨(i2 t ht).1, ?_⟩, i3⟩
                  have := (i2 t ht).2
                  simpa using this
                have hp1 : ∀ t ∈ τb, t.2.2 = a' → t ∈ pend := by
                  intro t ht hta2
                  rcases hnewb t ht with ht1 | ht1
                  · rcases hnewa t ht1 with ht2 | ht2
                    · exact hp t ht2 hta2
                    · rw [hta2] at ht2
                      exact absurd hlt (not_lt.mpr ht2)
                  · rw [hta2] at ht1
                    exact absurd (lt_of_lt_of_le hlt hlena) (not_lt.mpr ht1)
                have hace3 : decACE h0 h3' τb pend := by
                  rw [h3eq]
                  exact decACE_write h0 h1' τb pend a' _ haceb hp1
                have hga3 : h3'.get? a' = some (.map (decoded ++ [(kd, vd)])) := by
                  rw [h3eq]
                  exact get?_set_self h1' a' _ hlt2
                have hf2' : List.Forall₂ (fun e e' => valCorr (tranOf τb) e.1 e'.1 ∧
                    valCorr (tranOf τb) e.2 e'.2)
                    (prefixOrig ++ [(xk, xv)]) (decoded ++ [(kd, vd)]) := by
                  refine forall2_snoc ?_ ⟨hcka, hcorrb⟩
                  rw [htb, hta, tranOf_append, tranOf_append]
                  exact hf2.imp (fun p q hpq =>
                    ⟨valCorr_mono _ _ _ _ (valCorr_mono _ _ _ _ hpq.1),
                     valCorr_mono _ _ _ _ (valCorr_mono _ _ _ _ hpq.2)⟩)
                have hnd' : (((prefixOrig ++ [(xk, xv)]) ++ rest).map Prod.fst).Nodup := by
                  rw [List.append_assoc, List.singleton_append]
                  exact hnd
                have hok' : ∀ y ∈ (prefixOrig ++ [(xk, xv)]) ++ rest,
                    (valSafe y.1 ∧ valOk h0 y.1) ∧ (valSafe y.2 ∧ valOk h0 y.2) := by
                  intro y hy
                  apply hok
                  rw [List.append_assoc, List.singleton_append] at hy
                  exact hy
                rw [hsb] at hel
                obtain ⟨τ2, hs2', hr2, ⟨t3, ht3⟩, r1c, r2c, r3, r4, r5, decodedAll, r7, r8⟩ :=
                  ih (prefixOrig ++ [(xk, xv)]) os s2' τb fuel2 h3'
                    (decoded ++ [(kd, vd)]) h2 r2 hinv3 hace3 hga3
                    (by rw [h3eq]; simpa using hlt2) hp1 hf2' hnd' hok' hel hdec
                have hlen3 : h.length ≤ h3'.length := by
                  rw [h3eq]
                  simp only [List.length_set]
                  have := le_trans hlena hlenb
                  omega
                refine ⟨τ2, by rw [← hs2, hs2'], hr2,
                  ⟨ta ++ tb ++ t3, by rw [ht3, htb, hta]; simp [List.append_assoc]⟩,
                  r1c, r2c, by omega, fun i hi hia => ?_, fun t ht => ?_,
                  decodedAll, r7, ?_⟩
                · rw [r4 i (by omega) hia, h3eq,
                    get?_set_ne h1' a' i _ (fun hh => hia hh.symm),
                    hpresb i (by omega), hpresa i hi]
                · rcases r5 t ht with ht1 | ht1
                  · rcases hnewb t ht1 with ht2 | ht2
                    · rcases hnewa t ht2 with ht4 | ht4
                      · exact Or.inl ht4
                      · exact Or.inr ht4
                    · exact Or.inr (by omega)
                  · exact Or.inr (by omega)
                · rw [List.append_assoc, List.singleton_append] at r8
                  exact r8

end Serializable

namespace Serializable

/-- Key-loop of the joint simulation for keyed shells (Dates and records):
the decoded shell accumulates the translated properties in order, the two
metadata keys being distinct from every property name and the guard finding
every incoming key still undefined. -/
theorem roundProps (cm : List String) (h0 : Heap) (pend : Tri)
    {f : Value → SeenS → Except Err (SOut × SeenS)}
    (Hf : RoundSim cm h0 pend f)
    (Hsome : ∀ v s o s', f v s = .ok (o, s') → isObject v = true →
      (SOut.toJson o).isSome = true)
    (a' : Addr) (mk : List (String × Value) → Node)
    (Hassign : ∀ ps k v, shellAssign (mk ps) k v = mk (propPut ps k v))
    (Hundef : ∀ ps k, ps.lookup k = none → shellKeyUndef (mk ps) k = true) :
    ∀ (rest prefixOrig : List (String × Value)) (outs : List (String × SOut)) (s2 : SeenS)
      (τ : Tri) (fuel2 : Nat) (h : Heap) (assigned : List (String × Value))
      (h2 : Heap) (r2 : Refs),
      decInv h0 h τ → decACE h0 h τ pend →
      h.get? a' = some (mk assigned) →
      a' < h.length →
      (∀ t ∈ τ, t.2.2 = a' → t ∈ pend) →
      List.Forall₂ (fun p p' => p.1 = p'.1 ∧ valCorr (tranOf τ) p.2 p'.2)
        prefixOrig assigned →
      ((prefixOrig ++ rest).map Prod.fst).Nodup →
      (∀ p ∈ prefixOrig ++ rest, p.1 ≠ "__class" ∧ p.1 ≠ "__id" ∧
        valSafe p.2 ∧ valOk h0 p.2) →
      encProps f rest (seenOf τ) = .ok (outs, s2) →
      decProps (deserializeObject cm fuel2) a' true (SOut.toJsonProps outs) h (refsOf τ) =
        .ok (h2, r2) →
      ∃ τ2, s2 = seenOf τ2 ∧ r2 = refsOf τ2 ∧ (∃ t, τ2 = τ ++ t) ∧
        decInv h0 h2 τ2 ∧ decACE h0 h2 τ2 pend ∧
        h.length ≤ h2.length ∧
        (∀ i, i < h.length → i ≠ a' → h2.get? i = h.get? i) ∧
        (∀ t ∈ τ2, t ∈ τ ∨ h.length ≤ t.2.2) ∧
        ∃ assignedAll, h2.get? a' = some (mk assignedAll) ∧
          List.Forall₂ (fun p p' => p.1 = p'.1 ∧ valCorr (tranOf τ2) p.2 p'.2)
            (prefixOrig ++ rest) assignedAll := by
  intro rest
  induction rest with
  | nil =>
    intro prefixOrig outs s2 τ fuel2 h assigned h2 r2 hinv hace hga hlt hp hf2 hnd hok
      henc hdec
    simp only [encProps, Except.ok.injEq, Prod.mk.injEq] at henc
    obtain ⟨ho, hs⟩ := henc
    rw [← ho] at hdec
    simp only [SOut.toJsonProps, decProps, Except.ok.injEq, Prod.mk.injEq] at hdec
    obtain ⟨hh, hr⟩ := hdec
    exact ⟨τ, hs.symm, hr.symm, ⟨[], by simp⟩, by rw [← hh]; exact hinv,
      by rw [← hh]; exact hace, by rw [← hh], fun i _ _ => by rw [← hh],
      fun t ht => Or.inl ht, assigned, by rw [← hh]; simpa using hga, by simpa using hf2⟩
  | cons x rest ih =>
    intro prefixOrig outs s2 τ fuel2 h assigned h2 r2 hinv hace hga hlt hp hf2 hnd hok
      henc hdec
    obtain ⟨k, xv⟩ := x
    simp only [encProps] at henc
    cases he : encItem f xv (seenOf τ) with
    | error e =>
      simp only [he, Bind.bind, Except.bind] at henc
      exact Except.noConfusion henc
    | ok p1 =>
      obtain ⟨o1, s1⟩ := p1
      simp only [he, Bind.bind, Except.bind] at henc
      cases hel : encProps f rest s1 with
      | error e =>
        simp only [hel] at henc
        exact Except.noConfusion henc
      | ok p2 =>
        obtain ⟨os, s2'⟩ := p2
        simp only [hel, Except.ok.injEq, Prod.mk.injEq] at henc
        obtain ⟨ho, hs2⟩ := henc
        have hxk := hok (k, xv) (by simp)
        have hj1 : ∃ j1, SOut.toJson o1 = some j1 := by
          unfold encItem at he
          by_cases hobj : isObject xv = true
          · rw [if_pos hobj] at he
            exact Option.isSome_iff_exists.mp (Hsome xv (seenOf τ) o1 s1 he hobj)
          · rw [if_neg hobj] at he
            simp only [Except.ok.injEq, Prod.mk.injEq] at he
            cases xv with
            | obj a => exact absurd rfl hobj
            | prim p =>
              rw [← he.1]
              cases p with
              | undef => exact absurd hxk.2.2.1 (by simp [valSafe, primSafe])
              | null => exact ⟨.null, rfl⟩
              | bool b => exact ⟨.bool b, rfl⟩
              | num n => exact ⟨.num n, rfl⟩
              | str s0 => exact ⟨.str s0, rfl⟩
        obtain ⟨j1, hj1⟩ := hj1
        rw [← ho] at hdec
        simp only [SOut.toJsonProps, hj1] at hdec
        have hkc : (k == "__class") = false := beq_eq_false_iff_ne.mpr hxk.1
        have hki : (k == "__id") = false := beq_eq_false_iff_ne.mpr hxk.2.1
        have hkeys : assigned.map Prod.fst = prefixOrig.map Prod.fst :=
          forall2_prop_keys hf2
        have hkfresh : assigned.lookup k = none := by
          rw [lookup_eq_none_iff, hkeys]
          intro hmem
          have hdisj := (List.nodup_append.mp (by simpa using hnd)).2.2
          exact hdisj hmem (by simp)
        have hguard : heapKeyUndef h a' k = true := by
          unfold heapKeyUndef
          rw [hga]
          exact Hundef assigned k hkfresh
        simp only [decProps, hkc, hki, hguard, Bool.or_self, Bool.false_eq_true, if_false,
          Bool.not_true, Bool.and_false] at hdec
        cases hd1 : decItem (deserializeObject cm fuel2) j1 h (refsOf τ) with
        | error e =>
          simp only [hd1, Bind.bind, Except.bind] at hdec
          exact Except.noConfusion hdec
        | ok q1 =>
          obtain ⟨vd, h1, r1⟩ := q1
          simp only [hd1, Bind.bind, Except.bind] at hdec
          have hd1' : decItem (deserializeObject cm fuel2) ((SOut.toJson o1).getD .null)
              h (refsOf τ) = .ok (vd, h1, r1) := by
            rw [hj1]
            exact hd1
          obtain ⟨τa, hsa, hra, ⟨ta, hta⟩, hinva, hacea, hlena, hpresa, hnewa, hcorra⟩ :=
            roundItem cm h0 pend Hf xv o1 s1 τ fuel2 h vd h1 r1 hxk.2.2.1 hxk.2.2.2 he
              hinv hace hd1'
          rw [hra] at hdec
          have hga1 : h1.get? a' = some (mk assigned) := by
            rw [hpresa a' hlt]
            exact hga
          cases h2a : heapAssign h1 a' k vd with
          | error e =>
            simp only [h2a] at hdec
            exact Except.noConfusion hdec
          | ok h1b =>
            simp only [h2a] at hdec
            have hput : propPut assigned k vd = assigned ++ [(k, vd)] := by
              unfold propPut
              rw [if_neg (by simp [hkfresh])]
            have h2eq : h1b = h1.set a' (mk (assigned ++ [(k, vd)])) := by
              unfold heapAssign at h2a
              rw [hga1] at h2a
              simp only [Except.ok.injEq] at h2a
              rw [← h2a, Hassign, hput]
            have hlt1 : a' < h1.length := lt_of_lt_of_le hlt hlena
            have hinvb : decInv h0 h1b τa := by
              obtain ⟨i1, i2, i3⟩ := hinva
              subst h2eq
              refine ⟨i1, fun t ht => ⟨(i2 t ht).1, ?_⟩, i3⟩
              have := (i2 t ht).2
              simpa using this
            have hp1 : ∀ t ∈ τa, t.2.2 = a' → t ∈ pend := by
              intro t ht hta2
              rcases hnewa t ht with ht1 | ht1
              · exact hp t ht1 hta2
              · rw [hta2] at ht1
                exact absurd hlt (not_lt.mpr ht1)
            have haceb : decACE h0 h1b τa pend := by
              rw [h2eq]
              exact decACE_write h0 h1 τa pend a' _ hacea hp1
            have hgab : h1b.get? a' = some (mk (assigned ++ [(k, vd)])) := by
              rw [h2eq]
              exact get?_set_self h1 a' _ hlt1
            have hf2' : List.Forall₂ (fun p p' => p.1 = p'.1 ∧
                valCorr (tranOf τa) p.2 p'.2)
                (prefixOrig ++ [(k, xv)]) (assigned ++ [(k, vd)]) := by
              refine forall2_snoc ?_ ⟨rfl, hcorra⟩
              rw [hta, tranOf_append]
              exact hf2.imp (fun p q hpq => ⟨hpq.1, valCorr_mono _ _ _ _ hpq.2⟩)
            have hnd' : (((prefixOrig ++ [(k, xv)]) ++ rest).map Prod.fst).Nodup := by
              rw [List.append_assoc, List.singleton_append]
              exact hnd
            have hok' : ∀ p ∈ (prefixOrig ++ [(k, xv)]) ++ rest, p.1 ≠ "__class" ∧
                p.1 ≠ "__id" ∧ valSafe p.2 ∧ valOk h0 p.2 := by
              intro p hpm
              apply hok
              rw [List.append_assoc, List.singleton_append] at hpm
              exact hpm
            rw [hsa] at hel
            obtain ⟨τ2, hs2', hr2, ⟨t2, ht2⟩, r1', r2', r3, r4, r5, assignedAll, r7, r8⟩ :=
              ih (prefixOrig ++ [(k, xv)]) os s2' τa fuel2 h1b (assigned ++ [(k, vd)])
                h2 r2 hinvb haceb hgab (by rw [h2eq]; simpa using hlt1) hp1 hf2' hnd' hok'
                hel hdec
            have hlen2 : h.length ≤ h1b.length := by
              rw [h2eq]
              simpa using hlena
            refine ⟨τ2, by rw [← hs2, hs2'], hr2,
              ⟨ta ++ t2, by rw [ht2, hta, List.append_assoc]⟩,
              r1', r2', by omega, fun i hi hia => ?_, fun t ht => ?_,
              assignedAll, r7, ?_⟩
            · rw [r4 i (by omega) hia, h2eq, get?_set_ne h1 a' i _ (fun hh => hia hh.symm),
                hpresa i hi]
            · rcases r5 t ht with ht1 | ht1
              · rcases hnewa t ht1 with ht3 | ht3
                · exact Or.inl ht3
                · exact Or.inr ht3
              · exact Or.inr (by omega)
            · rw [List.append_assoc, List.singleton_append] at r8
              exact r8

end Serializable

namespace Serializable

/-- Key-loop of the joint simulation for a decoded array shell: the index
keys are ignored by the array assignment, which appends the translated
element values in order (the guard is trivially passed, an array shell
reporting every key undefined). -/
theorem roundPropsArr (cm : List String) (h0 : Heap) (pend : Tri)
    {f : Value → SeenS → Except Err (SOut × SeenS)}
    (Hf : RoundSim cm h0 pend f)
    (Hsome : ∀ v s o s', f v s = .ok (o, s') → isObject v = true →
      (SOut.toJson o).isSome = true)
    (a' : Addr) :
    ∀ (rest : List (String × Value)) (prefixVals : List Value)
      (outs : List (String × SOut)) (s2 : SeenS)
      (τ : Tri) (fuel2 : Nat) (h : Heap) (decoded : List Value)
      (h2 : Heap) (r2 : Refs),
      decInv h0 h τ → decACE h0 h τ pend →
      h.get? a' = some (.arr decoded) →
      a' < h.length →
      (∀ t ∈ τ, t.2.2 = a' → t ∈ pend) →
      List.Forall₂ (valCorr (tranOf τ)) prefixVals decoded →
      (∀ p ∈ rest, p.1 ≠ "__class" ∧ p.1 ≠ "__id" ∧ valSafe p.2 ∧ valOk h0 p.2) →
      encProps f rest (seenOf τ) = .ok (outs, s2) →
      decProps (deserializeObject cm fuel2) a' true (SOut.toJsonProps outs) h (refsOf τ) =
        .ok (h2, r2) →
      ∃ τ2, s2 = seenOf τ2 ∧ r2 = refsOf τ2 ∧ (∃ t, τ2 = τ ++ t) ∧
        decInv h0 h2 τ2 ∧ decACE h0 h2 τ2 pend ∧
        h.length ≤ h2.length ∧
        (∀ i, i < h.length → i ≠ a' → h2.get? i = h.get? i) ∧
        (∀ t ∈ τ2, t ∈ τ ∨ h.length ≤ t.2.2) ∧
        ∃ decodedAll, h2.get? a' = some (.arr decodedAll) ∧
          List.Forall₂ (valCorr (tranOf τ2)) (prefixVals ++ rest.map Prod.snd)
            decodedAll := by
  intro rest
  induction rest with
  | nil =>
    intro prefixVals outs s2 τ fuel2 h decoded h2 r2 hinv hace hga hlt hp hf2 hok
      henc hdec
    simp only [encProps, Except.ok.injEq, Prod.mk.injEq] at henc
    obtain ⟨ho, hs⟩ := henc
    rw [← ho] at hdec
    simp only [SOut.toJsonProps, decProps, Except.ok.injEq, Prod.mk.injEq] at hdec
    obtain ⟨hh, hr⟩ := hdec
    exact ⟨τ, hs.symm, hr.symm, ⟨[], by simp⟩, by rw [← hh]; exact hinv,
      by rw [← hh]; exact hace, by rw [← hh], fun i _ _ => by rw [← hh],
      fun t ht => Or.inl ht, decoded, by rw [← hh]; simpa using hga, by simpa using hf2⟩
  | cons x rest ih =>
    intro prefixVals outs s2 τ fuel2 h decoded h2 r2 hinv hace hga hlt hp hf2 hok
      henc hdec
    obtain ⟨k, xv⟩ := x
    simp only [encProps] at henc
    cases he : encItem f xv (seenOf τ) with
    | error e =>
      simp only [he, Bind.bind, Except.bind] at henc
      exact Except.noConfusion henc
    | ok p1 =>
      obtain ⟨o1, s1⟩ := p1
      simp only [he, Bind.bind, Except.bind] at henc
      cases hel : encProps f rest s1 with
      | error e =>
        simp only [hel] at henc
        exact Except.noConfusion henc
      | ok p2 =>
        obtain ⟨os, s2'⟩ := p2
        simp only [hel, Except.ok.injEq, Prod.mk.injEq] at henc
        obtain ⟨ho, hs2⟩ := henc
        have hxk := hok (k, xv) (by simp)
        have hj1 : ∃ j1, SOut.toJson o1 = some j1 := by
          unfold encItem at he
          by_cases hobj : isObject xv = true
          · rw [if_pos hobj] at he
            exact Option.isSome_iff_exists.mp (Hsome xv (seenOf τ) o1 s1 he hobj)
          · rw [if_neg hobj] at he
            simp only [Except.ok.injEq, Prod.mk.injEq] at he
            cases xv with
            | obj a => exact absurd rfl hobj
            | prim p =>
              rw [← he.1]
              cases p with
              | undef => exact absurd hxk.2.2.1 (by simp [valSafe, primSafe])
              | null => exact ⟨.null, rfl⟩
              | bool b => exact ⟨.bool b, rfl⟩
              | num n => exact ⟨.num n, rfl⟩
              | str s0 => exact ⟨.str s0, rfl⟩
        obtain ⟨j1, hj1⟩ := hj1
        rw [← ho] at hdec
        simp only [SOut.toJsonProps, hj1] at hdec
        have hkc : (k == "__class") = false := beq_eq_false_iff_ne.mpr hxk.1
        have hki : (k == "__id") = false := beq_eq_false_iff_ne.mpr hxk.2.1
        have hguard : heapKeyUndef h a' k = true := by
          unfold heapKeyUndef
          rw [hga]
          rfl
        simp only [decProps, hkc, hki, hguard, Bool.or_self, Bool.false_eq_true, if_false,
          Bool.not_true, Bool.and_false] at hdec
        cases hd1 : decItem (deserializeObject cm fuel2) j1 h (refsOf τ) with
        | error e =>
          simp only [hd1, Bind.bind, Except.bind] at hdec
          exact Except.noConfusion hdec
        | ok q1 =>
          obtain ⟨vd, h1, r1⟩ := q1
          simp only [hd1, Bind.bind, Except.bind] at hdec
          have hd1' : decItem (deserializeObject cm fuel2) ((SOut.toJson o1).getD .null)
              h (refsOf τ) = .ok (vd, h1, r1) := by
            rw [hj1]
            exact hd1
          obtain ⟨τa, hsa, hra, ⟨ta, hta⟩, hinva, hacea, hlena, hpresa, hnewa, hcorra⟩ :=
            roundItem cm h0 pend Hf xv o1 s1 τ fuel2 h vd h1 r1 hxk.2.2.1 hxk.2.2.2 he
              hinv hace hd1'
          rw [hra] at hdec
          have hga1 : h1.get? a' = some (.arr decoded) := by
            rw [hpresa a' hlt]
            exact hga
          cases h2a : heapAssign h1 a' k vd with
          | error e =>
            simp only [h2a] at hdec
            exact Except.noConfusion hdec
          | ok h1b =>
            simp only [h2a] at hdec
            have h2eq : h1b = h1.set a' (.arr (decoded ++ [vd])) := by
              unfold heapAssign at h2a
              rw [hga1] at h2a
              simp only [Except.ok.injEq] at h2a
              rw [← h2a]
              rfl
            have hlt1 : a' < h1.length := lt_of_lt_of_le hlt hlena
            have hinvb : decInv h0 h1b τa := by
              obtain ⟨i1, i2, i3⟩ := hinva
              subst h2eq
              refine ⟨i1, fun t ht => ⟨(i2 t ht).1, ?_⟩, i3⟩
              have := (i2 t ht).2
              simpa using this
            have hp1 : ∀ t ∈ τa, t.2.2 = a' → t ∈ pend := by
              intro t ht hta2
              rcases hnewa t ht with ht1 | ht1
              · exact hp t ht1 hta2
              · rw [hta2] at ht1
                exact absurd hlt (not_lt.mpr ht1)
            have haceb : decACE h0 h1b τa pend := by
              rw [h2eq]
              exact decACE_write h0 h1 τa pend a' _ hacea hp1
            have hgab : h1b.get? a' = some (.arr (decoded ++ [vd])) := by
              rw [h2eq]
              exact get?_set_self h1 a' _ hlt1
            have hf2' : List.Forall₂ (valCorr (tranOf τa)) (prefixVals ++ [xv])
                (decoded ++ [vd]) := by
              refine forall2_snoc ?_ hcorra
              rw [hta, tranOf_append]
              exact hf2.imp (fun p q hpq => valCorr_mono _ _ p q hpq)
            have hok' : ∀ p ∈ rest, p.1 ≠ "__class" ∧ p.1 ≠ "__id" ∧
                valSafe p.2 ∧ valOk h0 p.2 := fun p hpm => hok p (by simp [hpm])
            rw [hsa] at hel
            obtain ⟨τ2, hs2', hr2, ⟨t2, ht2⟩, r1', r2', r3, r4, r5, decodedAll, r7, r8⟩ :=
              ih (prefixVals ++ [xv]) os s2' τa fuel2 h1b (decoded ++ [vd])
                h2 r2 hinvb haceb hgab (by rw [h2eq]; simpa using hlt1) hp1 hf2' hok'
                hel hdec
            have hlen2 : h.length ≤ h1b.length := by
              rw [h2eq]
              simpa using hlena
            refine ⟨τ2, by rw [← hs2, hs2'], hr2,
              ⟨ta ++ t2, by rw [ht2, hta, List.append_assoc]⟩,
              r1', r2', by omega, fun i hi hia => ?_, fun t ht => ?_,
              decodedAll, r7, ?_⟩
            · rw [r4 i (by omega) hia, h2eq, get?_set_ne h1 a' i _ (fun hh => hia hh.symm),
                hpresa i hi]
            · rcases r5 t ht with ht1 | ht1
              · rcases hnewa t ht1 with ht3 | ht3
                · exact Or.inl ht3
                · exact Or.inr ht3
              · exact Or.inr (by omega)
            · rw [List.append_assoc, List.singleton_append] at r8
              simpa using r8

end Serializable

namespace Serializable

theorem decItem_obj (f : Json → Heap → Refs → Except Err (Value × Heap × Refs))
    (j : Json) (h : Heap) (r : Refs) (hobj : jIsObject j = true) :
    decItem f j h r = f j h r := by
  unfold decItem
  rw [hobj]
  rfl

theorem decItem_objlit (f : Json → Heap → Refs → Except Err (Value × Heap × Refs))
    (ps : List (String × Json)) (h : Heap) (r : Refs) :
    decItem f (Json.obj ps) h r = f (Json.obj ps) h r := decItem_obj f _ h r rfl

/-- dec_step_reg with the registry hypothesis first, so that the shape of the
decoded object is pinned down before the remaining side conditions are
checked. -/
theorem dec_step_reg2 (cm : List String) (fuel : Nat) (j : Json) (h : Heap) (r : Refs)
    (cls : String)
    (hcls : decCtor cm (jget j "__class") = some cls)
    (hobj : jIsObject j = true) (htr : truthy (jget j "__ref") = false) :
    deserializeObject cm (fuel + 1) j h r =
      (match decPayload (deserializeObject cm fuel) h.length j (decShell cls j)
          (h ++ [decShell cls j]) (refsPut r (jget j "__id") (.obj h.length)) with
        | .error e => .error e
        | .ok (h2, r2) => .ok (.obj h.length, h2, r2)) :=
  dec_step_reg cm fuel j h r cls hobj htr hcls

theorem encProps_keys {f : Value → SeenS → Except Err (SOut × SeenS)} :
    ∀ (l : List (String × Value)) (s : SeenS) (outs : List (String × SOut)) (s' : SeenS),
      encProps f l s = .ok (outs, s') → outs.map Prod.fst = l.map Prod.fst := by
  intro l
  induction l with
  | nil =>
    intro s outs s' h
    simp only [encProps, Except.ok.injEq, Prod.mk.injEq] at h
    rw [← h.1]
    rfl
  | cons p ps ih =>
    intro s outs s' h
    obtain ⟨k, v⟩ := p
    simp only [encProps] at h
    cases he : encItem f v s with
    | error e =>
      simp only [he, Bind.bind, Except.bind] at h
      exact Except.noConfusion h
    | ok p1 =>
      obtain ⟨o1, s1⟩ := p1
      simp only [he, Bind.bind, Except.bind] at h
      cases hl : encProps f ps s1 with
      | error e =>
        simp only [hl] at h
        exact Except.noConfusion h
      | ok p2 =>
        obtain ⟨os1, s2⟩ := p2
        simp only [hl, Except.ok.injEq, Prod.mk.injEq] at h
        rw [← h.1]
        simp only [List.map_cons]
        rw [ih s1 os1 s2 hl]

theorem toJsonProps_keys_sub : ∀ (outs : List (String × SOut)) (p : String × Json),
    p ∈ SOut.toJsonProps outs → p.1 ∈ outs.map Prod.fst := by
  intro outs
  induction outs with
  | nil => intro p hp; simp [SOut.toJsonProps] at hp
  | cons q outs ih =>
    intro p hp
    obtain ⟨k, o⟩ := q
    simp only [SOut.toJsonProps] at hp
    cases hto : SOut.toJson o with
    | none =>
      rw [hto] at hp
      exact List.mem_cons_of_mem _ (ih p hp)
    | some jv =>
      rw [hto] at hp
      rcases List.mem_cons.mp hp with hp1 | hp1
      · rw [hp1]
        exact List.mem_cons_self _ _
      · exact List.mem_cons_of_mem _ (ih p hp1)

end Serializable

namespace Serializable

/-- Joint encode/decode simulation: over a well-formed, fully registered and
round-trip clean heap, the decoder run on the JSON image of an encoder output
rebuilds a graph related to the original by the joint table, entry by
entry. -/
theorem round_sim (cm : List String) (h0 : Heap) (hwf : WfHeap h0)
    (hreg : ∀ n ∈ h0, nodeRegistered cm n) :
    ∀ (fuel : Nat) (pend : Tri),
      RoundSim cm h0 pend (serializeObject cm [] h0 fuel) := by
  intro fuel
  induction fuel with
  | zero =>
    intro pend v o s' τ fuel2 h v' h' r' _ _ henc _ _ _
    exact Except.noConfusion henc
  | succ fuel ih =>
    intro pend v o s' τ fuel2 h v' h' r' hsafe hok henc hinv hace hdec
    cases v with
    | prim p =>
      rw [ser_step_prim] at henc
      simp only [Except.ok.injEq, Prod.mk.injEq] at henc
      obtain ⟨ho, hs⟩ := henc
      have hpd := prim_dec_id p hsafe
      rw [← ho] at hdec
      simp only [SOut.toJson] at hdec
      unfold decItem at hdec
      rw [hpd.1] at hdec
      simp only [Bool.false_eq_true, if_false, Except.ok.injEq, Prod.mk.injEq] at hdec
      obtain ⟨hv, hh, hr⟩ := hdec
      refine ⟨τ, hs.symm, hr.symm, ⟨[], by simp⟩, by rw [← hh]; exact hinv,
        by rw [← hh]; exact hace, by rw [← hh], fun i _ => by rw [← hh],
        fun t ht => Or.inl ht, ?_⟩
      rw [← hv, hpd.2]
      simp [valCorr]
    | obj a =>
      cases hl : (seenOf τ).lookup a with
      | some id =>
        rw [ser_step_seen cm [] h0 fuel a (seenOf τ) id hl] at henc
        simp only [Except.ok.injEq, Prod.mk.injEq] at henc
        obtain ⟨ho, hs⟩ := henc
        rw [← ho] at hdec
        simp only [SOut.toJson, Option.getD_some] at hdec
        rw [decItem_objlit _ _ _ _] at hdec
        cases fuel2 with
        | zero => simp [deserializeObject] at hdec
        | succ g =>
          obtain ⟨c0, k0, hid⟩ := SeenWf_lookup_shape (seenOf τ) hinv.1 a id hl
          have htr : truthy (jget (Json.obj [("__ref", Json.str id)]) "__ref") = true := by
            show (!(id == "")) = true
            rw [hid, idString_ne_empty]
            rfl
          rw [dec_step_ref cm g (Json.obj [("__ref", Json.str id)]) h (refsOf τ)
            rfl htr] at hdec
          simp only [Except.ok.injEq, Prod.mk.injEq] at hdec
          obtain ⟨hv, hh, hr⟩ := hdec
          have hids : (τ.map (fun t => t.2.1)).Nodup := by
            have hn := SeenWf_ids_nodup (seenOf τ) hinv.1
            rw [seenOf_snd] at hn
            exact hn
          obtain ⟨a', hmem, hlta, hlr⟩ := tau_lookup τ hids a id hl
          refine ⟨τ, hs.symm, hr.symm, ⟨[], by simp⟩, by rw [← hh]; exact hinv,
            by rw [← hh]; exact hace, by rw [← hh], fun i _ => by rw [← hh],
            fun t ht => Or.inl ht, ?_⟩
          rw [← hv]
          show valCorr (tranOf τ) (.obj a)
            (refsGet (refsOf τ) (jget (Json.obj [("__ref", Json.str id)]) "__ref"))
          show valCorr (tranOf τ) (.obj a) (refsGet (refsOf τ) (some (Json.str id)))
          unfold refsGet
          rw [hlr]
          exact hlta
      | none =>
        have hvb : a < h0.length := hok
        have hg0 : h0.get? a = some (h0.get ⟨a, hvb⟩) := List.get?_eq_get hvb
        have hn0 : h0.get ⟨a, hvb⟩ ∈ h0 := List.get_mem h0 a hvb
        have hnwf : nodeWf h0 (h0.get ⟨a, hvb⟩) := hwf _ hn0
        have hnreg : nodeRegistered cm (h0.get ⟨a, hvb⟩) := hreg _ hn0
        have hanotin : a ∉ (seenOf τ).map Prod.fst := (lookup_eq_none_iff _ a).mp hl
        have htra : (tranOf τ).lookup a = none := by
          rw [lookup_eq_none_iff, tranOf_fst]
          rw [seenOf_fst] at hanotin
          exact hanotin
        have halloc : ∀ (c : String) (shell : Node),
            SeenWf (seenOf (τ ++ [(a, c ++ "_" ++ Nat.repr (seenOf τ).length, h.length)])) ∧
            decInv h0 (h ++ [shell])
              (τ ++ [(a, c ++ "_" ++ Nat.repr (seenOf τ).length, h.length)]) ∧
            decACE h0 (h ++ [shell])
              (τ ++ [(a, c ++ "_" ++ Nat.repr (seenOf τ).length, h.length)])
              ((a, c ++ "_" ++ Nat.repr (seenOf τ).length, h.length) :: pend) ∧
            (∀ t ∈ τ ++ [(a, c ++ "_" ++ Nat.repr (seenOf τ).length, h.length)],
              t.2.2 = h.length →
              t ∈ (a, c ++ "_" ++ Nat.repr (seenOf τ).length, h.length) :: pend) ∧
            refsPut (refsOf τ) (some (Json.str (c ++ "_" ++ Nat.repr (seenOf τ).length)))
              (.obj h.length) =
              refsOf (τ ++ [(a, c ++ "_" ++ Nat.repr (seenOf τ).length, h.length)]) ∧
            seenOf (τ ++ [(a, c ++ "_" ++ Nat.repr (seenOf τ).length, h.length)]) =
              seenOf τ ++ [(a, c ++ "_" ++ Nat.repr (seenOf τ).length)] := by
          intro c shell
          have hseq : seenOf (τ ++ [(a, c ++ "_" ++ Nat.repr (seenOf τ).length, h.length)]) =
              seenOf τ ++ [(a, c ++ "_" ++ Nat.repr (seenOf τ).length)] := by
            rw [seenOf_append]
            rfl
          have hswf1 : SeenWf
              (seenOf (τ ++ [(a, c ++ "_" ++ Nat.repr (seenOf τ).length, h.length)])) := by
            rw [hseq]
            exact SeenWf_snoc (seenOf τ) a c hinv.1 hl
          have hidfresh : (c ++ "_" ++ Nat.repr (seenOf τ).length) ∉
              τ.map (fun t => t.2.1) := by
            have hn := SeenWf_ids_nodup _ hswf1
            rw [hseq, List.map_append] at hn
            have hdisj := (List.nodup_append.mp hn).2.2
            intro hmem
            have hmem2 : (c ++ "_" ++ Nat.repr (seenOf τ).length) ∈
                (seenOf τ).map Prod.snd := by
              rw [seenOf_snd]
              exact hmem
            exact hdisj hmem2 (by simp)
          refine ⟨hswf1, ⟨hswf1, fun t ht => ?_, ?_⟩, ?_, ?_, ?_, hseq⟩
          · rcases List.mem_append.mp ht with ht1 | ht1
            · obtain ⟨j1, j2⟩ := hinv.2.1 t ht1
              refine ⟨j1, ?_⟩
              simp only [List.length_append, List.length_singleton]
              exact Nat.lt_succ_of_lt j2
            · simp only [List.mem_singleton] at ht1
              subst ht1
              refine ⟨hvb, ?_⟩
              simp only [List.length_append, List.length_singleton]
              exact Nat.lt_succ_self _
          · simp only [List.map_append, List.map_cons, List.map_nil]
            rw [List.nodup_append]
            refine ⟨hinv.2.2, List.nodup_singleton _, ?_⟩
            intro x hx hxa
            simp only [List.mem_singleton] at hxa
            subst hxa
            rw [List.mem_map] at hx
            obtain ⟨t, ht1, ht2⟩ := hx
            have := (hinv.2.1 t ht1).2
            rw [ht2] at this
            exact absurd this (lt_irrefl _)
          · exact decACE_alloc h0 h τ pend a _ h.length shell hace hinv
          · intro t ht hta2
            rcases List.mem_append.mp ht with ht1 | ht1
            · have hlth := (hinv.2.1 t ht1).2
              rw [hta2] at hlth
              exact absurd hlth (lt_irrefl _)
            · simp only [List.mem_singleton] at ht1
              subst ht1
              exact List.mem_cons_self _ _
          · rw [refsPut_fresh _ _ _ (refsOf_lookup_none τ _ hidfresh), refsOf_append]
            rfl
        have hfinish : ∀ (c : String) (shell : Node) (τ2 : Tri) (h2 : Heap) (nf : Node),
            (∃ t0, τ2 = (τ ++ [(a, c ++ "_" ++ Nat.repr (seenOf τ).length, h.length)]) ++ t0) →
            decInv h0 h2 τ2 →
            decACE h0 h2 τ2 ((a, c ++ "_" ++ Nat.repr (seenOf τ).length, h.length) :: pend) →
            (h ++ [shell]).length ≤ h2.length →
            (∀ i, i < (h ++ [shell]).length → i ≠ h.length →
              h2.get? i = (h ++ [shell]).get? i) →
            (∀ t ∈ τ2, t ∈ τ ++ [(a, c ++ "_" ++ Nat.repr (seenOf τ).length, h.length)] ∨
              (h ++ [shell]).length ≤ t.2.2) →
            h2.get? h.length = some nf →
            decNodeCorr (tranOf τ2) (h0.get ⟨a, hvb⟩) nf →
            ((∃ t, τ2 = τ ++ t) ∧ decInv h0 h2 τ2 ∧ decACE h0 h2 τ2 pend ∧
              h.length ≤ h2.length ∧ (∀ i, i < h.length → h2.get? i = h.get? i) ∧
              (∀ t ∈ τ2, t ∈ τ ∨ h.length ≤ t.2.2) ∧
              valCorr (tranOf τ2) (.obj a) (.obj h.length)) := by
          intro c shell τ2 h2 nf hext rinv race rlen rpres rnew rnf rcorr
          obtain ⟨t0, ht0⟩ := hext
          have hdone : decDone h0 h2 τ2 (a, c ++ "_" ++ Nat.repr (seenOf τ).length,
              h.length) := ⟨h0.get ⟨a, hvb⟩, nf, hg0, rnf, rcorr⟩
          simp only [List.length_append, List.length_singleton] at rlen
          refine ⟨⟨[(a, c ++ "_" ++ Nat.repr (seenOf τ).length, h.length)] ++ t0,
              by rw [ht0, List.append_assoc]⟩,
            rinv, fun t ht => ?_, by omega, fun i hi => ?_, fun t ht => ?_, ?_⟩
          · rcases race t ht with hq | hq
            · rcases List.mem_cons.mp hq with hq1 | hq1
              · subst hq1
                exact Or.inr hdone
              · exact Or.inl hq1
            · exact Or.inr hq
          · rw [rpres i (by simp only [List.length_append, List.length_singleton]; omega)
              (by omega), get?_append_left h [shell] i hi]
          · rcases rnew t ht with ht1 | ht1
            · rcases List.mem_append.mp ht1 with ht2 | ht2
              · exact Or.inl ht2
              · simp only [List.mem_singleton] at ht2
                subst ht2
                exact Or.inr (le_refl _)
            · simp only [List.length_append, List.length_singleton] at ht1
              exact Or.inr (le_trans (Nat.le_succ _) ht1)
          · show (tranOf τ2).lookup a = some h.length
            rw [ht0, tranOf_append, tranOf_append]
            exact lookup_fresh_append (tranOf τ) (tranOf t0) a h.length htra
        cases hnode : h0.get ⟨a, hvb⟩ with
        | set elems =>
          rw [hnode] at hnwf hnreg hg0
          have hcont : cm.contains (getClassName "Set") = true :=
            registered_contains cm (.set elems) "Set" hnreg rfl
          rw [ser_step_fresh_reg cm [] h0 fuel a (seenOf τ) (.set elems) "Set"
            hl hg0 rfl hcont] at henc
          rw [show getClassName "Set" = "Set" from rfl] at henc
          simp only [serPayload, hasSerializedSymbol_nil] at henc
          cases hel : encList (serializeObject cm [] h0 fuel) elems
              (seenOf τ ++ [(a, "Set" ++ "_" ++ Nat.repr (seenOf τ).length)]) with
          | error e =>
            simp only [hel, Bind.bind, Except.bind] at henc
            exact Except.noConfusion henc
          | ok p =>
            obtain ⟨outs, s2⟩ := p
            simp only [hel, Bind.bind, Except.bind, Except.ok.injEq, Prod.mk.injEq] at henc
            obtain ⟨ho, hs⟩ := henc
            rw [← ho] at hdec
            simp only [SOut.toJson, markedProps_false, List.append_nil,
              Option.getD_some] at hdec
            rw [decItem_objlit _ _ _ _] at hdec
            cases fuel2 with
            | zero => simp [deserializeObject] at hdec
            | succ g =>
              have hcls : decCtor cm (jget (Json.obj [("__class", Json.str "Set"),
                  ("__id", Json.str ("Set" ++ "_" ++ Nat.repr (seenOf τ).length)),
                  ("values", Json.arr (SOut.toJsonList outs)),
                  ("__set", Json.bool true)]) "__class") = some "Set" := by
                show decCtor cm (some (Json.str "Set")) = some "Set"
                simp only [decCtor, show cm.contains "Set" = true from hcont, if_true]
              rw [dec_step_reg2 cm g _ h (refsOf τ) "Set" hcls rfl rfl] at hdec
              have hshell : decShell "Set" (Json.obj [("__class", Json.str "Set"),
                  ("__id", Json.str ("Set" ++ "_" ++ Nat.repr (seenOf τ).length)),
                  ("values", Json.arr (SOut.toJsonList outs)),
                  ("__set", Json.bool true)]) = Node.set [] := rfl
              rw [hshell] at hdec
              have hidget : jget (Json.obj [("__class", Json.str "Set"),
                  ("__id", Json.str ("Set" ++ "_" ++ Nat.repr (seenOf τ).length)),
                  ("values", Json.arr (SOut.toJsonList outs)),
                  ("__set", Json.bool true)]) "__id" =
                  some (Json.str ("Set" ++ "_" ++ Nat.repr (seenOf τ).length)) := rfl
              rw [hidget] at hdec
              obtain ⟨hswf1, hinv1, hace1, hpend1, hrput, hseq⟩ := halloc "Set" (Node.set [])
              rw [hrput] at hdec
              have hpd : decPayload (deserializeObject cm g) h.length
                  (Json.obj [("__class", Json.str "Set"),
                    ("__id", Json.str ("Set" ++ "_" ++ Nat.repr (seenOf τ).length)),
                    ("values", Json.arr (SOut.toJsonList outs)),
                    ("__set", Json.bool true)]) (Node.set []) (h ++ [Node.set []])
                  (refsOf (τ ++ [(a, "Set" ++ "_" ++ Nat.repr (seenOf τ).length,
                    h.length)])) =
                  decSetItems (deserializeObject cm g) h.length (SOut.toJsonList outs)
                    (h ++ [Node.set []])
                    (refsOf (τ ++ [(a, "Set" ++ "_" ++ Nat.repr (seenOf τ).length,
                      h.length)])) := rfl
              rw [hpd] at hdec
              cases hdp : decSetItems (deserializeObject cm g) h.length
                  (SOut.toJsonList outs) (h ++ [Node.set []])
                  (refsOf (τ ++ [(a, "Set" ++ "_" ++ Nat.repr (seenOf τ).length,
                    h.length)])) with
              | error e =>
                rw [hdp] at hdec
                exact Except.noConfusion hdec
              | ok q =>
                obtain ⟨h2, r2⟩ := q
                rw [hdp] at hdec
                simp only [Except.ok.injEq, Prod.mk.injEq] at hdec
                obtain ⟨hv, hh, hr⟩ := hdec
                rw [← hseq] at hel
                have hga1 : (h ++ [Node.set []]).get? h.length = some (Node.set []) :=
                  get?_append_self h _
                have hlt1 : h.length < (h ++ [Node.set []]).length := by simp
                obtain ⟨τ2, hs2, hr2, hext2, rinv, race, rlen, rpres, rnew,
                    decodedAll, r7, r8⟩ :=
                  roundSetItems cm h0 ((a, "Set" ++ "_" ++ Nat.repr (seenOf τ).length,
                      h.length) :: pend)
                    (ih _) h.length elems [] outs s2
                    (τ ++ [(a, "Set" ++ "_" ++ Nat.repr (seenOf τ).length, h.length)])
                    g (h ++ [Node.set []]) [] h2 r2
                    hinv1 hace1 hga1 hlt1 hpend1 List.Forall₂.nil
                    (by simpa using hnwf.1)
                    (by
                      intro x hx
                      simp only [List.nil_append] at hx
                      exact ⟨hnreg.2 x hx, hnwf.2 x hx⟩)
                    hel hdp
                obtain ⟨hext', rinv', race', rlen', rpres', rnew', rcorr'⟩ :=
                  hfinish "Set" (Node.set []) τ2 h2 (Node.set decodedAll)
                    hext2 rinv race rlen rpres rnew r7
                    (by
                      rw [hnode]
                      simp only [decNodeCorr]
                      simpa using r8)
                exact ⟨τ2, by rw [← hs, hs2], by rw [← hr]; exact hr2, hext',
                  by rw [← hh]; exact rinv', by rw [← hh]; exact race',
                  by rw [← hh]; exact rlen', fun i hi => by rw [← hh]; exact rpres' i hi,
                  rnew', by rw [← hv]; exact rcorr'⟩
        | map entries =>
          rw [hnode] at hnwf hnreg hg0
          have hcont : cm.contains (getClassName "Map") = true :=
            registered_contains cm (.map entries) "Map" hnreg rfl
          rw [ser_step_fresh_reg cm [] h0 fuel a (seenOf τ) (.map entries) "Map"
            hl hg0 rfl hcont] at henc
          rw [show getClassName "Map" = "Map" from rfl] at henc
          simp only [serPayload, hasSerializedSymbol_nil] at henc
          cases hel : encPairs (serializeObject cm [] h0 fuel) entries
              (seenOf τ ++ [(a, "Map" ++ "_" ++ Nat.repr (seenOf τ).length)]) with
          | error e =>
            simp only [hel, Bind.bind, Except.bind] at henc
            exact Except.noConfusion henc
          | ok p =>
            obtain ⟨outs, s2⟩ := p
            simp only [hel, Bind.bind, Except.bind, Except.ok.injEq, Prod.mk.injEq] at henc
            obtain ⟨ho, hs⟩ := henc
            rw [← ho] at hdec
            simp only [SOut.toJson, markedProps_false, List.append_nil,
              Option.getD_some] at hdec
            rw [decItem_objlit _ _ _ _] at hdec
            cases fuel2 with
            | zero => simp [deserializeObject] at hdec
            | succ g =>
              have hcls : decCtor cm (jget (Json.obj [("__class", Json.str "Map"),
                  ("__id", Json.str ("Map" ++ "_" ++ Nat.repr (seenOf τ).length)),
                  ("entries", Json.arr (SOut.toJsonPairs outs)),
                  ("__map", Json.bool true)]) "__class") = some "Map" := by
                show decCtor cm (some (Json.str "Map")) = some "Map"
                simp only [decCtor, show cm.contains "Map" = true from hcont, if_true]
              rw [dec_step_reg2 cm g _ h (refsOf τ) "Map" hcls rfl rfl] at hdec
              have hshell : decShell "Map" (Json.obj [("__class", Json.str "Map"),
                  ("__id", Json.str ("Map" ++ "_" ++ Nat.repr (seenOf τ).length)),
                  ("entries", Json.arr (SOut.toJsonPairs outs)),
                  ("__map", Json.bool true)]) = Node.map [] := rfl
              rw [hshell] at hdec
              have hidget : jget (Json.obj [("__class", Json.str "Map"),
                  ("__id", Json.str ("Map" ++ "_" ++ Nat.repr (seenOf τ).length)),
                  ("entries", Json.arr (SOut.toJsonPairs outs)),
                  ("__map", Json.bool true)]) "__id" =
                  some (Json.str ("Map" ++ "_" ++ Nat.repr (seenOf τ).length)) := rfl
              rw [hidget] at hdec
              obtain ⟨hswf1, hinv1, hace1, hpend1, hrput, hseq⟩ := halloc "Map" (Node.map [])
              rw [hrput] at hdec
              have hpd : decPayload (deserializeObject cm g) h.length
                  (Json.obj [("__class", Json.str "Map"),
                    ("__id", Json.str ("Map" ++ "_" ++ Nat.repr (seenOf τ).length)),
                    ("entries", Json.arr (SOut.toJsonPairs outs)),
                    ("__map", Json.bool true)]) (Node.map []) (h ++ [Node.map []])
                  (refsOf (τ ++ [(a, "Map" ++ "_" ++ Nat.repr (seenOf τ).length,
                    h.length)])) =
                  decMapEntries (deserializeObject cm g) h.length (SOut.toJsonPairs outs)
                    (h ++ [Node.map []])
                    (refsOf (τ ++ [(a, "Map" ++ "_" ++ Nat.repr (seenOf τ).length,
                      h.length)])) := rfl
              rw [hpd] at hdec
              cases hdp : decMapEntries (deserializeObject cm g) h.length
                  (SOut.toJsonPairs outs) (h ++ [Node.map []])
                  (refsOf (τ ++ [(a, "Map" ++ "_" ++ Nat.repr (seenOf τ).length,
                    h.length)])) with
              | error e =>
                rw [hdp] at hdec
                exact Except.noConfusion hdec
              | ok q =>
                obtain ⟨h2, r2⟩ := q
                rw [hdp] at hdec
                simp only [Except.ok.injEq, Prod.mk.injEq] at hdec
                obtain ⟨hv, hh, hr⟩ := hdec
                rw [← hseq] at hel
                have hga1 : (h ++ [Node.map []]).get? h.length = some (Node.map []) :=
                  get?_append_self h _
                have hlt1 : h.length < (h ++ [Node.map []]).length := by simp
                obtain ⟨τ2, hs2, hr2, hext2, rinv, race, rlen, rpres, rnew,
                    decodedAll, r7, r8⟩ :=
                  roundMapEntries cm h0 ((a, "Map" ++ "_" ++ Nat.repr (seenOf τ).length,
                      h.length) :: pend)
                    (ih _) h.length entries [] outs s2
                    (τ ++ [(a, "Map" ++ "_" ++ Nat.repr (seenOf τ).length, h.length)])
                    g (h ++ [Node.map []]) [] h2 r2
                    hinv1 hace1 hga1 hlt1 hpend1 List.Forall₂.nil
                    (by simpa using hnwf.1)
                    (by
                      intro x hx
                      simp only [List.nil_append] at hx
                      exact ⟨⟨(hnreg.2 x hx).1, (hnwf.2 x hx).1⟩,
                        ⟨(hnreg.2 x hx).2, (hnwf.2 x hx).2⟩⟩)
                    hel hdp
                obtain ⟨hext', rinv', race', rlen', rpres', rnew', rcorr'⟩ :=
                  hfinish "Map" (Node.map []) τ2 h2 (Node.map decodedAll)
                    hext2 rinv race rlen rpres rnew r7
                    (by
                      rw [hnode]
                      simp only [decNodeCorr]
                      simpa using r8)
                exact ⟨τ2, by rw [← hs, hs2], by rw [← hr]; exact hr2, hext',
                  by rw [← hh]; exact rinv', by rw [← hh]; exact race',
                  by rw [← hh]; exact rlen', fun i hi => by rw [← hh]; exact rpres' i hi,
                  rnew', by rw [← hv]; exact rcorr'⟩
        | arr elems =>
          rw [hnode] at hnwf hnreg hg0
          have hcont : cm.contains (getClassName "Array") = true :=
            registered_contains cm (.arr elems) "Array" hnreg rfl
          rw [ser_step_fresh_reg cm [] h0 fuel a (seenOf τ) (.arr elems) "Array"
            hl hg0 rfl hcont] at henc
          rw [show getClassName "Array" = "Array" from rfl] at henc
          simp only [serPayload, hasSerializedSymbol_nil] at henc
          cases hel : encProps (serializeObject cm [] h0 fuel) (indexedProps elems)
              (seenOf τ ++ [(a, "Array" ++ "_" ++ Nat.repr (seenOf τ).length)]) with
          | error e =>
            simp only [hel, Bind.bind, Except.bind] at henc
            exact Except.noConfusion henc
          | ok p =>
            obtain ⟨outs, s2⟩ := p
            simp only [hel, Bind.bind, Except.bind, Except.ok.injEq, Prod.mk.injEq] at henc
            obtain ⟨ho, hs⟩ := henc
            rw [← ho] at hdec
            simp only [SOut.toJson, markedProps_false, List.append_nil, List.cons_append,
              List.nil_append, Option.getD_some] at hdec
            rw [decItem_objlit _ _ _ _] at hdec
            cases fuel2 with
            | zero => simp [deserializeObject] at hdec
            | succ g =>
              have houtk : outs.map Prod.fst = (indexedProps elems).map Prod.fst :=
                encProps_keys _ _ _ _ hel
              have hktail : ∀ p ∈ SOut.toJsonProps outs, ∃ i : Nat, p.1 = Nat.repr i := by
                intro p hp
                have h1 := toJsonProps_keys_sub outs p hp
                rw [houtk] at h1
                simp only [indexedProps, List.map_map, Function.comp] at h1
                obtain ⟨q, hq, hq2⟩ := List.mem_map.mp h1
                exact ⟨q.1, hq2.symm⟩
              have href : jget (Json.obj (("__class", Json.str "Array") ::
                  ("__id", Json.str ("Array" ++ "_" ++ Nat.repr (seenOf τ).length)) ::
                  SOut.toJsonProps outs)) "__ref" = none := by
                apply jget_none
                intro p hp
                rcases List.mem_cons.mp hp with h1 | hp1
                · rw [h1]
                  exact (by decide : ("__class" : String) ≠ "__ref")
                · rcases List.mem_cons.mp hp1 with h2 | hp2
                  · rw [h2]
                    exact (by decide : ("__id" : String) ≠ "__ref")
                  · obtain ⟨i, hi⟩ := hktail p hp2
                    rw [hi]
                    exact repr_ne_underscored i "__ref" (by decide)
              have htr : truthy (jget (Json.obj (("__class", Json.str "Array") ::
                  ("__id", Json.str ("Array" ++ "_" ++ Nat.repr (seenOf τ).length)) ::
                  SOut.toJsonProps outs)) "__ref") = false := by
                rw [href]
                rfl
              have hcls : decCtor cm (jget (Json.obj (("__class", Json.str "Array") ::
                  ("__id", Json.str ("Array" ++ "_" ++ Nat.repr (seenOf τ).length)) ::
                  SOut.toJsonProps outs)) "__class") = some "Array" := by
                show decCtor cm (some (Json.str "Array")) = some "Array"
                simp only [decCtor, show cm.contains "Array" = true from hcont, if_true]
              rw [dec_step_reg2 cm g _ h (refsOf τ) "Array" hcls rfl htr] at hdec
              have hshell : decShell "Array" (Json.obj (("__class", Json.str "Array") ::
                  ("__id", Json.str ("Array" ++ "_" ++ Nat.repr (seenOf τ).length)) ::
                  SOut.toJsonProps outs)) = Node.arr [] := rfl
              rw [hshell] at hdec
              have hidget : jget (Json.obj (("__class", Json.str "Array") ::
                  ("__id", Json.str ("Array" ++ "_" ++ Nat.repr (seenOf τ).length)) ::
                  SOut.toJsonProps outs)) "__id" =
                  some (Json.str ("Array" ++ "_" ++ Nat.repr (seenOf τ).length)) := rfl
              rw [hidget] at hdec
              obtain ⟨hswf1, hinv1, hace1, hpend1, hrput, hseq⟩ :=
                halloc "Array" (Node.arr [])
              rw [hrput] at hdec
              have hpd : decPayload (deserializeObject cm g) h.length
                  (Json.obj (("__class", Json.str "Array") ::
                    ("__id", Json.str ("Array" ++ "_" ++ Nat.repr (seenOf τ).length)) ::
                    SOut.toJsonProps outs)) (Node.arr []) (h ++ [Node.arr []])
                  (refsOf (τ ++ [(a, "Array" ++ "_" ++ Nat.repr (seenOf τ).length,
                    h.length)])) =
                  decProps (deserializeObject cm g) h.length true (SOut.toJsonProps outs)
                    (h ++ [Node.arr []])
                    (refsOf (τ ++ [(a, "Array" ++ "_" ++ Nat.repr (seenOf τ).length,
                      h.length)])) := rfl
              rw [hpd] at hdec
              cases hdp : decProps (deserializeObject cm g) h.length true
                  (SOut.toJsonProps outs) (h ++ [Node.arr []])
                  (refsOf (τ ++ [(a, "Array" ++ "_" ++ Nat.repr (seenOf τ).length,
                    h.length)])) with
              | error e =>
                rw [hdp] at hdec
                exact Except.noConfusion hdec
              | ok q =>
                obtain ⟨h2, r2⟩ := q
                rw [hdp] at hdec
                simp only [Except.ok.injEq, Prod.mk.injEq] at hdec
                obtain ⟨hv, hh, hr⟩ := hdec
                rw [← hseq] at hel
                have hga1 : (h ++ [Node.arr []]).get? h.length = some (Node.arr []) :=
                  get?_append_self h _
                have hlt1 : h.length < (h ++ [Node.arr []]).length := by simp
                obtain ⟨τ2, hs2, hr2, hext2, rinv, race, rlen, rpres, rnew,
                    decodedAll, r7, r8⟩ :=
                  roundPropsArr cm h0 ((a, "Array" ++ "_" ++ Nat.repr (seenOf τ).length,
                      h.length) :: pend)
                    (ih _)
                    (fun v s o s2x hrun hobj =>
                      (ser_output_clean cm [] h0 hreg fuel v s o s2x hrun).2 hobj)
                    h.length (indexedProps elems) [] outs s2
                    (τ ++ [(a, "Array" ++ "_" ++ Nat.repr (seenOf τ).length, h.length)])
                    g (h ++ [Node.arr []]) [] h2 r2
                    hinv1 hace1 hga1 hlt1 hpend1 List.Forall₂.nil
                    (by
                      intro p hp
                      obtain ⟨q, hq, hq2⟩ := List.mem_map.mp
                        (show p.1 ∈ (indexedProps elems).map Prod.fst from
                          List.mem_map_of_mem Prod.fst hp)
                      have hp2 : p.2 ∈ elems := indexedProps_mem_snd elems p hp
                      have hkey : ∃ i : Nat, p.1 = Nat.repr i := by
                        have h1 : p.1 ∈ (indexedProps elems).map Prod.fst :=
                          List.mem_map_of_mem Prod.fst hp
                        simp only [indexedProps, List.map_map, Function.comp] at h1
                        obtain ⟨q2, hq2a, hq2b⟩ := List.mem_map.mp h1
                        exact ⟨q2.1, hq2b.symm⟩
                      obtain ⟨i, hi⟩ := hkey
                      refine ⟨by rw [hi]; exact repr_ne_underscored i "__class" (by decide),
                        by rw [hi]; exact repr_ne_underscored i "__id" (by decide),
                        hnreg.2 p.2 hp2, hnwf p.2 hp2⟩)
                    hel hdp
                obtain ⟨hext', rinv', race', rlen', rpres', rnew', rcorr'⟩ :=
                  hfinish "Array" (Node.arr []) τ2 h2 (Node.arr decodedAll)
                    hext2 rinv race rlen rpres rnew r7
                    (by
                      rw [hnode]
                      simp only [decNodeCorr]
                      rw [List.nil_append, indexedProps_snd] at r8
                      exact r8)
                exact ⟨τ2, by rw [← hs, hs2], by rw [← hr]; exact hr2, hext',
                  by rw [← hh]; exact rinv', by rw [← hh]; exact race',
                  by rw [← hh]; exact rlen', fun i hi => by rw [← hh]; exact rpres' i hi,
                  rnew', by rw [← hv]; exact rcorr'⟩
        | date instant ps =>
          rw [hnode] at hnwf hnreg hg0
          obtain ⟨hdreg, hps⟩ := hnreg
          subst hps
          have hcont : cm.contains (getClassName "Date") = true :=
            registered_contains cm (.date instant []) "Date" ⟨hdreg, rfl⟩ rfl
          rw [ser_step_fresh_reg cm [] h0 fuel a (seenOf τ) (.date instant []) "Date"
            hl hg0 rfl hcont] at henc
          rw [show getClassName "Date" = "Date" from rfl] at henc
          simp only [serPayload, hasSerializedSymbol_nil, Except.ok.injEq,
            Prod.mk.injEq] at henc
          obtain ⟨ho, hs⟩ := henc
          rw [← ho] at hdec
          simp only [SOut.toJson, markedProps_false, List.append_nil,
            Option.getD_some] at hdec
          rw [decItem_objlit _ _ _ _] at hdec
          cases fuel2 with
          | zero => simp [deserializeObject] at hdec
          | succ g =>
            have hcls : decCtor cm (jget (Json.obj [("__class", Json.str "Date"),
                ("__id", Json.str ("Date" ++ "_" ++ Nat.repr (seenOf τ).length)),
                ("__date", Json.bool true), ("date", Json.str instant)]) "__class")
                = some "Date" := by
              show decCtor cm (some (Json.str "Date")) = some "Date"
              simp only [decCtor, show cm.contains "Date" = true from hcont, if_true]
            rw [dec_step_reg2 cm g _ h (refsOf τ) "Date" hcls rfl rfl] at hdec
            have hshell : decShell "Date" (Json.obj [("__class", Json.str "Date"),
                ("__id", Json.str ("Date" ++ "_" ++ Nat.repr (seenOf τ).length)),
                ("__date", Json.bool true), ("date", Json.str instant)]) =
                Node.date instant [] := rfl
            rw [hshell] at hdec
            have hidget : jget (Json.obj [("__class", Json.str "Date"),
                ("__id", Json.str ("Date" ++ "_" ++ Nat.repr (seenOf τ).length)),
                ("__date", Json.bool true), ("date", Json.str instant)]) "__id" =
                some (Json.str ("Date" ++ "_" ++ Nat.repr (seenOf τ).length)) := rfl
            rw [hidget] at hdec
            obtain ⟨hswf1, hinv1, hace1, hpend1, hrput, hseq⟩ :=
              halloc "Date" (Node.date instant [])
            rw [hrput] at hdec
            have hpd : decPayload (deserializeObject cm g) h.length
                (Json.obj [("__class", Json.str "Date"),
                  ("__id", Json.str ("Date" ++ "_" ++ Nat.repr (seenOf τ).length)),
                  ("__date", Json.bool true), ("date", Json.str instant)])
                (Node.date instant []) (h ++ [Node.date instant []])
                (refsOf (τ ++ [(a, "Date" ++ "_" ++ Nat.repr (seenOf τ).length,
                  h.length)])) =
                decProps (deserializeObject cm g) h.length true
                  [("__date", Json.bool true), ("date", Json.str instant)]
                  (h ++ [Node.date instant []])
                  (refsOf (τ ++ [(a, "Date" ++ "_" ++ Nat.repr (seenOf τ).length,
                    h.length)])) := rfl
            rw [hpd] at hdec
            have hlt1 : h.length < (h ++ [Node.date instant []]).length := by simp
            have hb1 : (("__date" : String) == "__class" ||
                ("__date" : String) == "__id") = false := by decide
            have hku1 : heapKeyUndef (h ++ [Node.date instant []]) h.length
                "__date" = true := by
              unfold heapKeyUndef
              rw [get?_append_self]
              rfl
            have hha1 : heapAssign (h ++ [Node.date instant []]) h.length "__date"
                (.prim (.bool true)) = .ok ((h ++ [Node.date instant []]).set h.length
                  (Node.date instant [("__date", .prim (.bool true))])) := by
              unfold heapAssign
              rw [get?_append_self]
              rfl
            have hstep1 : decProps (deserializeObject cm g) h.length true
                [("__date", Json.bool true), ("date", Json.str instant)]
                (h ++ [Node.date instant []])
                (refsOf (τ ++ [(a, "Date" ++ "_" ++ Nat.repr (seenOf τ).length,
                  h.length)])) =
                decProps (deserializeObject cm g) h.length true
                  [("date", Json.str instant)]
                  ((h ++ [Node.date instant []]).set h.length
                    (Node.date instant [("__date", .prim (.bool true))]))
                  (refsOf (τ ++ [(a, "Date" ++ "_" ++ Nat.repr (seenOf τ).length,
                    h.length)])) := by
              simp only [decProps, hb1, Bool.false_eq_true, if_false, hku1, Bool.not_true,
                Bool.and_false, Bind.bind, Except.bind,
                show decItem (deserializeObject cm g) (Json.bool true)
                    (h ++ [Node.date instant []])
                    (refsOf (τ ++ [(a, "Date" ++ "_" ++ Nat.repr (seenOf τ).length,
                      h.length)])) =
                  .ok (.prim (.bool true), h ++ [Node.date instant []],
                    refsOf (τ ++ [(a, "Date" ++ "_" ++ Nat.repr (seenOf τ).length,
                      h.length)])) from rfl, hha1]
            have hb2 : (("date" : String) == "__class" ||
                ("date" : String) == "__id") = false := by decide
            have hku2 : heapKeyUndef ((h ++ [Node.date instant []]).set h.length
                (Node.date instant [("__date", .prim (.bool true))])) h.length
                "date" = true := by
              unfold heapKeyUndef
              rw [get?_set_self _ _ _ hlt1]
              rfl
            have hha2 : heapAssign ((h ++ [Node.date instant []]).set h.length
                (Node.date instant [("__date", .prim (.bool true))])) h.length "date"
                (.prim (.str instant)) =
                .ok (((h ++ [Node.date instant []]).set h.length
                  (Node.date instant [("__date", .prim (.bool true))])).set h.length
                  (Node.date instant [("__date", .prim (.bool true)),
                    ("date", .prim (.str instant))])) := by
              unfold heapAssign
              rw [get?_set_self _ _ _ hlt1]
              rfl
            have hstep2 : decProps (deserializeObject cm g) h.length true
                [("date", Json.str instant)]
                ((h ++ [Node.date instant []]).set h.length
                  (Node.date instant [("__date", .prim (.bool true))]))
                (refsOf (τ ++ [(a, "Date" ++ "_" ++ Nat.repr (seenOf τ).length,
                  h.length)])) =
                .ok ((((h ++ [Node.date instant []]).set h.length
                  (Node.date instant [("__date", .prim (.bool true))])).set h.length
                  (Node.date instant [("__date", .prim (.bool true)),
                    ("date", .prim (.str instant))])),
                  refsOf (τ ++ [(a, "Date" ++ "_" ++ Nat.repr (seenOf τ).length,
                    h.length)])) := by
              simp only [decProps, hb2, Bool.false_eq_true, if_false, hku2, Bool.not_true,
                Bool.and_false, Bind.bind, Except.bind,
                show decItem (deserializeObject cm g) (Json.str instant)
                    ((h ++ [Node.date instant []]).set h.length
                      (Node.date instant [("__date", .prim (.bool true))]))
                    (refsOf (τ ++ [(a, "Date" ++ "_" ++ Nat.repr (seenOf τ).length,
                      h.length)])) =
                  .ok (.prim (.str instant), (h ++ [Node.date instant []]).set h.length
                    (Node.date instant [("__date", .prim (.bool true))]),
                    refsOf (τ ++ [(a, "Date" ++ "_" ++ Nat.repr (seenOf τ).length,
                      h.length)])) from rfl, hha2]
            rw [hstep1, hstep2] at hdec
            simp only [Except.ok.injEq, Prod.mk.injEq] at hdec
            obtain ⟨hv, hh, hr⟩ := hdec
            have hlt2 : h.length < ((h ++ [Node.date instant []]).set h.length
                (Node.date instant [("__date", .prim (.bool true))])).length := by
              simp only [List.length_set]
              exact hlt1
            obtain ⟨hext', rinv', race', rlen', rpres', rnew', rcorr'⟩ :=
              hfinish "Date" (Node.date instant [])
                (τ ++ [(a, "Date" ++ "_" ++ Nat.repr (seenOf τ).length, h.length)])
                (((h ++ [Node.date instant []]).set h.length
                  (Node.date instant [("__date", .prim (.bool true))])).set h.length
                  (Node.date instant [("__date", .prim (.bool true)),
                    ("date", .prim (.str instant))]))
                (Node.date instant [("__date", .prim (.bool true)),
                  ("date", .prim (.str instant))])
                ⟨[], by simp⟩
                (by
                  obtain ⟨i1, i2, i3⟩ := hinv1
                  refine ⟨i1, fun t ht => ⟨(i2 t ht).1, ?_⟩, i3⟩
                  have := (i2 t ht).2
                  simpa using this)
                (decACE_write h0 _ _ _ h.length _
                  (decACE_write h0 _ _ _ h.length _ hace1 hpend1) hpend1)
                (by simp)
                (fun i hi hia => by
                  rw [get?_set_ne _ _ _ _ (fun hq => hia hq.symm),
                    get?_set_ne _ _ _ _ (fun hq => hia hq.symm)])
                (fun t ht => Or.inl ht)
                (get?_set_self _ _ _ hlt2)
                (by
                  rw [hnode]
                  simp [decNodeCorr])
            exact ⟨τ ++ [(a, "Date" ++ "_" ++ Nat.repr (seenOf τ).length, h.length)],
              by rw [← hs, hseq], by rw [← hr], hext',
              by rw [← hh]; exact rinv', by rw [← hh]; exact race',
              by rw [← hh]; exact rlen', fun i hi => by rw [← hh]; exact rpres' i hi,
              rnew', by rw [← hv]; exact rcorr'⟩
        | record cr ps =>
          rw [hnode] at hnwf hnreg hg0
          obtain ⟨⟨cname, hc1, hmemcm, hgcn, hneA⟩, hpreg⟩ := hnreg
          subst hc1
          have hcontc : cm.contains cname = true := List.elem_eq_true_of_mem hmemcm
          have hcont : cm.contains (getClassName cname) = true := by
            rw [hgcn]
            exact hcontc
          rw [ser_step_fresh_reg cm [] h0 fuel a (seenOf τ) (.record (some cname) ps)
            cname hl hg0 rfl hcont] at henc
          rw [hgcn] at henc
          simp only [serPayload, hasSerializedSymbol_nil] at henc
          cases hel : encProps (serializeObject cm [] h0 fuel) ps
              (seenOf τ ++ [(a, cname ++ "_" ++ Nat.repr (seenOf τ).length)]) with
          | error e =>
            simp only [hel, Bind.bind, Except.bind] at henc
            exact Except.noConfusion henc
          | ok p =>
            obtain ⟨outs, s2⟩ := p
            simp only [hel, Bind.bind, Except.bind, Except.ok.injEq, Prod.mk.injEq] at henc
            obtain ⟨ho, hs⟩ := henc
            rw [← ho] at hdec
            simp only [SOut.toJson, markedProps_false, List.append_nil, List.cons_append,
              List.nil_append, Option.getD_some] at hdec
            rw [decItem_objlit _ _ _ _] at hdec
            cases fuel2 with
            | zero => simp [deserializeObject] at hdec
            | succ g =>
              have houtk : outs.map Prod.fst = ps.map Prod.fst :=
                encProps_keys _ _ _ _ hel
              have hmeta : ∀ p ∈ SOut.toJsonProps outs, p.1 ∉ metaNames := by
                intro p hp
                have h1 := toJsonProps_keys_sub outs p hp
                rw [houtk] at h1
                obtain ⟨q, hq, hq2⟩ := List.mem_map.mp h1
                rw [← hq2]
                exact (hpreg q hq).1
              have hjnone : ∀ key : String, key ∈ metaNames → key ≠ "__class" →
                  key ≠ "__id" →
                  jget (Json.obj (("__class", Json.str cname) ::
                    ("__id", Json.str (cname ++ "_" ++ Nat.repr (seenOf τ).length)) ::
                    SOut.toJsonProps outs)) key = none := by
                intro key hkmem hk1 hk2
                apply jget_none
                intro p hp
                rcases List.mem_cons.mp hp with h1 | hp1
                · rw [h1]
                  exact fun hq => hk1 hq.symm
                · rcases List.mem_cons.mp hp1 with h2 | hp2
                  · rw [h2]
                    exact fun hq => hk2 hq.symm
                  · exact fun hq => (hmeta p hp2) (hq ▸ hkmem)
              have htr : truthy (jget (Json.obj (("__class", Json.str cname) ::
                  ("__id", Json.str (cname ++ "_" ++ Nat.repr (seenOf τ).length)) ::
                  SOut.toJsonProps outs)) "__ref") = false := by
                rw [hjnone "__ref" (by decide) (by decide) (by decide)]
                rfl
              have hcls : decCtor cm (jget (Json.obj (("__class", Json.str cname) ::
                  ("__id", Json.str (cname ++ "_" ++ Nat.repr (seenOf τ).length)) ::
                  SOut.toJsonProps outs)) "__class") = some cname := by
                show decCtor cm (some (Json.str cname)) = some cname
                simp only [decCtor, hcontc, if_true]
              rw [dec_step_reg2 cm g _ h (refsOf τ) cname hcls rfl htr] at hdec
              have hshell : decShell cname (Json.obj (("__class", Json.str cname) ::
                  ("__id", Json.str (cname ++ "_" ++ Nat.repr (seenOf τ).length)) ::
                  SOut.toJsonProps outs)) = Node.record (some cname) [] := by
                unfold decShell
                rw [show (cname == "Array") = false from beq_eq_false_iff_ne.mpr hneA]
                rw [hjnone "__set" (by decide) (by decide) (by decide)]
                rw [hjnone "__map" (by decide) (by decide) (by decide)]
                rw [hjnone "__date" (by decide) (by decide) (by decide)]
                rfl
              rw [hshell] at hdec
              have hidget : jget (Json.obj (("__class", Json.str cname) ::
                  ("__id", Json.str (cname ++ "_" ++ Nat.repr (seenOf τ).length)) ::
                  SOut.toJsonProps outs)) "__id" =
                  some (Json.str (cname ++ "_" ++ Nat.repr (seenOf τ).length)) := rfl
              rw [hidget] at hdec
              obtain ⟨hswf1, hinv1, hace1, hpend1, hrput, hseq⟩ :=
                halloc cname (Node.record (some cname) [])
              rw [hrput] at hdec
              have hpd : decPayload (deserializeObject cm g) h.length
                  (Json.obj (("__class", Json.str cname) ::
                    ("__id", Json.str (cname ++ "_" ++ Nat.repr (seenOf τ).length)) ::
                    SOut.toJsonProps outs)) (Node.record (some cname) [])
                  (h ++ [Node.record (some cname) []])
                  (refsOf (τ ++ [(a, cname ++ "_" ++ Nat.repr (seenOf τ).length,
                    h.length)])) =
                  decProps (deserializeObject cm g) h.length true (SOut.toJsonProps outs)
                    (h ++ [Node.record (some cname) []])
                    (refsOf (τ ++ [(a, cname ++ "_" ++ Nat.repr (seenOf τ).length,
                      h.length)])) := rfl
              rw [hpd] at hdec
              cases hdp : decProps (deserializeObject cm g) h.length true
                  (SOut.toJsonProps outs) (h ++ [Node.record (some cname) []])
                  (refsOf (τ ++ [(a, cname ++ "_" ++ Nat.repr (seenOf τ).length,
                    h.length)])) with
              | error e =>
                rw [hdp] at hdec
                exact Except.noConfusion hdec
              | ok q =>
                obtain ⟨h2, r2⟩ := q
                rw [hdp] at hdec
                simp only [Except.ok.injEq, Prod.mk.injEq] at hdec
                obtain ⟨hv, hh, hr⟩ := hdec
                rw [← hseq] at hel
                have hga1 : (h ++ [Node.record (some cname) []]).get? h.length =
                    some (Node.record (some cname) []) := get?_append_self h _
                have hlt1 : h.length < (h ++ [Node.record (some cname) []]).length := by
                  simp
                obtain ⟨τ2, hs2, hr2, hext2, rinv, race, rlen, rpres, rnew,
                    assignedAll, r7, r8⟩ :=
                  roundProps cm h0 ((a, cname ++ "_" ++ Nat.repr (seenOf τ).length,
                      h.length) :: pend)
                    (ih _)
                    (fun v s o s2x hrun hobj =>
                      (ser_output_clean cm [] h0 hreg fuel v s o s2x hrun).2 hobj)
                    h.length (Node.record (some cname)) (fun _ _ _ => rfl)
                    (fun psx k hk => by simp [shellKeyUndef, hk])
                    ps [] outs s2
                    (τ ++ [(a, cname ++ "_" ++ Nat.repr (seenOf τ).length, h.length)])
                    g (h ++ [Node.record (some cname) []]) [] h2 r2
                    hinv1 hace1 hga1 hlt1 hpend1 List.Forall₂.nil
                    (by simpa using hnwf.1)
                    (by
                      intro p hp
                      simp only [List.nil_append] at hp
                      have hm := (hpreg p hp).1
                      exact ⟨fun hq => hm (by rw [hq]; decide),
                        fun hq => hm (by rw [hq]; decide),
                        (hpreg p hp).2, hnwf.2 p hp⟩)
                    hel hdp
                obtain ⟨hext', rinv', race', rlen', rpres', rnew', rcorr'⟩ :=
                  hfinish cname (Node.record (some cname) []) τ2 h2
                    (Node.record (some cname) assignedAll)
                    hext2 rinv race rlen rpres rnew r7
                    (by
                      rw [hnode]
                      simp only [decNodeCorr]
                      exact ⟨by trivial, by simpa using r8⟩)
                exact ⟨τ2, by rw [← hs, hs2], by rw [← hr]; exact hr2, hext',
                  by rw [← hh]; exact rinv', by rw [← hh]; exact race',
                  by rw [← hh]; exact rlen', fun i hi => by rw [← hh]; exact rpres' i hi,
                  rnew', by rw [← hv]; exact rcorr'⟩

end Serializable

/-- C1 (amended): the round trip deserialize(serialize(v)) is structurally
faithful exactly on fully registered clean graphs. For a well-formed heap in
which every node is a registered class instance with metadata-free property
names, no undefined values, Dates without own properties, and no
decorator-marked class, a successful serialize followed by a successful
deserialize yields a value related to the original by an address translation
that is total on the traversal, duplicate-free on both sides (so the sharing
topology is preserved by identity: two properties that pointed to the same
object point to the same single decoded object), and under which every
reached original node and its decoded image have the same kind and the same
own properties/elements (a decoded Date additionally carrying the two
bookkeeping own properties the decoder writes). On unregistered plain
records this fails, as the separate counterexample shows. -/
theorem c1_amended_registered_round_trip (cm : List String) (h0 : Heap) (v : Value)
    (fuel fuel2 : Nat) (j : Json) (v' : Value) (h' : Heap) (r' : Serializable.Refs)
    (hreg : RegisteredHeap cm h0) (hsafe : valSafe v) (hok : valOk h0 v)
    (hser : Serializable.serialize cm [] h0 fuel v = .ok (some j))
    (hdec : Serializable.deserialize cm fuel2 j = .ok (v', h', r')) :
    ∃ φ : List (Addr × Addr),
      valCorr φ v v' ∧ (φ.map Prod.fst).Nodup ∧ (φ.map Prod.snd).Nodup ∧
      ∀ e ∈ φ, ∃ n n', h0.get? e.1 = some n ∧ h'.get? e.2 = some n' ∧
        decNodeCorr φ n n' := by
  unfold Serializable.serialize at hser
  cases hso : Serializable.serializeObject cm [] h0 fuel v [] with
  | error e =>
    simp only [hso, Bind.bind, Except.bind] at hser
    exact Except.noConfusion hser
  | ok p =>
    obtain ⟨o, sEnd⟩ := p
    simp only [hso, Bind.bind, Except.bind] at hser
    have hnr := (Serializable.ser_output_clean cm [] h0 hreg.2 fuel v [] o sEnd hso).1
    have hoj : (some j : Option Json) = Serializable.SOut.toJson o :=
      Serializable.jsonify_toJson h0 fuel o (some j) hnr hser
    have hdec1 : Serializable.decItem (Serializable.deserializeObject cm fuel2)
        j [] [] = .ok (v', h', r') := by
      unfold Serializable.deserialize at hdec
      unfold Serializable.decItem
      by_cases hobj : Serializable.jIsObject j = true
      · rw [if_pos hobj]
        exact hdec
      · rw [if_neg hobj]
        cases fuel2 with
        | zero => exact absurd hdec (by simp [Serializable.deserializeObject])
        | succ g =>
          rw [Serializable.dec_step_prim cm g j [] [] (by simpa using hobj)] at hdec
          exact hdec
    have hdec2 : Serializable.decItem (Serializable.deserializeObject cm fuel2)
        ((Serializable.SOut.toJson o).getD .null) [] (Serializable.refsOf []) =
        .ok (v', h', r') := by
      rw [← hoj]
      exact hdec1
    have hso1 : Serializable.serializeObject cm [] h0 fuel v (Serializable.seenOf []) =
        .ok (o, sEnd) := hso
    have hinv0 : Serializable.decInv h0 [] [] :=
      ⟨Serializable.SeenWf_nil, fun t ht => absurd ht (List.not_mem_nil t),
        List.nodup_nil⟩
    have hace0 : Serializable.decACE h0 [] [] [] :=
      fun t ht => absurd ht (List.not_mem_nil t)
    obtain ⟨τ2, hs2, hr2, hext, hinv2, hace2, _, _, _, hcorr⟩ :=
      Serializable.round_sim cm h0 hreg.1 hreg.2 fuel [] v o sEnd [] fuel2 [] v' h' r'
        hsafe hok hso1 hinv0 hace0 hdec2
    refine ⟨Serializable.tranOf τ2, hcorr, ?_, ?_, ?_⟩
    · rw [Serializable.tranOf_fst]
      have h1 := hinv2.1.1
      rw [Serializable.seenOf_fst] at h1
      exact h1
    · rw [Serializable.tranOf_snd]
      exact hinv2.2.2
    · intro e he
      obtain ⟨t, ht, hte⟩ := List.mem_map.mp he
      obtain ⟨n, n', hn1, hn2, hn3⟩ := (hace2 t ht).resolve_left (List.not_mem_nil t)
      exact ⟨n, n', by rw [← hte]; exact hn1, by rw [← hte]; exact hn2, hn3⟩

/-- C1 witness: the registered tagged instance p of class P with p.a and p.b
bound to the same Set round-trips: serialize emits one encoding and one
back-reference, and the decode rebuilds an identical heap in which a and b
are again the same single object, exhibited by the translation table. -/
theorem c1_amended_witness :
    RegisteredHeap exSharedCm ex1H ∧ valSafe (Value.obj 0) ∧ valOk ex1H (Value.obj 0) ∧
    Serializable.serialize exSharedCm [] ex1H 9 (Value.obj 0) = .ok (some ex1J) ∧
    Serializable.deserialize exSharedCm 9 ex1J = .ok (Value.obj 0, ex1H, ex1R) ∧
    (∃ φ : List (Addr × Addr),
      valCorr φ (Value.obj 0) (Value.obj 0) ∧
      (φ.map Prod.fst).Nodup ∧ (φ.map Prod.snd).Nodup ∧
      ∀ e ∈ φ, ∃ n n', ex1H.get? e.1 = some n ∧ ex1H.get? e.2 = some n' ∧
        decNodeCorr φ n n') := by
  have hreg : RegisteredHeap exSharedCm ex1H := by
    constructor
    · intro n hn
      simp only [ex1H, List.mem_cons, List.not_mem_nil, or_false] at hn
      rcases hn with h | h <;> subst h
      · refine ⟨by decide, fun p hp => ?_⟩
        rcases List.mem_cons.mp hp with h1 | hp1
        · subst h1; exact Nat.one_lt_two
        · rcases List.mem_cons.mp hp1 with h1 | hp2
          · subst h1; exact Nat.one_lt_two
          · exact absurd hp2 (List.not_mem_nil p)
      · refine ⟨by decide, fun w hw => ?_⟩
        rcases List.mem_cons.mp hw with h1 | hw1
        · subst h1; trivial
        · exact absurd hw1 (List.not_mem_nil w)
    · intro n hn
      simp only [ex1H, List.mem_cons, List.not_mem_nil, or_false] at hn
      rcases hn with h | h <;> subst h
      · refine ⟨⟨"P", rfl, by decide, rfl, by decide⟩, fun p hp => ?_⟩
        rcases List.mem_cons.mp hp with h1 | hp1
        · subst h1; exact ⟨by decide, trivial⟩
        · rcases List.mem_cons.mp hp1 with h1 | hp2
          · subst h1; exact ⟨by decide, trivial⟩
          · exact absurd hp2 (List.not_mem_nil p)
      · refine ⟨by decide, fun w hw => ?_⟩
        rcases List.mem_cons.mp hw with h1 | hw1
        · subst h1; trivial
        · exact absurd hw1 (List.not_mem_nil w)
  have hok : valOk ex1H (Value.obj 0) := Nat.zero_lt_two
  exact ⟨hreg, trivial, hok, rfl, rfl,
    c1_amended_registered_round_trip exSharedCm ex1H (Value.obj 0) 9 9 ex1J
      (Value.obj 0) ex1H ex1R hreg trivial hok rfl rfl⟩
